import Mathlib

/-!
Verification of the vendor-relationship graph engine.

This file gives a shallow embedding of the graph engine of the repository:

* `find_paths` — the relational-backend bounded multi-path BFS
  (`app/services/vendor_graph.py`, `VendorGraphService.find_paths`);
* `find_shortest_path` — single-target BFS with a global visited set
  (`VendorGraphService.find_shortest_path`);
* `neo4j_find_paths` — the native graph backend's variable-length
  pattern query (`app/services/neo4j_service.py`, `Neo4jGraphService.find_paths`);
* `hybrid_find_paths` / `hybrid_find_shortest_path` — the backend selector
  (`app/services/hybrid_graph_service.py`);
* `analyze_supply_chain_risk`, `deep_vendor_search`,
  `nth_party_vendor_assessment` — the risk-aggregation endpoints
  (`app/api/risk_management.py`).

Relationship strengths are floats in the source; they are embedded as exact
rationals (`ℚ`), the standard idealisation the specification's floating-point
tolerance allows.  Python's stable `list.sort` is embedded as a stable
insertion sort (`pySort`): a stable sort's output is uniquely determined by
the key order and the input order, so any stable sort is a faithful model.
Database reads (`SELECT ... WHERE`) are embedded as list filters over a graph
snapshot, preserving row order.
-/

/-- A vendor record.  Modelled from the spec (§3) and `schemas/vendor.py`:
the ORM module `app/models.py` itself is not in the source tree, but every
field the graph engine reads (`vendor_id`, `vendor_name`, `industry`) is
pinned by `VendorOutput` / `VendorNode` and the spec's data model. -/
structure Vendor where
  vendor_id : String
  vendor_name : String
  industry : Option String
  country : Option String
  description : Option String
deriving DecidableEq

/-- A directed vendor relationship (edge).  Modelled from the spec (§3) and
`RelationshipOutput` in `schemas/vendor.py`: `id`, `source_vendor_id`,
`target_vendor_id`, `relationship_type`, `strength`, `description`,
`created_at`, `verified`. -/
structure VendorRelationship where
  id : Nat
  source_vendor_id : String
  target_vendor_id : String
  relationship_type : String
  strength : ℚ
  description : Option String
  created_at : Nat
  verified : Bool
deriving DecidableEq

/-- A node of a returned path (`VendorNode` in `schemas/vendor.py`). -/
structure VendorNode where
  vendor_id : String
  vendor_name : String
  industry : Option String
  depth : Nat
deriving DecidableEq

/-- A path of relationships (`RelationshipPath` in `schemas/vendor.py`).
`relationships` keeps the traversed edges themselves; the source copies each
edge field-for-field into a `RelationshipOutput`.  `risk_score` is optional
with default `none`, exactly as in the schema. -/
structure RelationshipPath where
  source_vendor_id : String
  target_vendor_id : String
  path : List VendorNode
  relationships : List VendorRelationship
  total_strength : ℚ
  path_length : Nat
  risk_score : Option ℚ := none
deriving DecidableEq

/-- A snapshot of the vendor/relationship tables: the graph both backends
query.  Row order is the table's row order. -/
structure VendorGraph where
  vendors : List Vendor
  rels : List VendorRelationship
deriving DecidableEq

/-- `VendorGraphService._get_vendor`: `SELECT ... WHERE vendor_id = x`,
`.first()`. -/
def VendorGraph.getVendor (g : VendorGraph) (vendor_id : String) : Option Vendor :=
  g.vendors.find? (fun v => v.vendor_id == vendor_id)

/-- `VendorGraphService._get_outgoing_relationships`: select the outgoing
edges of `vendor_id` with `strength >= min_strength`, and filter by type
when `relationship_types` is a non-empty list (Python's truthiness test:
`None` and `[]` both mean "no type filter"). -/
def VendorGraph.outgoingRelationships (g : VendorGraph) (vendor_id : String)
    (relationship_types : Option (List String)) (min_strength : ℚ) :
    List VendorRelationship :=
  let base := g.rels.filter
    (fun r => r.source_vendor_id == vendor_id && decide (min_strength ≤ r.strength))
  match relationship_types with
  | none => base
  | some ts => if ts.isEmpty then base else base.filter (fun r => ts.contains r.relationship_type)

/-- Stable insertion of `x` into a sorted list: `x` goes in front of the first
element `y` that is not strictly below it (`lt y x = false`), so equal-key
elements keep their original order. -/
def pyInsert {α : Type} (lt : α → α → Bool) (x : α) : List α → List α
  | [] => [x]
  | y :: ys => if lt y x then y :: pyInsert lt x ys else x :: y :: ys

/-- Stable insertion sort: the embedding of Python's stable `list.sort` /
`sorted` with a strict key comparison `lt`. -/
def pySort {α : Type} (lt : α → α → Bool) : List α → List α
  | [] => []
  | x :: xs => pyInsert lt x (pySort lt xs)

/-- The separator of path signatures. -/
def sepArrow : String := "->"

/-- The duplicate-suppression signature of a path:
`f"{source_vendor_id}->" + "->".join(node ids)`. -/
def pathSignature (source_vendor_id : String) (nodes : List VendorNode) : String :=
  source_vendor_id ++ sepArrow ++ String.intercalate sepArrow (nodes.map (fun n => n.vendor_id))

/-- One frontier entry of the multi-path BFS queue:
`(current_vendor_id, path_nodes, path_relationships, cumulative_strength)`. -/
structure BfsState where
  current_id : String
  path_nodes : List VendorNode
  path_rels : List VendorRelationship
  cumulative_strength : ℚ
deriving DecidableEq

/-- The Python comparison key `(path_length, -total_strength)` as a strict
order: shorter paths first, then stronger paths first. -/
def pathKeyLt (p q : RelationshipPath) : Bool :=
  p.path_length < q.path_length ||
    (p.path_length == q.path_length && decide (q.total_strength < p.total_strength))

/-- The body of the `for rel in relationships` loop of
`VendorGraphService.find_paths`, processing the candidate edges of the
dequeued state in order.  Returns the grown result list, the grown signature
set (a set in the source; enqueue order is kept here, membership is all that
is used) and the states to enqueue. -/
def visitRels (g : VendorGraph) (source_vendor_id : String) (min_depth max_depth : Nat)
    (path_nodes : List VendorNode) (path_rels : List VendorRelationship)
    (cumulative_strength : ℚ) :
    List VendorRelationship → List RelationshipPath → List String → List BfsState →
    List RelationshipPath × List String × List BfsState
  | [], paths, visited, queued => (paths, visited, queued)
  | rel :: rest, paths, visited, queued =>
    let target_id := rel.target_vendor_id
    if (path_nodes.map (fun n => n.vendor_id)).contains target_id || target_id == source_vendor_id then
      visitRels g source_vendor_id min_depth max_depth path_nodes path_rels
        cumulative_strength rest paths visited queued
    else
      match g.getVendor target_id with
      | none =>
        visitRels g source_vendor_id min_depth max_depth path_nodes path_rels
          cumulative_strength rest paths visited queued
      | some tv =>
        let new_nodes := path_nodes ++
          [⟨tv.vendor_id, tv.vendor_name, tv.industry, path_nodes.length + 1⟩]
        let new_rels := path_rels ++ [rel]
        let new_strength := cumulative_strength * rel.strength
        let new_depth := new_nodes.length
        let sig := pathSignature source_vendor_id new_nodes
        let step :=
          if min_depth ≤ new_depth ∧ new_depth ≤ max_depth then
            if visited.contains sig then (paths, visited)
            else
              (paths ++ [⟨source_vendor_id, target_id, new_nodes, new_rels,
                new_strength, new_depth, some (1 - new_strength)⟩], visited ++ [sig])
          else (paths, visited)
        let queued' :=
          if new_depth < max_depth then
            queued ++ [⟨target_id, new_nodes, new_rels, new_strength⟩]
          else queued
        visitRels g source_vendor_id min_depth max_depth path_nodes path_rels
          cumulative_strength rest step.1 step.2 queued'

/-- The `while queue and len(paths) < limit` loop of
`VendorGraphService.find_paths`.  `fuel` only bounds the iteration count; the
bound chosen in `find_paths` is large enough that the loop always terminates
by emptying its queue or reaching `limit` first (each dequeue of a state at
depth `d` enqueues at most `g.rels.length` states at depth `d + 1`). -/
def bfsLoop (g : VendorGraph) (source_vendor_id : String) (min_depth max_depth : Nat)
    (relationship_types : Option (List String)) (min_strength : ℚ) (limit : Nat) :
    Nat → List BfsState → List RelationshipPath → List String → List RelationshipPath
  | 0, _, paths, _ => paths
  | _ + 1, [], paths, _ => paths
  | fuel + 1, s :: rest, paths, visited =>
    if limit ≤ paths.length then paths
    else
      let current_depth := s.path_nodes.length
      if max_depth ≤ current_depth then
        bfsLoop g source_vendor_id min_depth max_depth relationship_types min_strength
          limit fuel rest paths visited
      else
        let rels := g.outgoingRelationships s.current_id relationship_types min_strength
        let step := visitRels g source_vendor_id min_depth max_depth s.path_nodes
          s.path_rels s.cumulative_strength rels paths visited []
        bfsLoop g source_vendor_id min_depth max_depth relationship_types min_strength
          limit fuel (rest ++ step.2.2) step.1 step.2.1

/-- `VendorGraphService.find_paths`: bounded multi-path BFS from
`source_vendor_id`, emitting simple paths whose length lies in
`[min_depth, max_depth]`, sorted by `(path_length, -total_strength)` and
truncated to `limit`.  Returns `[]` when the source vendor does not exist. -/
def find_paths (g : VendorGraph) (source_vendor_id : String) (min_depth max_depth : Nat)
    (relationship_types : Option (List String)) (min_strength : ℚ) (limit : Nat) :
    List RelationshipPath :=
  match g.getVendor source_vendor_id with
  | none => []
  | some _ =>
    let fuel := (g.rels.length + 1) ^ max_depth + 1
    let raw := bfsLoop g source_vendor_id min_depth max_depth relationship_types
      min_strength limit fuel [⟨source_vendor_id, [], [], 1⟩] [] []
    (pySort pathKeyLt raw).take limit

/-- The body of the `for rel in relationships` loop of
`VendorGraphService.find_shortest_path`: mark each unvisited neighbour
visited, return as soon as the target is reached, otherwise enqueue. -/
def spVisitRels (g : VendorGraph) (source_vendor_id target_vendor_id : String)
    (path_nodes : List VendorNode) (path_rels : List VendorRelationship)
    (cumulative_strength : ℚ) :
    List VendorRelationship → List String → List BfsState →
    Option RelationshipPath × List String × List BfsState
  | [], visited, queued => (none, visited, queued)
  | rel :: rest, visited, queued =>
    let next_id := rel.target_vendor_id
    if visited.contains next_id then
      spVisitRels g source_vendor_id target_vendor_id path_nodes path_rels
        cumulative_strength rest visited queued
    else
      let visited' := visited ++ [next_id]
      match g.getVendor next_id with
      | none =>
        spVisitRels g source_vendor_id target_vendor_id path_nodes path_rels
          cumulative_strength rest visited' queued
      | some v =>
        let new_nodes := path_nodes ++
          [⟨v.vendor_id, v.vendor_name, v.industry, path_nodes.length + 1⟩]
        let new_rels := path_rels ++ [rel]
        let new_strength := cumulative_strength * rel.strength
        if next_id == target_vendor_id then
          (some ⟨source_vendor_id, target_vendor_id, new_nodes, new_rels,
            new_strength, new_nodes.length, none⟩, visited', queued)
        else
          spVisitRels g source_vendor_id target_vendor_id path_nodes path_rels
            cumulative_strength rest visited'
            (queued ++ [⟨next_id, new_nodes, new_rels, new_strength⟩])

/-- The `while queue` loop of `VendorGraphService.find_shortest_path`. -/
def spLoop (g : VendorGraph) (source_vendor_id target_vendor_id : String) (max_depth : Nat) :
    Nat → List BfsState → List String → Option RelationshipPath
  | 0, _, _ => none
  | _ + 1, [], _ => none
  | fuel + 1, s :: rest, visited =>
    if max_depth ≤ s.path_nodes.length then
      spLoop g source_vendor_id target_vendor_id max_depth fuel rest visited
    else
      let rels := g.outgoingRelationships s.current_id none 0
      let step := spVisitRels g source_vendor_id target_vendor_id s.path_nodes
        s.path_rels s.cumulative_strength rels visited []
      match step.1 with
      | some res => some res
      | none =>
        spLoop g source_vendor_id target_vendor_id max_depth fuel
          (rest ++ step.2.2) step.2.1

/-- `VendorGraphService.find_shortest_path`: single-target BFS with a global
visited set, initialised to `{source}`.  Returns `none` when
`source = target`, and otherwise the first path reaching the target within
`max_depth` hops.  Note that the constructed `RelationshipPath` leaves
`risk_score` unset (`none`), unlike `find_paths`.  The fuel bound is ample:
every enqueue adds a fresh vendor id to `visited`, so at most
`g.rels.length + 1` states are ever processed. -/
def find_shortest_path (g : VendorGraph) (source_vendor_id target_vendor_id : String)
    (max_depth : Nat) : Option RelationshipPath :=
  if source_vendor_id == target_vendor_id then none
  else
    spLoop g source_vendor_id target_vendor_id max_depth (g.rels.length + 2)
      [⟨source_vendor_id, [], [], 1⟩] [source_vendor_id]

/-- The per-edge condition of the Cypher variable-length pattern of
`Neo4jGraphService.find_paths`: the pattern's type filter
`:{type1|type2|...}` (built only when `relationship_types` is truthy) and the
`WHERE all(rel in relationships(path) WHERE rel.strength >= $min_strength)`
clause. -/
def cypherRelOk (relationship_types : Option (List String)) (min_strength : ℚ)
    (r : VendorRelationship) : Bool :=
  (match relationship_types with
   | none => true
   | some ts => if ts.isEmpty then true else ts.contains r.relationship_type) &&
    decide (min_strength ≤ r.strength)

/-- The end node of an edge trail starting at `src`. -/
def trailEnd (src : String) (t : List VendorRelationship) : String :=
  match t.getLast? with
  | some r => r.target_vendor_id
  | none => src

/-- Cypher's `reduce(s = 1.0, rel in relationships(path) | s * rel.strength)`. -/
def trailStrength (t : List VendorRelationship) : ℚ :=
  t.foldl (fun s r => s * r.strength) 1

/-- All matches of length exactly `n` of the variable-length pattern
`(src)-[r:RELATIONSHIP{filter}*n]->()`: edge sequences that chain from `src`,
satisfy the per-edge filter, and (Cypher's relationship-uniqueness semantics)
never reuse a relationship — but may revisit nodes. -/
def cypherTrailsLen (g : VendorGraph) (relationship_types : Option (List String))
    (min_strength : ℚ) (src : String) : Nat → List (List VendorRelationship)
  | 0 => [[]]
  | n + 1 =>
    (cypherTrailsLen g relationship_types min_strength src n).flatMap
      (fun t =>
        (g.rels.filter (fun r =>
          r.source_vendor_id == trailEnd src t &&
            cypherRelOk relationship_types min_strength r && !(t.contains r))).map
          (fun r => t ++ [r]))

/-- One row of `Neo4jGraphService.find_paths`'s `RETURN` clause (the fields
the callers consume). -/
structure Neo4jPathRecord where
  source_vendor_id : String
  target_vendor_id : String
  path_length : Nat
  total_strength : ℚ
  nodes : List String
  rels : List VendorRelationship
deriving DecidableEq

/-- The Cypher `ORDER BY path_length, total_strength DESC` key as a strict
order (ordering among ties is unspecified server-side; this embedding fixes
the enumeration order, and no theorem depends on the tie order). -/
def neoKeyLt (p q : Neo4jPathRecord) : Bool :=
  p.path_length < q.path_length ||
    (p.path_length == q.path_length && decide (q.total_strength < p.total_strength))

/-- `Neo4jGraphService.find_paths` over a database holding exactly the
vendors and relationships of the snapshot `g`: match all
relationship-unique paths of length `min_depth..max_depth` from the source
vendor whose every edge passes the type filter and the strength threshold,
fold the strengths multiplicatively, order by `(path_length,
total_strength DESC)` and limit.  An absent source vendor matches nothing. -/
def neo4j_find_paths (g : VendorGraph) (source_vendor_id : String)
    (min_depth max_depth : Nat) (relationship_types : Option (List String))
    (min_strength : ℚ) (limit : Nat) : List Neo4jPathRecord :=
  match g.getVendor source_vendor_id with
  | none => []
  | some _ =>
    let trails := (List.range (max_depth + 1)).flatMap
      (fun n =>
        if min_depth ≤ n then
          cypherTrailsLen g relationship_types min_strength source_vendor_id n
        else [])
    let recs := trails.map (fun t =>
      ⟨source_vendor_id, trailEnd source_vendor_id t, t.length, trailStrength t,
        source_vendor_id :: t.map (fun r => r.target_vendor_id), t⟩)
    (pySort neoKeyLt recs).take limit

/-- The value returned by `HybridGraphService.find_paths`: either the raw
Neo4j records (`backend = "neo4j"`) or the converted relational paths
(`backend = "mysql"`) — never a mixture. -/
inductive HybridPaths : Type
  | neo4j (paths : List Neo4jPathRecord) : HybridPaths
  | mysql (paths : List RelationshipPath) : HybridPaths
deriving DecidableEq

/-- `HybridGraphService.find_paths`.  `neo4j_service` models the selector's
constructed native backend: `none` when Neo4j is unavailable (the service
constructor failed or `is_neo4j_available()` is false), `some outcome` when
it is available, `outcome` being the result of the one query attempt — `ok`
with its rows, or `error` with the raised message.  The second component
counts the native-backend attempts made during the call. -/
def hybrid_find_paths (neo4j_service : Option (Except String (List Neo4jPathRecord)))
    (g : VendorGraph) (source_vendor_id : String) (min_depth max_depth : Nat)
    (relationship_types : Option (List String)) (min_strength : ℚ) (limit : Nat) :
    HybridPaths × Nat :=
  match neo4j_service with
  | some (Except.ok ps) => (HybridPaths.neo4j ps, 1)
  | some (Except.error _) =>
    (HybridPaths.mysql (find_paths g source_vendor_id min_depth max_depth
      relationship_types min_strength limit), 1)
  | none =>
    (HybridPaths.mysql (find_paths g source_vendor_id min_depth max_depth
      relationship_types min_strength limit), 0)

/-- The value returned by `HybridGraphService.find_shortest_path`. -/
inductive HybridShortest : Type
  | neo4j (path : Option Neo4jPathRecord) : HybridShortest
  | mysql (path : Option RelationshipPath) : HybridShortest
deriving DecidableEq

/-- `HybridGraphService.find_shortest_path`, with the same modelling of the
native backend as `hybrid_find_paths`. -/
def hybrid_find_shortest_path (neo4j_service : Option (Except String (Option Neo4jPathRecord)))
    (g : VendorGraph) (source_vendor_id target_vendor_id : String) (max_depth : Nat) :
    HybridShortest × Nat :=
  match neo4j_service with
  | some (Except.ok p) => (HybridShortest.neo4j p, 1)
  | some (Except.error _) =>
    (HybridShortest.mysql (find_shortest_path g source_vendor_id target_vendor_id
      max_depth), 1)
  | none =>
    (HybridShortest.mysql (find_shortest_path g source_vendor_id target_vendor_id
      max_depth), 0)

/-- Python's `p.risk_score if p.risk_score else 0`: `None` and `0.0` are
falsy, so both yield `0`. -/
def riskValueOr0 (r : Option ℚ) : ℚ :=
  match r with
  | some x => if x == 0 then 0 else x
  | none => 0

/-- Python's truthiness of `p.risk_score`. -/
def riskTruthy (r : Option ℚ) : Bool :=
  match r with
  | some x => !(x == 0)
  | none => false

/-- `GraphSearchInput` of `schemas/vendor.py` (validated field ranges:
`min_depth, max_depth ∈ [1,15]`, `min_strength ∈ [0,1]`, `limit ∈ [1,1000]`). -/
structure GraphSearchInput where
  source_vendor_id : String
  min_depth : Nat := 3
  max_depth : Nat := 10
  relationship_types : Option (List String) := none
  min_strength : ℚ := 0
  limit : Nat := 100
deriving DecidableEq

/-- `GraphSearchOutput` of `schemas/vendor.py`. -/
structure GraphSearchOutput where
  source_vendor_id : String
  source_vendor_name : String
  paths_found : Nat
  paths : List RelationshipPath
deriving DecidableEq

/-- `POST /risk/supply-chain-analysis` (`analyze_supply_chain_risk` in
`app/api/risk_management.py`): 404 when the source vendor does not exist,
otherwise the engine's paths re-sorted by risk score descending (stable). -/
def analyze_supply_chain_risk (g : VendorGraph) (si : GraphSearchInput) :
    Except Nat GraphSearchOutput :=
  match g.getVendor si.source_vendor_id with
  | none => Except.error 404
  | some v =>
    let paths := find_paths g si.source_vendor_id si.min_depth si.max_depth
      si.relationship_types si.min_strength si.limit
    let paths_sorted := pySort
      (fun p q => decide (riskValueOr0 q.risk_score < riskValueOr0 p.risk_score)) paths
    Except.ok ⟨si.source_vendor_id, v.vendor_name, paths_sorted.length, paths_sorted⟩

/-- One value of the `vendors_at_level` dictionary of
`nth_party_vendor_assessment`. -/
structure NthPartyVendor where
  vendor_id : String
  vendor_name : String
  industry : Option String
  paths_to_vendor : Nat
  avg_risk_score : ℚ
  strongest_path_strength : ℚ
deriving DecidableEq

/-- The `for path in paths` loop of `nth_party_vendor_assessment`: the
insertion-ordered dictionary `vendors_at_level` is modelled as a list keyed
by `vendor_id`.  A first path to a target inserts it with count 1 and average
risk equal to that path's risk score; every further path increments the count
and replaces the average by `(current + new) / 2`. -/
def nthLoop : List RelationshipPath → List NthPartyVendor → List NthPartyVendor
  | [], acc => acc
  | p :: rest, acc =>
    match p.path.getLast? with
    | none => nthLoop rest acc
    | some target_node =>
      if acc.any (fun v => v.vendor_id == target_node.vendor_id) then
        nthLoop rest (acc.map (fun v =>
          if v.vendor_id == target_node.vendor_id then
            { v with
              paths_to_vendor := v.paths_to_vendor + 1,
              avg_risk_score := (v.avg_risk_score + riskValueOr0 p.risk_score) / 2 }
          else v))
      else
        nthLoop rest (acc ++ [⟨target_node.vendor_id, target_node.vendor_name,
          target_node.industry, 1, riskValueOr0 p.risk_score, p.total_strength⟩])

/-- `POST /risk/nth-party-assessment` (`nth_party_vendor_assessment` in
`app/api/risk_management.py`): 400 outside `party_level ∈ [1,15]`, 404 for a
missing vendor, otherwise `find_paths` at exactly that depth
(`min_depth = max_depth = party_level`, limit 500), aggregated per target
vendor and sorted by average risk descending. -/
def nth_party_vendor_assessment (g : VendorGraph) (vendor_id : String)
    (party_level : Nat) : Except Nat (List NthPartyVendor) :=
  if party_level < 1 ∨ 15 < party_level then Except.error 400
  else
    match g.getVendor vendor_id with
    | none => Except.error 404
    | some _ =>
      let paths := find_paths g vendor_id party_level party_level none 0 500
      let vendors_list := nthLoop paths []
      Except.ok (pySort (fun a b => decide (b.avg_risk_score < a.avg_risk_score))
        vendors_list)

/-- One value of the `depth_statistics` dictionary of `deep_vendor_search`. -/
structure DepthLevelStats where
  degree : Nat
  vendors_found : Nat
  avg_risk_score : ℚ
  max_risk_score : ℚ
  paths : List RelationshipPath
deriving DecidableEq

/-- The `paths_by_depth` grouping loop of `deep_vendor_search`: group the
paths by `path_length`, keys in order of first appearance, each group in
traversal order. -/
def groupByDepth : List RelationshipPath → List (Nat × List RelationshipPath) →
    List (Nat × List RelationshipPath)
  | [], acc => acc
  | p :: rest, acc =>
    if acc.any (fun e => e.1 == p.path_length) then
      groupByDepth rest (acc.map (fun e =>
        if e.1 == p.path_length then (e.1, e.2 ++ [p]) else e))
    else
      groupByDepth rest (acc ++ [(p.path_length, [p])])

/-- The per-level statistics of `deep_vendor_search`: count, the sum of the
truthy risk scores divided by the group size, and the maximum of the truthy
risk scores (`default=0`). -/
def levelStats (degree : Nat) (l : List RelationshipPath) : DepthLevelStats :=
  ⟨degree, l.length,
    ((l.filter (fun p => riskTruthy p.risk_score)).map
      (fun p => riskValueOr0 p.risk_score)).sum / (l.length : ℚ),
    (((l.filter (fun p => riskTruthy p.risk_score)).map
      (fun p => riskValueOr0 p.risk_score)).max?).getD 0,
    l⟩

/-- The output of `GET /risk/deep-search/{vendor_id}` (the fields the claims
are about). -/
structure DeepSearchOutput where
  source_vendor_id : String
  source_vendor_name : String
  max_depth_searched : Nat
  total_paths_found : Nat
  depth_statistics : List (Nat × DepthLevelStats)
deriving DecidableEq

/-- `GET /risk/deep-search/{vendor_id}` (`deep_vendor_search` in
`app/api/risk_management.py`): 400 outside `max_depth ∈ [1,15]`, 404 for a
missing vendor, otherwise `find_paths` over depths `1..max_depth` with limit
1000, grouped by depth with per-level statistics. -/
def deep_vendor_search (g : VendorGraph) (vendor_id : String) (max_depth : Nat) :
    Except Nat DeepSearchOutput :=
  if max_depth < 1 ∨ 15 < max_depth then Except.error 400
  else
    match g.getVendor vendor_id with
    | none => Except.error 404
    | some v =>
      let all_paths := find_paths g vendor_id 1 max_depth none 0 1000
      let grouped := groupByDepth all_paths []
      Except.ok ⟨vendor_id, v.vendor_name, max_depth, all_paths.length,
        grouped.map (fun e => (e.1, levelStats e.1 e.2))⟩

/-! ### Specification-side predicates -/

/-- The vendor-id sequence of a node list. -/
def nodeIds (nodes : List VendorNode) : List String :=
  nodes.map (fun n => n.vendor_id)

/-- The vendor-id sequence of an edge trail (targets, in order). -/
def trailIds (t : List VendorRelationship) : List String :=
  t.map (fun r => r.target_vendor_id)

/-- The edges of `t` chain head-to-tail through the snapshot, starting at
`a`. -/
def relChain (g : VendorGraph) : String → List VendorRelationship → Prop
  | _, [] => True
  | a, r :: rs => r ∈ g.rels ∧ r.source_vendor_id = a ∧ relChain g r.target_vendor_id rs

/-- There is an edge from `a` to `b` in the snapshot. -/
def hasEdge (g : VendorGraph) (a b : String) : Prop :=
  ∃ r ∈ g.rels, r.source_vendor_id = a ∧ r.target_vendor_id = b

/-- `ids` is the node sequence (after the start) of a directed walk from `a`. -/
def idWalk (g : VendorGraph) : String → List String → Prop
  | _, [] => True
  | a, b :: rest => hasEdge g a b ∧ idWalk g b rest

/-- Some directed walk of at most `n` edges leads from `s` to `t`
(`n ≥ 1` walks only; the empty walk does not count). -/
def ReachableIn (g : VendorGraph) (s t : String) (n : Nat) : Prop :=
  ∃ ids : List String, idWalk g s ids ∧ ids.getLast? = some t ∧ ids.length ≤ n

/-- Spec §3: both endpoints of every edge reference existing vendors. -/
def EdgesWellFormed (g : VendorGraph) : Prop :=
  ∀ r ∈ g.rels, (g.getVendor r.source_vendor_id).isSome ∧
    (g.getVendor r.target_vendor_id).isSome

/-- No two distinct edges share the same ordered `(source, target)` vendor
pair (the data model permits them when their types differ; this excludes
them). -/
def NoParallelEdges (g : VendorGraph) : Prop :=
  ∀ r₁ ∈ g.rels, ∀ r₂ ∈ g.rels,
    r₁.source_vendor_id = r₂.source_vendor_id →
      r₁.target_vendor_id = r₂.target_vendor_id → r₁ = r₂

/-- The node list matches the edge trail: the `i`-th node carries the `i`-th
edge's target id, depth `d + i + 1`, and the name/industry of that vendor's
record. -/
def nodesMatch (g : VendorGraph) : Nat → List VendorRelationship → List VendorNode → Prop
  | _, [], [] => True
  | d, r :: rs, n :: ns =>
    n.vendor_id = r.target_vendor_id ∧ n.depth = d + 1 ∧
      (∃ v, g.getVendor n.vendor_id = some v ∧ n.vendor_name = v.vendor_name ∧
        n.industry = v.industry) ∧
      nodesMatch g (d + 1) rs ns
  | _, _, _ => False

/-- Everything `find_paths` guarantees of an emitted path: it traces a
filter-satisfying edge chain from the source, its nodes mirror that chain,
it is simple and never returns to the source, its length lies in the depth
window, its strength is the product of its edges' strengths and its risk
score is `1 -` that product. -/
def PathOK (g : VendorGraph) (relationship_types : Option (List String))
    (min_strength : ℚ) (src : String) (min_depth max_depth : Nat)
    (p : RelationshipPath) : Prop :=
  p.source_vendor_id = src ∧
  relChain g src p.relationships ∧
  (∀ r ∈ p.relationships, cypherRelOk relationship_types min_strength r = true) ∧
  nodesMatch g 0 p.relationships p.path ∧
  p.path_length = p.path.length ∧
  p.path.length = p.relationships.length ∧
  min_depth ≤ p.path_length ∧ p.path_length ≤ max_depth ∧
  p.total_strength = trailStrength p.relationships ∧
  p.risk_score = some (1 - p.total_strength) ∧
  p.target_vendor_id = trailEnd src p.relationships ∧
  (trailIds p.relationships).Nodup ∧
  src ∉ trailIds p.relationships

/-- The `(targetVendorId, pathLength, totalStrength)` tuple of a relational
result. -/
def mysqlTuple (p : RelationshipPath) : String × Nat × ℚ :=
  (p.target_vendor_id, p.path_length, p.total_strength)

/-- The `(targetVendorId, pathLength, totalStrength)` tuple of a native
result. -/
def neoTuple (r : Neo4jPathRecord) : String × Nat × ℚ :=
  (r.target_vendor_id, r.path_length, r.total_strength)

/-- A native record's matched path visits no vendor twice and never returns
to the source. -/
def recordNodeSimple (r : Neo4jPathRecord) : Prop :=
  (trailIds r.rels).Nodup ∧ r.source_vendor_id ∉ trailIds r.rels

/-- The running "average" of `nth_party_vendor_assessment`: the first value
seeds it, every later value `x` replaces it by `(avg + x) / 2`. -/
def runningAverage : List ℚ → ℚ
  | [] => 0
  | x :: xs => xs.foldl (fun a y => (a + y) / 2) x

/-! ### Concrete fixture graphs -/

/-- The spec §8 scenario: `A→B (0.9, supplier)`, `B→C (0.8, subcontractor)`,
`C→D (0.7, supplier)`. -/
def gScenario : VendorGraph :=
  ⟨[⟨"A", "Alpha", none, none, none⟩, ⟨"B", "Beta", none, none, none⟩,
    ⟨"C", "Gamma", none, none, none⟩, ⟨"D", "Delta", none, none, none⟩],
   [⟨1, "A", "B", "supplier", 9/10, none, 0, false⟩,
    ⟨2, "B", "C", "subcontractor", 8/10, none, 0, false⟩,
    ⟨3, "C", "D", "supplier", 7/10, none, 0, false⟩]⟩

/-- A graph with two parallel edges `A→B` of different types and a
two-cycle `B→C→B`: the data model permits both, and they separate the two
backends. -/
def gParallel : VendorGraph :=
  ⟨[⟨"A", "Alpha", none, none, none⟩, ⟨"B", "Beta", none, none, none⟩,
    ⟨"C", "Gamma", none, none, none⟩],
   [⟨1, "A", "B", "supplier", 1/2, none, 0, false⟩,
    ⟨2, "A", "B", "partner", 1/4, none, 0, false⟩,
    ⟨3, "B", "C", "supplier", 1, none, 0, false⟩,
    ⟨4, "C", "B", "supplier", 1, none, 0, false⟩]⟩

/-! ### Invariant bundles and termination measures -/

/-- A BFS state's data is coherent: its edge list chains from `src` through
the snapshot, its node list mirrors that edge list, its current vendor is the
trail's end and its cumulative strength the trail's strength product. -/
def StateChain (g : VendorGraph) (src : String) (s : BfsState) : Prop :=
  relChain g src s.path_rels ∧
  nodesMatch g 0 s.path_rels s.path_nodes ∧
  s.current_id = trailEnd src s.path_rels ∧
  s.cumulative_strength = trailStrength s.path_rels

/-- A BFS state's trail is simple and never returns to the source. -/
def StateSimple (src : String) (s : BfsState) : Prop :=
  (trailIds s.path_rels).Nodup ∧ src ∉ trailIds s.path_rels

/-- Every edge of the state's trail passes the type filter and the strength
threshold. -/
def StateFiltered (relationship_types : Option (List String)) (min_strength : ℚ)
    (s : BfsState) : Prop :=
  ∀ r ∈ s.path_rels, cypherRelOk relationship_types min_strength r = true

/-- The path signature computed from an edge trail (equal to
`pathSignature` of the matching node list). -/
def trailSignature (src : String) (t : List VendorRelationship) : String :=
  src ++ sepArrow ++ String.intercalate sepArrow (trailIds t)

/-- Path signatures separate simple trails of length at most `n` from `src`:
two such trails with the same signature visit the same vendors.  This holds
whenever vendor ids do not themselves contain the `"->"` separator (the
source's signature scheme assumes as much); it is stated abstractly to avoid
string-splitting arguments. -/
def SigInjective (g : VendorGraph) (src : String) (n : Nat) : Prop :=
  ∀ t₁ t₂ : List VendorRelationship,
    relChain g src t₁ → relChain g src t₂ →
    (trailIds t₁).Nodup → (trailIds t₂).Nodup →
    t₁.length ≤ n → t₂.length ≤ n →
    trailSignature src t₁ = trailSignature src t₂ → trailIds t₁ = trailIds t₂

/-- Spec §3: every edge strength lies in `[0, 1]`. -/
def StrengthsInRange (g : VendorGraph) : Prop :=
  ∀ r ∈ g.rels, (0 : ℚ) ≤ r.strength ∧ r.strength ≤ 1

/-- The number of snapshot edges whose target is not yet visited: the
shortest-path loop's termination potential. -/
def unvisCount (g : VendorGraph) (visited : List String) : Nat :=
  (g.rels.filter (fun r => !(visited.contains r.target_vendor_id))).length

/-- The termination potential of one multi-path BFS state: expanding a state
at depth `d` enqueues at most `E` states at depth `d + 1`. -/
def stateCost (max_depth E : Nat) (s : BfsState) : Nat :=
  (E + 1) ^ (max_depth - s.path_nodes.length)

/-- The termination potential of the multi-path BFS queue. -/
def queueMeasure (max_depth E : Nat) (queue : List BfsState) : Nat :=
  (queue.map (stateCost max_depth E)).sum

/-- Everything `find_shortest_path` guarantees of a returned path (soundness
side): a coherent chain from source to target, strength the product of the
edge strengths, `risk_score` left unset, simple, within `max_depth`. -/
def SpPathOK (g : VendorGraph) (src target : String) (max_depth : Nat)
    (p : RelationshipPath) : Prop :=
  p.source_vendor_id = src ∧
  p.target_vendor_id = target ∧
  relChain g src p.relationships ∧
  nodesMatch g 0 p.relationships p.path ∧
  p.path_length = p.path.length ∧
  p.path.length = p.relationships.length ∧
  1 ≤ p.path_length ∧ p.path_length ≤ max_depth ∧
  p.total_strength = trailStrength p.relationships ∧
  p.risk_score = none ∧
  trailEnd src p.relationships = target ∧
  (trailIds p.relationships).Nodup ∧
  src ∉ trailIds p.relationships

/-- The loop invariant of `find_shortest_path`'s BFS: the queue is a level-`d`
block followed by a level-`d + 1` block; states are coherent, simple, off the
target and recorded in `visited`; all vendors reachable within `d` hops are
visited, no level-`d + 1` state's vendor is reachable within `d`, the target
is unvisited, and (below `max_depth`) every visited vendor either still sits
in the queue or has all its out-neighbours visited. -/
def SpInv (g : VendorGraph) (src target : String) (max_depth : Nat)
    (queue : List BfsState) (visited : List String) : Prop :=
  ∃ d A B, queue = A ++ B ∧ d ≤ max_depth ∧
    (∀ s ∈ A, s.path_rels.length = d) ∧
    (∀ s ∈ B, s.path_rels.length = d + 1) ∧
    (B = [] ∨ d < max_depth) ∧
    src ∈ visited ∧ target ∉ visited ∧
    (∀ s ∈ queue, StateChain g src s) ∧
    (∀ s ∈ queue, StateSimple src s) ∧
    (∀ s ∈ queue, s.current_id ≠ target) ∧
    (∀ s ∈ queue, ∀ i ∈ trailIds s.path_rels, i ∈ visited) ∧
    (∀ w, ReachableIn g src w d → w ∈ visited) ∧
    (∀ s ∈ B, ¬ ReachableIn g src s.current_id d) ∧
    (d < max_depth →
      ∀ u ∈ visited, (∃ s ∈ queue, s.current_id = u) ∨
        (∀ r ∈ g.rels, r.source_vendor_id = u → r.target_vendor_id ∈ visited))

/-- The soundness invariant tying emitted paths to the signature set:
every emitted path is `PathOK`, emitted signatures and the visited set
coincide, and no signature repeats. -/
def FpPathsInv (g : VendorGraph) (relationship_types : Option (List String))
    (min_strength : ℚ) (src : String) (min_depth max_depth : Nat)
    (paths : List RelationshipPath) (visited : List String) : Prop :=
  (∀ p ∈ paths, PathOK g relationship_types min_strength src min_depth max_depth p) ∧
  (∀ p ∈ paths, trailSignature src p.relationships ∈ visited) ∧
  (∀ sgn ∈ visited, ∃ p ∈ paths, trailSignature src p.relationships = sgn) ∧
  (paths.map (fun p => trailSignature src p.relationships)).Nodup

/-- The soundness invariant of one queued BFS state. -/
def FpStateOK (g : VendorGraph) (relationship_types : Option (List String))
    (min_strength : ℚ) (src : String) (s : BfsState) : Prop :=
  StateChain g src s ∧ StateSimple src s ∧ StateFiltered relationship_types min_strength s

/-- The completeness invariant of the multi-path BFS: every simple,
filter-satisfying trail in the depth budget is either a strict extension of
some queued state's trail, or (when it reaches `min_depth`) its signature has
already been recorded. -/
def FpComplete (g : VendorGraph) (relationship_types : Option (List String))
    (min_strength : ℚ) (src : String) (min_depth max_depth : Nat)
    (queue : List BfsState) (visited : List String) : Prop :=
  ∀ t : List VendorRelationship,
    relChain g src t →
    (∀ r ∈ t, cypherRelOk relationship_types min_strength r = true) →
    (trailIds t).Nodup → src ∉ trailIds t →
    1 ≤ t.length → t.length ≤ max_depth →
    (∃ s ∈ queue, ∃ u, s.path_rels ++ u = t ∧ u ≠ []) ∨
    (min_depth ≤ t.length → trailSignature src t ∈ visited)

/-- Python's `path.path[-1].vendor_id == vid` test used when aggregating
paths per target vendor. -/
def endsAt (p : RelationshipPath) (vid : String) : Bool :=
  match p.path.getLast? with
  | some n => n.vendor_id == vid
  | none => false

/-- The running-average fold continued from a given seed. -/
def foldAvg (init : ℚ) (l : List ℚ) : ℚ :=
  l.foldl (fun a x => (a + x) / 2) init

/-! ### Lemmas: the stable sort -/

theorem pyInsert_perm {α : Type} (lt : α → α → Bool) (x : α) (l : List α) :
    (pyInsert lt x l).Perm (x :: l) := by
  induction l with
  | nil => simp [pyInsert]
  | cons y ys ih =>
    by_cases h : lt y x = true
    · simpa [pyInsert, h] using ((ih.cons y).trans (List.Perm.swap x y ys))
    · simp [pyInsert, h]

theorem pySort_perm {α : Type} (lt : α → α → Bool) (l : List α) :
    (pySort lt l).Perm l := by
  induction l with
  | nil => simp [pySort]
  | cons x xs ih =>
    exact (pyInsert_perm lt x (pySort lt xs)).trans (ih.cons x)

theorem pyInsert_pairwise {α : Type} (lt : α → α → Bool)
    (hasym : ∀ a b, lt a b = true → lt b a = false)
    (hneg : ∀ a b c, lt b a = false → lt c b = false → lt c a = false)
    (x : α) (l : List α) (hl : l.Pairwise (fun a b => lt b a = false)) :
    (pyInsert lt x l).Pairwise (fun a b => lt b a = false) := by
  induction l with
  | nil => simp [pyInsert]
  | cons y ys ih =>
    rcases List.pairwise_cons.mp hl with ⟨hy, hys⟩
    by_cases h : lt y x = true
    · rw [pyInsert, if_pos h]
      refine List.pairwise_cons.mpr ⟨?_, ih hys⟩
      intro z hz
      rcases List.mem_cons.mp ((pyInsert_perm lt x ys).mem_iff.mp hz) with hzx | hzys
      · exact hzx ▸ hasym y x h
      · exact hy z hzys
    · rw [pyInsert, if_neg h]
      refine List.pairwise_cons.mpr ⟨?_, hl⟩
      intro z hz
      rcases List.mem_cons.mp hz with hzy | hzys
      · simpa [hzy] using (Bool.not_eq_true _).mp h
      · exact hneg x y z ((Bool.not_eq_true _).mp h) (hy z hzys)

theorem pySort_pairwise {α : Type} (lt : α → α → Bool)
    (hasym : ∀ a b, lt a b = true → lt b a = false)
    (hneg : ∀ a b c, lt b a = false → lt c b = false → lt c a = false)
    (l : List α) : (pySort lt l).Pairwise (fun a b => lt b a = false) := by
  induction l with
  | nil => simp [pySort]
  | cons x xs ih => exact pyInsert_pairwise lt hasym hneg x (pySort lt xs) ih

theorem pathKeyLt_true_iff (p q : RelationshipPath) :
    pathKeyLt p q = true ↔
      p.path_length < q.path_length ∨
        (p.path_length = q.path_length ∧ q.total_strength < p.total_strength) := by
  simp [pathKeyLt, Bool.or_eq_true, Bool.and_eq_true, decide_eq_true_iff, beq_iff_eq]

theorem pathKeyLt_asymm (a b : RelationshipPath) :
    pathKeyLt a b = true → pathKeyLt b a = false := by
  intro h
  rcases (pathKeyLt_true_iff a b).mp h with h1 | ⟨h1, h2⟩
  · rw [Bool.eq_false_iff]
    intro hc
    rcases (pathKeyLt_true_iff b a).mp hc with hc1 | ⟨hc1, _⟩
    · omega
    · omega
  · rw [Bool.eq_false_iff]
    intro hc
    rcases (pathKeyLt_true_iff b a).mp hc with hc1 | ⟨_, hc2⟩
    · omega
    · exact absurd (hc2.trans h2) (lt_irrefl _)

theorem pathKeyLt_negtrans (a b c : RelationshipPath) :
    pathKeyLt b a = false → pathKeyLt c b = false → pathKeyLt c a = false := by
  intro h1 h2
  rw [Bool.eq_false_iff] at h1 h2 ⊢
  intro hc
  rcases (pathKeyLt_true_iff c a).mp hc with hlt | ⟨heq, hs⟩
  · rcases Nat.lt_or_ge c.path_length b.path_length with hb | hb
    · exact h2 ((pathKeyLt_true_iff c b).mpr (Or.inl hb))
    · exact h1 ((pathKeyLt_true_iff b a).mpr (Or.inl (by omega)))
  · rcases Nat.lt_or_ge c.path_length b.path_length with hb | hb
    · exact h2 ((pathKeyLt_true_iff c b).mpr (Or.inl hb))
    · rcases Nat.lt_or_ge b.path_length a.path_length with hb2 | hb2
      · exact h1 ((pathKeyLt_true_iff b a).mpr (Or.inl hb2))
      · have hcb : c.path_length = b.path_length := by omega
        have hba : b.path_length = a.path_length := by omega
        rcases lt_or_le b.total_strength c.total_strength with hs2 | hs2
        · exact h2 ((pathKeyLt_true_iff c b).mpr (Or.inr ⟨hcb, hs2⟩))
        · exact h1 ((pathKeyLt_true_iff b a).mpr (Or.inr ⟨hba, lt_of_lt_of_le hs hs2⟩))

/-! ### Lemmas: trails and chains -/

theorem trailStrength_append (t : List VendorRelationship) (r : VendorRelationship) :
    trailStrength (t ++ [r]) = trailStrength t * r.strength := by
  simp [trailStrength, List.foldl_append]

theorem trailEnd_append (src : String) (t : List VendorRelationship)
    (r : VendorRelationship) : trailEnd src (t ++ [r]) = r.target_vendor_id := by
  simp [trailEnd, List.getLast?_concat]

theorem trailIds_append (t : List VendorRelationship) (r : VendorRelationship) :
    trailIds (t ++ [r]) = trailIds t ++ [r.target_vendor_id] := by
  simp [trailIds]

theorem trailEnd_cons (src : String) (r : VendorRelationship)
    (rs : List VendorRelationship) :
    trailEnd src (r :: rs) = trailEnd r.target_vendor_id rs := by
  cases rs with
  | nil => simp [trailEnd]
  | cons a as =>
    rcases h : (a :: as).getLast? with _ | x
    · simp at h
    · simp [trailEnd, List.getLast?_cons_cons, h]

theorem relChain_append_one (g : VendorGraph) (a : String)
    (t : List VendorRelationship) (r : VendorRelationship)
    (hc : relChain g a t) (hr : r ∈ g.rels)
    (hs : r.source_vendor_id = trailEnd a t) : relChain g a (t ++ [r]) := by
  induction t generalizing a with
  | nil => exact ⟨hr, by simpa [trailEnd] using hs, trivial⟩
  | cons x xs ih =>
    rcases hc with ⟨hx, hxa, hxs⟩
    refine ⟨hx, hxa, ih _ hxs ?_⟩
    rw [hs, trailEnd_cons]

theorem nodesMatch_length (g : VendorGraph) :
    ∀ (t : List VendorRelationship) (d : Nat) (ns : List VendorNode),
      nodesMatch g d t ns → ns.length = t.length := by
  intro t
  induction t with
  | nil => intro d ns h; cases ns with
    | nil => rfl
    | cons n ns => exact absurd h (by simp [nodesMatch])
  | cons r rs ih =>
    intro d ns h
    cases ns with
    | nil => exact absurd h (by simp [nodesMatch])
    | cons n ns =>
      rcases h with ⟨-, -, -, htail⟩
      simpa using ih (d + 1) ns htail

theorem nodesMatch_ids (g : VendorGraph) :
    ∀ (t : List VendorRelationship) (d : Nat) (ns : List VendorNode),
      nodesMatch g d t ns → nodeIds ns = trailIds t := by
  intro t
  induction t with
  | nil => intro d ns h; cases ns with
    | nil => rfl
    | cons n ns => exact absurd h (by simp [nodesMatch])
  | cons r rs ih =>
    intro d ns h
    cases ns with
    | nil => exact absurd h (by simp [nodesMatch])
    | cons n ns =>
      rcases h with ⟨hid, -, -, htail⟩
      simpa [nodeIds, trailIds, hid] using ih (d + 1) ns htail

theorem nodesMatch_append (g : VendorGraph) :
    ∀ (t : List VendorRelationship) (d : Nat) (ns : List VendorNode),
      nodesMatch g d t ns →
      ∀ (r : VendorRelationship) (n : VendorNode),
        n.vendor_id = r.target_vendor_id → n.depth = d + t.length + 1 →
        (∃ v, g.getVendor n.vendor_id = some v ∧ n.vendor_name = v.vendor_name ∧
          n.industry = v.industry) →
        nodesMatch g d (t ++ [r]) (ns ++ [n]) := by
  intro t
  induction t with
  | nil =>
    intro d ns h r n hid hdepth hv
    cases ns with
    | nil => exact ⟨hid, by simpa using hdepth, hv, trivial⟩
    | cons m ms => exact absurd h (by simp [nodesMatch])
  | cons r0 rs ih =>
    intro d ns h r n hid hdepth hv
    cases ns with
    | nil => exact absurd h (by simp [nodesMatch])
    | cons m ms =>
      rcases h with ⟨h1, h2, h3, htail⟩
      exact ⟨h1, h2, h3, ih (d + 1) ms htail r n hid (by simp [hdepth]; omega) hv⟩

theorem mem_outgoingRelationships (g : VendorGraph) (vid : String)
    (types : Option (List String)) (minS : ℚ) (r : VendorRelationship) :
    r ∈ g.outgoingRelationships vid types minS ↔
      r ∈ g.rels ∧ r.source_vendor_id = vid ∧ cypherRelOk types minS r = true := by
  cases types with
  | none =>
    simp [VendorGraph.outgoingRelationships, cypherRelOk, List.mem_filter,
      Bool.and_eq_true, decide_eq_true_iff, beq_iff_eq]
  | some ts =>
    by_cases hts : ts.isEmpty
    · simp [VendorGraph.outgoingRelationships, cypherRelOk, List.mem_filter,
        Bool.and_eq_true, decide_eq_true_iff, beq_iff_eq, hts]
    · simp [VendorGraph.outgoingRelationships, cypherRelOk, List.mem_filter,
        Bool.and_eq_true, decide_eq_true_iff, beq_iff_eq, hts]
      tauto

theorem relChain_mem_rels (g : VendorGraph) :
    ∀ (t : List VendorRelationship) (a : String), relChain g a t →
      ∀ r ∈ t, r ∈ g.rels := by
  intro t
  induction t with
  | nil => intro a _ r hr; exact absurd hr (by simp)
  | cons x xs ih =>
    intro a h r hr
    rcases h with ⟨hx, -, hxs⟩
    rcases List.mem_cons.mp hr with rfl | hr'
    · exact hx
    · exact ih _ hxs r hr'

theorem relChain_idWalk (g : VendorGraph) :
    ∀ (t : List VendorRelationship) (a : String), relChain g a t →
      idWalk g a (trailIds t) := by
  intro t
  induction t with
  | nil => intro a _; trivial
  | cons r rs ih =>
    intro a h
    rcases h with ⟨hr, hsrc, hrs⟩
    exact ⟨⟨r, hr, hsrc, rfl⟩, ih _ hrs⟩

theorem idWalk_append (g : VendorGraph) :
    ∀ (l₁ l₂ : List String) (a : String),
      idWalk g a (l₁ ++ l₂) ↔ idWalk g a l₁ ∧ idWalk g (l₁.getLastD a) l₂ := by
  intro l₁
  induction l₁ with
  | nil => intro l₂ a; simp [idWalk]
  | cons b bs ih =>
    intro l₂ a
    simp only [List.cons_append, idWalk, List.getLastD_cons, List.append_eq]
    rw [ih]
    tauto

theorem reachable_step (g : VendorGraph) (s u w : String) (d : Nat)
    (h : ReachableIn g s u d) (he : hasEdge g u w) : ReachableIn g s w (d + 1) := by
  rcases h with ⟨ids, hwalk, hlast, hlen⟩
  refine ⟨ids ++ [w], ?_, by simp, by simp; omega⟩
  rw [idWalk_append]
  refine ⟨hwalk, ?_⟩
  have : ids.getLastD s = u := by
    simp [List.getLastD_eq_getLast?, hlast]
  rw [this]
  exact ⟨he, trivial⟩

theorem reachable_edge (g : VendorGraph) (s w : String)
    (he : hasEdge g s w) : ReachableIn g s w 1 :=
  ⟨[w], ⟨he, trivial⟩, by simp, by simp⟩

theorem reachable_mono (g : VendorGraph) (s w : String) (d d' : Nat)
    (h : ReachableIn g s w d) (hd : d ≤ d') : ReachableIn g s w d' := by
  rcases h with ⟨ids, h1, h2, h3⟩
  exact ⟨ids, h1, h2, h3.trans hd⟩

theorem reachable_succ_decomp (g : VendorGraph) (s w : String) (d : Nat)
    (h : ReachableIn g s w (d + 1)) :
    ReachableIn g s w d ∨ ∃ u, (u = s ∧ hasEdge g s w ∨
      ReachableIn g s u d ∧ hasEdge g u w) := by
  rcases h with ⟨ids, hwalk, hlast, hlen⟩
  rcases List.getLast?_eq_some_iff.mp hlast with ⟨pre, rfl⟩
  rcases (idWalk_append g pre [w] s).mp hwalk with ⟨hpre, hstep⟩
  rcases hstep with ⟨he, -⟩
  cases pre with
  | nil => exact Or.inr ⟨s, Or.inl ⟨rfl, by simpa using he⟩⟩
  | cons x xs =>
    rcases hu : (x :: xs).getLast? with _ | u
    · simp at hu
    · have hgd : (x :: xs).getLastD s = u := by
        simp [List.getLastD_eq_getLast?, hu]
      have hlen2 : (x :: xs).length ≤ d := by
        simp at hlen ⊢
        omega
      exact Or.inr ⟨u, Or.inr ⟨⟨x :: xs, hpre, hu, hlen2⟩, hgd ▸ he⟩⟩

/-! ### Lemmas: multi-path BFS soundness -/

theorem getVendor_some_id (g : VendorGraph) (x : String) (v : Vendor)
    (h : g.getVendor x = some v) : v.vendor_id = x := by
  have := List.find?_some h
  simpa [beq_iff_eq] using this

theorem pathSignature_eq_trail (src : String) (ns : List VendorNode)
    (t : List VendorRelationship) (h : nodeIds ns = trailIds t) :
    pathSignature src ns = trailSignature src t := by
  have : ns.map (fun n => n.vendor_id) = trailIds t := h
  simp [pathSignature, trailSignature, this]

theorem visitRels_sound (g : VendorGraph) (src : String) (minD maxD : Nat)
    (types : Option (List String)) (minS : ℚ)
    (ns : List VendorNode) (t : List VendorRelationship) (cum : ℚ)
    (hchain : relChain g src t) (hmatch : nodesMatch g 0 t ns)
    (hcum : cum = trailStrength t)
    (hfilt : ∀ r ∈ t, cypherRelOk types minS r = true)
    (hnodup : (trailIds t).Nodup) (hnosrc : src ∉ trailIds t) :
    ∀ (rels : List VendorRelationship) (paths : List RelationshipPath)
      (visited : List String) (queued : List BfsState),
      (∀ r ∈ rels, r ∈ g.rels ∧ r.source_vendor_id = trailEnd src t ∧
        cypherRelOk types minS r = true) →
      FpPathsInv g types minS src minD maxD paths visited →
      (∀ s' ∈ queued, FpStateOK g types minS src s') →
      FpPathsInv g types minS src minD maxD
        (visitRels g src minD maxD ns t cum rels paths visited queued).1
        (visitRels g src minD maxD ns t cum rels paths visited queued).2.1 ∧
      (∀ s' ∈ (visitRels g src minD maxD ns t cum rels paths visited queued).2.2,
        FpStateOK g types minS src s') := by
  intro rels
  induction rels with
  | nil =>
    intro paths visited queued hrels hpinv hqok
    simpa [visitRels] using ⟨hpinv, hqok⟩
  | cons rel rest ih =>
    intro paths visited queued hrels hpinv hqok
    have hrel := hrels rel (by simp)
    have hrest : ∀ r ∈ rest, r ∈ g.rels ∧ r.source_vendor_id = trailEnd src t ∧
        cypherRelOk types minS r = true :=
      fun r hr => hrels r (by simp [hr])
    simp only [visitRels]
    by_cases hguard :
        ((ns.map (fun n => n.vendor_id)).contains rel.target_vendor_id
          || rel.target_vendor_id == src) = true
    · rw [if_pos hguard]
      exact ih paths visited queued hrest hpinv hqok
    · rw [if_neg hguard]
      have hids : nodeIds ns = trailIds t := nodesMatch_ids g t 0 ns hmatch
      have hlen : ns.length = t.length := nodesMatch_length g t 0 ns hmatch
      have hfresh : rel.target_vendor_id ∉ trailIds t := by
        intro hmem
        apply hguard
        rw [Bool.or_eq_true]
        exact Or.inl (by
          rw [List.contains_eq_any_beq]
          rw [← hids] at hmem
          simp [nodeIds] at hmem
          rcases hmem with ⟨n, hn, heq⟩
          exact List.any_eq_true.mpr ⟨n.vendor_id, by
            simpa [nodeIds] using (List.mem_map_of_mem (fun n => n.vendor_id) hn), by
              simp [heq]⟩)
      have hnotsrc : rel.target_vendor_id ≠ src := by
        intro hmem
        exact absurd (by rw [Bool.or_eq_true]; exact Or.inr (by simp [hmem])) hguard
      cases hv : g.getVendor rel.target_vendor_id with
      | none => exact ih paths visited queued hrest hpinv hqok
      | some tv =>
        dsimp only
        have hvid : tv.vendor_id = rel.target_vendor_id := getVendor_some_id g _ tv hv
        have hchain' : relChain g src (t ++ [rel]) :=
          relChain_append_one g src t rel hchain hrel.1 hrel.2.1
        have hmatch' : nodesMatch g 0 (t ++ [rel])
            (ns ++ [⟨tv.vendor_id, tv.vendor_name, tv.industry, ns.length + 1⟩]) := by
          refine nodesMatch_append g t 0 ns hmatch rel _ (by simpa using hvid) ?_ ?_
          · simp [hlen]
          · exact ⟨tv, by simpa [hvid] using hv, rfl, rfl⟩
        have hfilt' : ∀ r ∈ t ++ [rel], cypherRelOk types minS r = true := by
          intro r hr
          rcases List.mem_append.mp hr with h1 | h1
          · exact hfilt r h1
          · have hre : r = rel := by simpa using h1
            rw [hre]
            exact hrel.2.2
        have hnodup' : (trailIds (t ++ [rel])).Nodup := by
          rw [trailIds_append]
          exact List.nodup_append.mpr ⟨hnodup, by simp, by simpa using hfresh⟩
        have hnosrc' : src ∉ trailIds (t ++ [rel]) := by
          rw [trailIds_append]
          intro hmem
          rcases List.mem_append.mp hmem with h1 | h1
          · exact hnosrc h1
          · have h2 : src = rel.target_vendor_id := by simpa using h1
            exact hnotsrc h2.symm
        have hids' : nodeIds (ns ++ [⟨tv.vendor_id, tv.vendor_name, tv.industry,
            ns.length + 1⟩]) = trailIds (t ++ [rel]) := nodesMatch_ids g _ 0 _ hmatch'
        have hsig : pathSignature src (ns ++ [⟨tv.vendor_id, tv.vendor_name,
            tv.industry, ns.length + 1⟩]) = trailSignature src (t ++ [rel]) :=
          pathSignature_eq_trail src _ _ hids'
        rcases hpinv with ⟨hp1, hp2, hp3, hp4⟩
        by_cases hwin : minD ≤ (ns ++ [(⟨tv.vendor_id, tv.vendor_name, tv.industry,
            ns.length + 1⟩ : VendorNode)]).length ∧
            (ns ++ [(⟨tv.vendor_id, tv.vendor_name, tv.industry,
              ns.length + 1⟩ : VendorNode)]).length ≤ maxD
        · rw [if_pos hwin]
          by_cases hseen : visited.contains (pathSignature src (ns ++
              [⟨tv.vendor_id, tv.vendor_name, tv.industry, ns.length + 1⟩])) = true
          · rw [if_pos hseen]
            by_cases henq : (ns ++ [(⟨tv.vendor_id, tv.vendor_name, tv.industry,
                ns.length + 1⟩ : VendorNode)]).length < maxD
            · rw [if_pos henq]
              refine ih paths visited _ hrest ⟨hp1, hp2, hp3, hp4⟩ ?_
              intro s' hs'
              rcases List.mem_append.mp hs' with h1 | h1
              · exact hqok s' h1
              · have hs'eq := List.mem_singleton.mp h1
                subst hs'eq
                exact ⟨⟨hchain', hmatch', by simp [trailEnd_append],
                  by simp [hcum, trailStrength_append]⟩,
                  ⟨hnodup', hnosrc'⟩, hfilt'⟩
            · rw [if_neg henq]
              exact ih paths visited queued hrest ⟨hp1, hp2, hp3, hp4⟩ hqok
          · rw [if_neg hseen]
            have hnewp : PathOK g types minS src minD maxD
                (⟨src, rel.target_vendor_id, ns ++ [(⟨tv.vendor_id, tv.vendor_name,
                  tv.industry, ns.length + 1⟩ : VendorNode)], t ++ [rel],
                  cum * rel.strength, (ns ++ [(⟨tv.vendor_id, tv.vendor_name,
                    tv.industry, ns.length + 1⟩ : VendorNode)]).length,
                  some (1 - cum * rel.strength)⟩ : RelationshipPath) := by
              refine ⟨rfl, hchain', hfilt', hmatch', rfl, ?_, hwin.1, hwin.2,
                ?_, rfl, ?_, hnodup', hnosrc'⟩
              · simp [hlen]
              · simp [hcum, trailStrength_append]
              · simp [trailEnd_append]
            have hpinv' : FpPathsInv g types minS src minD maxD
                (paths ++ [(⟨src, rel.target_vendor_id, ns ++ [(⟨tv.vendor_id,
                  tv.vendor_name, tv.industry, ns.length + 1⟩ : VendorNode)], t ++ [rel],
                  cum * rel.strength, (ns ++ [(⟨tv.vendor_id, tv.vendor_name,
                    tv.industry, ns.length + 1⟩ : VendorNode)]).length,
                  some (1 - cum * rel.strength)⟩ : RelationshipPath)])
                (visited ++ [pathSignature src (ns ++ [⟨tv.vendor_id, tv.vendor_name,
                  tv.industry, ns.length + 1⟩])]) := by
              refine ⟨?_, ?_, ?_, ?_⟩
              · intro p hp
                rcases List.mem_append.mp hp with h1 | h1
                · exact hp1 p h1
                · rw [List.mem_singleton.mp h1]
                  exact hnewp
              · intro p hp
                rcases List.mem_append.mp hp with h1 | h1
                · exact List.mem_append.mpr (Or.inl (hp2 p h1))
                · rw [List.mem_singleton.mp h1]
                  exact List.mem_append.mpr (Or.inr (by simp [hsig]))
              · intro sgn hsgn
                rcases List.mem_append.mp hsgn with h1 | h1
                · rcases hp3 sgn h1 with ⟨p, hpmem, hpe⟩
                  exact ⟨p, List.mem_append.mpr (Or.inl hpmem), hpe⟩
                · refine ⟨⟨src, rel.target_vendor_id, ns ++ [⟨tv.vendor_id,
                    tv.vendor_name, tv.industry, ns.length + 1⟩], t ++ [rel],
                    cum * rel.strength, (ns ++ [(⟨tv.vendor_id, tv.vendor_name,
                      tv.industry, ns.length + 1⟩ : VendorNode)]).length,
                    some (1 - cum * rel.strength)⟩,
                    List.mem_append.mpr (Or.inr (by simp)), ?_⟩
                  have h1' : sgn = pathSignature src (ns ++ [⟨tv.vendor_id,
                    tv.vendor_name, tv.industry, ns.length + 1⟩]) := by simpa using h1
                  rw [h1', hsig]
              · rw [List.map_append]
                refine List.nodup_append.mpr ⟨hp4, by simp, ?_⟩
                intro a ha
                simp only [List.map_cons, List.map_nil, List.mem_singleton]
                intro hae
                rw [hae] at ha
                simp only [List.mem_map] at ha
                rcases ha with ⟨p, hpmem, hpe⟩
                refine absurd ?_ hseen
                rw [List.contains_eq_any_beq]
                refine List.any_eq_true.mpr ⟨trailSignature src p.relationships,
                  hp2 p hpmem, ?_⟩
                simp [hpe, hsig]
            by_cases henq : (ns ++ [(⟨tv.vendor_id, tv.vendor_name, tv.industry,
                ns.length + 1⟩ : VendorNode)]).length < maxD
            · rw [if_pos henq]
              refine ih _ _ _ hrest hpinv' ?_
              intro s' hs'
              rcases List.mem_append.mp hs' with h1 | h1
              · exact hqok s' h1
              · have hs'eq := List.mem_singleton.mp h1
                subst hs'eq
                exact ⟨⟨hchain', hmatch', by simp [trailEnd_append],
                  by simp [hcum, trailStrength_append]⟩,
                  ⟨hnodup', hnosrc'⟩, hfilt'⟩
            · rw [if_neg henq]
              exact ih _ _ _ hrest hpinv' hqok
        · rw [if_neg hwin]
          by_cases henq : (ns ++ [(⟨tv.vendor_id, tv.vendor_name, tv.industry,
              ns.length + 1⟩ : VendorNode)]).length < maxD
          · rw [if_pos henq]
            refine ih _ _ _ hrest ⟨hp1, hp2, hp3, hp4⟩ ?_
            intro s' hs'
            rcases List.mem_append.mp hs' with h1 | h1
            · exact hqok s' h1
            · have hs'eq := List.mem_singleton.mp h1
              subst hs'eq
              exact ⟨⟨hchain', hmatch', by simp [trailEnd_append],
                by simp [hcum, trailStrength_append]⟩,
                ⟨hnodup', hnosrc'⟩, hfilt'⟩
          · rw [if_neg henq]
            exact ih _ _ _ hrest ⟨hp1, hp2, hp3, hp4⟩ hqok

theorem bfsLoop_sound (g : VendorGraph) (src : String) (minD maxD : Nat)
    (types : Option (List String)) (minS : ℚ) (limit : Nat) :
    ∀ (fuel : Nat) (queue : List BfsState) (paths : List RelationshipPath)
      (visited : List String),
      (∀ s ∈ queue, FpStateOK g types minS src s) →
      FpPathsInv g types minS src minD maxD paths visited →
      (∀ p ∈ bfsLoop g src minD maxD types minS limit fuel queue paths visited,
        PathOK g types minS src minD maxD p) ∧
      ((bfsLoop g src minD maxD types minS limit fuel queue paths visited).map
        (fun p => trailSignature src p.relationships)).Nodup := by
  intro fuel
  induction fuel with
  | zero =>
    intro queue paths visited hq hpinv
    exact ⟨hpinv.1, hpinv.2.2.2⟩
  | succ fuel ih =>
    intro queue paths visited hq hpinv
    cases queue with
    | nil =>
      exact ⟨hpinv.1, hpinv.2.2.2⟩
    | cons s rest =>
      simp only [bfsLoop]
      by_cases hlim : limit ≤ paths.length
      · rw [if_pos hlim]
        exact ⟨hpinv.1, hpinv.2.2.2⟩
      · rw [if_neg hlim]
        by_cases hdep : maxD ≤ s.path_nodes.length
        · rw [if_pos hdep]
          exact ih rest paths visited
            (fun s' hs' => hq s' (List.mem_cons_of_mem s hs')) hpinv
        · rw [if_neg hdep]
          obtain ⟨⟨hchain, hmatch, hcur, hcum⟩, ⟨hnodup, hnosrc⟩, hfilt⟩ :=
            hq s (List.mem_cons_self s rest)
          have hrels : ∀ r ∈ g.outgoingRelationships s.current_id types minS,
              r ∈ g.rels ∧ r.source_vendor_id = trailEnd src s.path_rels ∧
                cypherRelOk types minS r = true := by
            intro r hr
            rcases (mem_outgoingRelationships g s.current_id types minS r).mp hr with
              ⟨h1, h2, h3⟩
            exact ⟨h1, hcur ▸ h2, h3⟩
          have hstep := visitRels_sound g src minD maxD types minS s.path_nodes
            s.path_rels s.cumulative_strength hchain hmatch hcum hfilt hnodup hnosrc
            (g.outgoingRelationships s.current_id types minS) paths visited []
            hrels hpinv (by intro s' hs'; exact absurd hs' (List.not_mem_nil s'))
          refine ih _ _ _ ?_ hstep.1
          intro s' hs'
          rcases List.mem_append.mp hs' with h1 | h1
          · exact hq s' (List.mem_cons_of_mem s h1)
          · exact hstep.2 s' h1

theorem initState_ok (g : VendorGraph) (src : String)
    (types : Option (List String)) (minS : ℚ) :
    FpStateOK g types minS src ⟨src, [], [], 1⟩ := by
  refine ⟨⟨trivial, trivial, rfl, rfl⟩, ⟨List.nodup_nil, ?_⟩, ?_⟩
  · simp [trailIds]
  · intro r hr
    exact absurd hr (List.not_mem_nil r)

theorem find_paths_sound (g : VendorGraph) (src : String) (minD maxD : Nat)
    (types : Option (List String)) (minS : ℚ) (limit : Nat) :
    ∀ p ∈ find_paths g src minD maxD types minS limit,
      PathOK g types minS src minD maxD p := by
  intro p hp
  unfold find_paths at hp
  cases hgv : g.getVendor src with
  | none =>
    rw [hgv] at hp
    exact absurd hp (List.not_mem_nil p)
  | some v =>
    rw [hgv] at hp
    simp only at hp
    have hall := bfsLoop_sound g src minD maxD types minS limit
      ((g.rels.length + 1) ^ maxD + 1) [⟨src, [], [], 1⟩] [] []
      (by
        intro s hs
        have := List.mem_singleton.mp hs
        subst this
        exact initState_ok g src types minS)
      ⟨by intro q hq; exact absurd hq (List.not_mem_nil q),
       by intro q hq; exact absurd hq (List.not_mem_nil q),
       by intro sgn hsgn; exact absurd hsgn (List.not_mem_nil sgn),
       by simp⟩
    have hp' := List.mem_of_mem_take hp
    have hp'' := (pySort_perm pathKeyLt _).mem_iff.mp hp'
    exact hall.1 p hp''

theorem find_paths_sig_nodup (g : VendorGraph) (src : String) (minD maxD : Nat)
    (types : Option (List String)) (minS : ℚ) (limit : Nat) :
    ((find_paths g src minD maxD types minS limit).map
      (fun p => trailSignature src p.relationships)).Nodup := by
  unfold find_paths
  cases hgv : g.getVendor src with
  | none => simp
  | some v =>
    simp only
    have hall := bfsLoop_sound g src minD maxD types minS limit
      ((g.rels.length + 1) ^ maxD + 1) [⟨src, [], [], 1⟩] [] []
      (by
        intro s hs
        have := List.mem_singleton.mp hs
        subst this
        exact initState_ok g src types minS)
      ⟨by intro q hq; exact absurd hq (List.not_mem_nil q),
       by intro q hq; exact absurd hq (List.not_mem_nil q),
       by intro sgn hsgn; exact absurd hsgn (List.not_mem_nil sgn),
       by simp⟩
    have hperm : ((pySort pathKeyLt (bfsLoop g src minD maxD types minS limit
        ((g.rels.length + 1) ^ maxD + 1) [⟨src, [], [], 1⟩] [] [])).map
        (fun p => trailSignature src p.relationships)).Nodup :=
      ((pySort_perm pathKeyLt _).map _).nodup_iff.mpr hall.2
    rw [List.map_take]
    exact List.Nodup.sublist (List.take_sublist _ _) hperm

/-! ### Lemmas: shortest-path BFS -/

theorem contains_iff_mem (l : List String) (x : String) :
    l.contains x = true ↔ x ∈ l := by
  simp

theorem filter_length_mono {α : Type} (p q : α → Bool) :
    ∀ l : List α, (∀ a ∈ l, p a = true → q a = true) →
      (l.filter p).length ≤ (l.filter q).length := by
  intro l
  induction l with
  | nil => intro _; simp
  | cons x xs ih =>
    intro h
    have hxs := ih (fun a ha => h a (List.mem_cons_of_mem x ha))
    by_cases hp : p x = true
    · rw [List.filter_cons_of_pos hp, List.filter_cons_of_pos (h x (by simp) hp)]
      simpa using hxs
    · rw [List.filter_cons_of_neg (by simpa using hp)]
      by_cases hq : q x = true
      · rw [List.filter_cons_of_pos hq]
        exact hxs.trans (by simp)
      · rw [List.filter_cons_of_neg (by simpa using hq)]
        exact hxs

theorem filter_length_lt {α : Type} (p q : α → Bool) :
    ∀ l : List α, (∀ a ∈ l, p a = true → q a = true) →
      ∀ a ∈ l, q a = true → p a = false →
      (l.filter p).length < (l.filter q).length := by
  intro l
  induction l with
  | nil => intro _ a ha; exact absurd ha (List.not_mem_nil a)
  | cons x xs ih =>
    intro h a ha hq hp
    have hmono := filter_length_mono p q xs (fun b hb => h b (List.mem_cons_of_mem x hb))
    rcases List.mem_cons.mp ha with rfl | ha'
    · rw [List.filter_cons_of_neg (by simpa using hp), List.filter_cons_of_pos hq]
      simpa using Nat.lt_succ_of_le hmono
    · have hlt := ih (fun b hb => h b (List.mem_cons_of_mem x hb)) a ha' hq hp
      by_cases hpx : p x = true
      · rw [List.filter_cons_of_pos hpx, List.filter_cons_of_pos (h x (by simp) hpx)]
        simpa using hlt
      · rw [List.filter_cons_of_neg (by simpa using hpx)]
        by_cases hqx : q x = true
        · rw [List.filter_cons_of_pos hqx]
          exact hlt.trans (by simp)
        · rw [List.filter_cons_of_neg (by simpa using hqx)]
          exact hlt

theorem unvis_append_le (g : VendorGraph) (visited : List String) (x : String) :
    unvisCount g (visited ++ [x]) ≤ unvisCount g visited := by
  refine filter_length_mono _ _ g.rels ?_
  intro r _ hr
  simp only [Bool.not_eq_true'] at hr ⊢
  rw [Bool.eq_false_iff] at hr ⊢
  intro hc
  exact hr ((contains_iff_mem _ _).mpr
    (List.mem_append.mpr (Or.inl ((contains_iff_mem _ _).mp hc))))

theorem unvis_append_lt (g : VendorGraph) (visited : List String) (x : String)
    (r : VendorRelationship) (hr : r ∈ g.rels) (ht : r.target_vendor_id = x)
    (hx : visited.contains x = false) :
    unvisCount g (visited ++ [x]) < unvisCount g visited := by
  refine filter_length_lt _ _ g.rels ?_ r hr ?_ ?_
  · intro a _ ha
    simp only [Bool.not_eq_true'] at ha ⊢
    rw [Bool.eq_false_iff] at ha ⊢
    intro hc
    exact ha ((contains_iff_mem _ _).mpr
      (List.mem_append.mpr (Or.inl ((contains_iff_mem _ _).mp hc))))
  · simp only [ht]
    have hnm : x ∉ visited := by
      intro hmem
      rw [(contains_iff_mem visited x).mpr hmem] at hx
      cases hx
    simp [hnm]
  · simp [ht]

theorem spv_visited_mono (g : VendorGraph) (src target : String)
    (ns : List VendorNode) (t : List VendorRelationship) (cum : ℚ) :
    ∀ (rels : List VendorRelationship) (visited : List String)
      (queued : List BfsState) (x : String), x ∈ visited →
      x ∈ (spVisitRels g src target ns t cum rels visited queued).2.1 := by
  intro rels
  induction rels with
  | nil => intro visited queued x hx; simpa [spVisitRels] using hx
  | cons rel rest ih =>
    intro visited queued x hx
    simp only [spVisitRels]
    by_cases hv : visited.contains rel.target_vendor_id = true
    · rw [if_pos hv]
      exact ih _ _ x hx
    · rw [if_neg hv]
      cases hgv : g.getVendor rel.target_vendor_id with
      | none =>
        dsimp only
        exact ih _ _ x (List.mem_append.mpr (Or.inl hx))
      | some v =>
        dsimp only
        by_cases htar : (rel.target_vendor_id == target) = true
        · rw [if_pos htar]
          exact List.mem_append.mpr (Or.inl hx)
        · rw [if_neg htar]
          exact ih _ _ x (List.mem_append.mpr (Or.inl hx))

theorem spv_queued_mono (g : VendorGraph) (src target : String)
    (ns : List VendorNode) (t : List VendorRelationship) (cum : ℚ) :
    ∀ (rels : List VendorRelationship) (visited : List String)
      (queued : List BfsState) (s' : BfsState), s' ∈ queued →
      s' ∈ (spVisitRels g src target ns t cum rels visited queued).2.2 := by
  intro rels
  induction rels with
  | nil => intro visited queued s' hs'; simpa [spVisitRels] using hs'
  | cons rel rest ih =>
    intro visited queued s' hs'
    simp only [spVisitRels]
    by_cases hv : visited.contains rel.target_vendor_id = true
    · rw [if_pos hv]
      exact ih _ _ s' hs'
    · rw [if_neg hv]
      cases hgv : g.getVendor rel.target_vendor_id with
      | none =>
        dsimp only
        exact ih _ _ s' hs'
      | some v =>
        dsimp only
        by_cases htar : (rel.target_vendor_id == target) = true
        · rw [if_pos htar]
          exact hs'
        · rw [if_neg htar]
          exact ih _ _ s' (List.mem_append.mpr (Or.inl hs'))

theorem spv_visited_class (g : VendorGraph) (src target : String)
    (ns : List VendorNode) (t : List VendorRelationship) (cum : ℚ) :
    ∀ (rels : List VendorRelationship) (visited : List String)
      (queued : List BfsState) (x : String),
      x ∈ (spVisitRels g src target ns t cum rels visited queued).2.1 →
      x ∈ visited ∨
      (∃ s' ∈ (spVisitRels g src target ns t cum rels visited queued).2.2,
        s'.current_id = x) ∨
      g.getVendor x = none ∨
      (∃ p, (spVisitRels g src target ns t cum rels visited queued).1 = some p) := by
  intro rels
  induction rels with
  | nil =>
    intro visited queued x hx
    exact Or.inl (by simpa [spVisitRels] using hx)
  | cons rel rest ih =>
    intro visited queued x hx
    simp only [spVisitRels] at hx ⊢
    by_cases hv : visited.contains rel.target_vendor_id = true
    · rw [if_pos hv] at hx ⊢
      exact ih _ _ x hx
    · rw [if_neg hv] at hx ⊢
      cases hgv : g.getVendor rel.target_vendor_id with
      | none =>
        rw [hgv] at hx
        dsimp only at hx ⊢
        rcases ih _ _ x hx with h1 | h2 | h3 | h4
        · rcases List.mem_append.mp h1 with ha | hb
          · exact Or.inl ha
          · exact Or.inr (Or.inr (Or.inl ((by simpa using hb : x = rel.target_vendor_id) ▸ hgv)))
        · exact Or.inr (Or.inl h2)
        · exact Or.inr (Or.inr (Or.inl h3))
        · exact Or.inr (Or.inr (Or.inr h4))
      | some v =>
        rw [hgv] at hx
        dsimp only at hx ⊢
        by_cases htar : (rel.target_vendor_id == target) = true
        · rw [if_pos htar] at hx ⊢
          exact Or.inr (Or.inr (Or.inr ⟨_, rfl⟩))
        · rw [if_neg htar] at hx ⊢
          rcases ih _ _ x hx with h1 | h2 | h3 | h4
          · rcases List.mem_append.mp h1 with ha | hb
            · exact Or.inl ha
            · refine Or.inr (Or.inl ⟨⟨rel.target_vendor_id, ns ++ [⟨v.vendor_id,
                v.vendor_name, v.industry, ns.length + 1⟩], t ++ [rel],
                cum * rel.strength⟩, ?_, (show x = rel.target_vendor_id by simpa using hb).symm⟩)
              exact spv_queued_mono g src target ns t cum rest _ _ _
                (List.mem_append.mpr (Or.inr (by simp)))
          · exact Or.inr (Or.inl h2)
          · exact Or.inr (Or.inr (Or.inl h3))
          · exact Or.inr (Or.inr (Or.inr h4))

theorem spv_new_states (g : VendorGraph) (src target : String)
    (ns : List VendorNode) (t : List VendorRelationship) (cum : ℚ)
    (hchain : relChain g src t) (hmatch : nodesMatch g 0 t ns)
    (hcum : cum = trailStrength t)
    (hnodup : (trailIds t).Nodup) (hnosrc : src ∉ trailIds t) :
    ∀ (rels : List VendorRelationship) (visited : List String)
      (queued : List BfsState),
      (∀ r ∈ rels, r ∈ g.rels ∧ r.source_vendor_id = trailEnd src t) →
      (∀ i ∈ trailIds t, i ∈ visited) → src ∈ visited →
      ∀ s' ∈ (spVisitRels g src target ns t cum rels visited queued).2.2,
        s' ∈ queued ∨
        (StateChain g src s' ∧ StateSimple src s' ∧ s'.current_id ≠ target ∧
          s'.path_rels.length = t.length + 1 ∧ s'.current_id ∉ visited ∧
          (∀ i ∈ trailIds s'.path_rels,
            i ∈ (spVisitRels g src target ns t cum rels visited queued).2.1)) := by
  intro rels
  induction rels with
  | nil =>
    intro visited queued _ _ _ s' hs'
    exact Or.inl (by simpa [spVisitRels] using hs')
  | cons rel rest ih =>
    intro visited queued hrels hvis hsrc s' hs'
    have hrel := hrels rel (by simp)
    have hrest : ∀ r ∈ rest, r ∈ g.rels ∧ r.source_vendor_id = trailEnd src t :=
      fun r hr => hrels r (by simp [hr])
    simp only [spVisitRels] at hs' ⊢
    by_cases hv : visited.contains rel.target_vendor_id = true
    · rw [if_pos hv] at hs' ⊢
      exact ih _ _ hrest hvis hsrc s' hs'
    · rw [if_neg hv] at hs' ⊢
      have hfreshv : rel.target_vendor_id ∉ visited := by
        intro hm
        rw [(contains_iff_mem _ _).mpr hm] at hv
        exact hv rfl
      have hvis' : ∀ i ∈ trailIds t, i ∈ visited ++ [rel.target_vendor_id] :=
        fun i hi => List.mem_append.mpr (Or.inl (hvis i hi))
      have hsrc' : src ∈ visited ++ [rel.target_vendor_id] :=
        List.mem_append.mpr (Or.inl hsrc)
      cases hgv : g.getVendor rel.target_vendor_id with
      | none =>
        rw [hgv] at hs'
        dsimp only at hs' ⊢
        rcases ih _ _ hrest hvis' hsrc' s' hs' with h1 | h2
        · exact Or.inl h1
        · refine Or.inr ⟨h2.1, h2.2.1, h2.2.2.1, h2.2.2.2.1, ?_, h2.2.2.2.2.2⟩
          intro hm
          exact h2.2.2.2.2.1 (List.mem_append.mpr (Or.inl hm))
      | some v =>
        rw [hgv] at hs'
        dsimp only at hs' ⊢
        by_cases htar : (rel.target_vendor_id == target) = true
        · rw [if_pos htar] at hs' ⊢
          exact Or.inl hs'
        · rw [if_neg htar] at hs' ⊢
          have hvid : v.vendor_id = rel.target_vendor_id := getVendor_some_id g _ v hgv
          have hfresh : rel.target_vendor_id ∉ trailIds t := fun hm => hfreshv (hvis _ hm)
          have hns : rel.target_vendor_id ≠ src := fun he => hfreshv (he ▸ hsrc)
          rcases ih _ _ hrest hvis' hsrc' s' hs' with h1 | h2
          · rcases List.mem_append.mp h1 with ha | hb
            · exact Or.inl ha
            · have hs'eq := List.mem_singleton.mp hb
              subst hs'eq
              refine Or.inr ⟨⟨relChain_append_one g src t rel hchain hrel.1 hrel.2,
                ?_, by simp [trailEnd_append], by simp [hcum, trailStrength_append]⟩,
                ⟨?_, ?_⟩, ?_, by simp, hfreshv, ?_⟩
              · refine nodesMatch_append g t 0 ns hmatch rel _ (by simpa using hvid) ?_ ?_
                · simp [nodesMatch_length g t 0 ns hmatch]
                · exact ⟨v, by simpa [hvid] using hgv, rfl, rfl⟩
              · rw [trailIds_append]
                exact List.nodup_append.mpr ⟨hnodup, by simp, by simpa using hfresh⟩
              · rw [trailIds_append]
                intro hm
                rcases List.mem_append.mp hm with hm1 | hm1
                · exact hnosrc hm1
                · exact hns ((by simpa using hm1 : src = rel.target_vendor_id)).symm
              · intro he
                have he' : rel.target_vendor_id = target := by simpa using he
                rw [he'] at htar
                simp at htar
              · intro i hi
                rw [trailIds_append] at hi
                rcases List.mem_append.mp hi with hi1 | hi1
                · exact spv_visited_mono g src target ns t cum rest _ _ i
                    (List.mem_append.mpr (Or.inl (hvis i hi1)))
                · exact spv_visited_mono g src target ns t cum rest _ _ i
                    (List.mem_append.mpr (Or.inr (by simpa using hi1)))
          · refine Or.inr ⟨h2.1, h2.2.1, h2.2.2.1, h2.2.2.2.1, ?_, h2.2.2.2.2.2⟩
            intro hm
            exact h2.2.2.2.2.1 (List.mem_append.mpr (Or.inl hm))

theorem spv_none_case (g : VendorGraph) (src target : String)
    (ns : List VendorNode) (t : List VendorRelationship) (cum : ℚ) :
    ∀ (rels : List VendorRelationship) (visited : List String)
      (queued : List BfsState),
      (∀ r ∈ rels, r ∈ g.rels) →
      (spVisitRels g src target ns t cum rels visited queued).1 = none →
      (∀ r ∈ rels, r.target_vendor_id ∈
        (spVisitRels g src target ns t cum rels visited queued).2.1) ∧
      (spVisitRels g src target ns t cum rels visited queued).2.2.length +
        unvisCount g (spVisitRels g src target ns t cum rels visited queued).2.1 ≤
        queued.length + unvisCount g visited := by
  intro rels
  induction rels with
  | nil =>
    intro visited queued _ _
    exact ⟨by intro r hr; exact absurd hr (List.not_mem_nil r), by simp [spVisitRels]⟩
  | cons rel rest ih =>
    intro visited queued hrels hnone
    have hrest : ∀ r ∈ rest, r ∈ g.rels := fun r hr => hrels r (by simp [hr])
    simp only [spVisitRels] at hnone ⊢
    by_cases hv : visited.contains rel.target_vendor_id = true
    · rw [if_pos hv] at hnone ⊢
      rcases ih _ _ hrest hnone with ⟨h1, h2⟩
      refine ⟨?_, h2⟩
      intro r hr
      rcases List.mem_cons.mp hr with rfl | hr'
      · exact spv_visited_mono g src target ns t cum rest _ _ _
          ((contains_iff_mem _ _).mp hv)
      · exact h1 r hr'
    · rw [if_neg hv] at hnone ⊢
      have hvf : visited.contains rel.target_vendor_id = false :=
        Bool.not_eq_true _ ▸ (Bool.eq_false_iff.mpr hv)
      cases hgv : g.getVendor rel.target_vendor_id with
      | none =>
        rw [hgv] at hnone
        dsimp only at hnone ⊢
        rcases ih _ _ hrest hnone with ⟨h1, h2⟩
        refine ⟨?_, ?_⟩
        · intro r hr
          rcases List.mem_cons.mp hr with rfl | hr'
          · exact spv_visited_mono g src target ns t cum rest _ _ _
              (List.mem_append.mpr (Or.inr (by simp)))
          · exact h1 r hr'
        · refine h2.trans ?_
          have := unvis_append_lt g visited rel.target_vendor_id rel
            (hrels rel (by simp)) rfl hvf
          omega
      | some v =>
        rw [hgv] at hnone
        dsimp only at hnone ⊢
        by_cases htar : (rel.target_vendor_id == target) = true
        · rw [if_pos htar] at hnone
          exact absurd hnone (by simp)
        · rw [if_neg htar] at hnone ⊢
          rcases ih _ _ hrest hnone with ⟨h1, h2⟩
          refine ⟨?_, ?_⟩
          · intro r hr
            rcases List.mem_cons.mp hr with rfl | hr'
            · exact spv_visited_mono g src target ns t cum rest _ _ _
                (List.mem_append.mpr (Or.inr (by simp)))
            · exact h1 r hr'
          · refine h2.trans ?_
            have := unvis_append_lt g visited rel.target_vendor_id rel
              (hrels rel (by simp)) rfl hvf
            simp only [List.length_append, List.length_cons, List.length_nil]
            omega

theorem spv_some_case (g : VendorGraph) (src target : String) (maxD : Nat)
    (ns : List VendorNode) (t : List VendorRelationship) (cum : ℚ)
    (hchain : relChain g src t) (hmatch : nodesMatch g 0 t ns)
    (hcum : cum = trailStrength t)
    (hnodup : (trailIds t).Nodup) (hnosrc : src ∉ trailIds t)
    (hlen : ns.length < maxD) :
    ∀ (rels : List VendorRelationship) (visited : List String)
      (queued : List BfsState),
      (∀ r ∈ rels, r ∈ g.rels ∧ r.source_vendor_id = trailEnd src t) →
      (∀ i ∈ trailIds t, i ∈ visited) → src ∈ visited →
      ∀ p, (spVisitRels g src target ns t cum rels visited queued).1 = some p →
        SpPathOK g src target maxD p ∧ p.path_length = ns.length + 1 ∧
        target ∈ (spVisitRels g src target ns t cum rels visited queued).2.1 := by
  intro rels
  induction rels with
  | nil =>
    intro visited queued _ _ _ p hp
    exact absurd hp (by simp [spVisitRels])
  | cons rel rest ih =>
    intro visited queued hrels hvis hsrc p hp
    have hrel := hrels rel (by simp)
    have hrest : ∀ r ∈ rest, r ∈ g.rels ∧ r.source_vendor_id = trailEnd src t :=
      fun r hr => hrels r (by simp [hr])
    simp only [spVisitRels] at hp ⊢
    by_cases hv : visited.contains rel.target_vendor_id = true
    · rw [if_pos hv] at hp ⊢
      exact ih _ _ hrest hvis hsrc p hp
    · rw [if_neg hv] at hp ⊢
      have hfreshv : rel.target_vendor_id ∉ visited := by
        intro hm
        rw [(contains_iff_mem _ _).mpr hm] at hv
        exact hv rfl
      have hvis' : ∀ i ∈ trailIds t, i ∈ visited ++ [rel.target_vendor_id] :=
        fun i hi => List.mem_append.mpr (Or.inl (hvis i hi))
      have hsrc' : src ∈ visited ++ [rel.target_vendor_id] :=
        List.mem_append.mpr (Or.inl hsrc)
      cases hgv : g.getVendor rel.target_vendor_id with
      | none =>
        rw [hgv] at hp
        dsimp only at hp ⊢
        exact ih _ _ hrest hvis' hsrc' p hp
      | some v =>
        rw [hgv] at hp
        dsimp only at hp ⊢
        by_cases htar : (rel.target_vendor_id == target) = true
        · rw [if_pos htar] at hp ⊢
          have htar' : rel.target_vendor_id = target := by simpa using htar
          have hvid : v.vendor_id = rel.target_vendor_id := getVendor_some_id g _ v hgv
          have hfresh : rel.target_vendor_id ∉ trailIds t := fun hm => hfreshv (hvis _ hm)
          have hns : rel.target_vendor_id ≠ src := fun he => hfreshv (he ▸ hsrc)
          have hpe : p = ⟨src, target, ns ++ [⟨v.vendor_id, v.vendor_name, v.industry,
              ns.length + 1⟩], t ++ [rel], cum * rel.strength,
              (ns ++ [(⟨v.vendor_id, v.vendor_name, v.industry,
                ns.length + 1⟩ : VendorNode)]).length, none⟩ := by
            simpa using hp.symm
          subst hpe
          have hlent : ns.length = t.length := nodesMatch_length g t 0 ns hmatch
          refine ⟨⟨rfl, rfl, relChain_append_one g src t rel hchain hrel.1 hrel.2, ?_,
            by simp, by simp [hlent], by simp, by simpa using hlen,
            by simp [hcum, trailStrength_append], rfl, by simp [trailEnd_append, htar'],
            ?_, ?_⟩, by simp, ?_⟩
          · refine nodesMatch_append g t 0 ns hmatch rel _ (by simpa using hvid) ?_ ?_
            · simp [hlent]
            · exact ⟨v, by simpa [hvid] using hgv, rfl, rfl⟩
          · rw [trailIds_append]
            exact List.nodup_append.mpr ⟨hnodup, by simp, by simpa using hfresh⟩
          · rw [trailIds_append]
            intro hm
            rcases List.mem_append.mp hm with hm1 | hm1
            · exact hnosrc hm1
            · exact hns ((by simpa using hm1 : src = rel.target_vendor_id)).symm
          · rw [← htar']
            exact List.mem_append.mpr (Or.inr (by simp))
        · rw [if_neg htar] at hp ⊢
          exact ih _ _ hrest hvis' hsrc' p hp

theorem spv_target_preserved (g : VendorGraph) (src target : String)
    (ns : List VendorNode) (t : List VendorRelationship) (cum : ℚ) :
    ∀ (rels : List VendorRelationship) (visited : List String)
      (queued : List BfsState),
      (∀ r ∈ rels, (g.getVendor r.target_vendor_id).isSome) →
      target ∉ visited →
      (spVisitRels g src target ns t cum rels visited queued).1 = none →
      target ∉ (spVisitRels g src target ns t cum rels visited queued).2.1 := by
  intro rels
  induction rels with
  | nil =>
    intro visited queued _ htv _
    simpa [spVisitRels] using htv
  | cons rel rest ih =>
    intro visited queued hsome htv hnone
    have hrest : ∀ r ∈ rest, (g.getVendor r.target_vendor_id).isSome :=
      fun r hr => hsome r (by simp [hr])
    simp only [spVisitRels] at hnone ⊢
    by_cases hv : visited.contains rel.target_vendor_id = true
    · rw [if_pos hv] at hnone ⊢
      exact ih _ _ hrest htv hnone
    · rw [if_neg hv] at hnone ⊢
      cases hgv : g.getVendor rel.target_vendor_id with
      | none =>
        have := hsome rel (by simp)
        rw [hgv] at this
        exact absurd this (by simp)
      | some v =>
        rw [hgv] at hnone
        dsimp only at hnone ⊢
        by_cases htar : (rel.target_vendor_id == target) = true
        · rw [if_pos htar] at hnone
          exact absurd hnone (by simp)
        · rw [if_neg htar] at hnone ⊢
          refine ih _ _ hrest ?_ hnone
          intro hm
          rcases List.mem_append.mp hm with h1 | h1
          · exact htv h1
          · have : target = rel.target_vendor_id := by simpa using h1
            rw [this] at htar
            simp at htar

theorem spv_new_targets (g : VendorGraph) (src target : String)
    (ns : List VendorNode) (t : List VendorRelationship) (cum : ℚ) :
    ∀ (rels : List VendorRelationship) (visited : List String)
      (queued : List BfsState) (x : String),
      x ∈ (spVisitRels g src target ns t cum rels visited queued).2.1 →
      x ∈ visited ∨ ∃ r ∈ rels, r.target_vendor_id = x := by
  intro rels
  induction rels with
  | nil =>
    intro visited queued x hx
    exact Or.inl (by simpa [spVisitRels] using hx)
  | cons rel rest ih =>
    intro visited queued x hx
    simp only [spVisitRels] at hx
    by_cases hv : visited.contains rel.target_vendor_id = true
    · rw [if_pos hv] at hx
      rcases ih _ _ x hx with h1 | ⟨r, hr, he⟩
      · exact Or.inl h1
      · exact Or.inr ⟨r, by simp [hr], he⟩
    · rw [if_neg hv] at hx
      cases hgv : g.getVendor rel.target_vendor_id with
      | none =>
        rw [hgv] at hx
        dsimp only at hx
        rcases ih _ _ x hx with h1 | ⟨r, hr, he⟩
        · rcases List.mem_append.mp h1 with ha | hb
          · exact Or.inl ha
          · exact Or.inr ⟨rel, by simp,
              (show x = rel.target_vendor_id by simpa using hb).symm⟩
        · exact Or.inr ⟨r, by simp [hr], he⟩
      | some v =>
        rw [hgv] at hx
        dsimp only at hx
        by_cases htar : (rel.target_vendor_id == target) = true
        · rw [if_pos htar] at hx
          rcases List.mem_append.mp hx with ha | hb
          · exact Or.inl ha
          · exact Or.inr ⟨rel, by simp,
              (show x = rel.target_vendor_id by simpa using hb).symm⟩
        · rw [if_neg htar] at hx
          rcases ih _ _ x hx with h1 | ⟨r, hr, he⟩
          · rcases List.mem_append.mp h1 with ha | hb
            · exact Or.inl ha
            · exact Or.inr ⟨rel, by simp,
              (show x = rel.target_vendor_id by simpa using hb).symm⟩
          · exact Or.inr ⟨r, by simp [hr], he⟩

theorem trailEnd_mem (src : String) (t : List VendorRelationship) (h : t ≠ []) :
    trailEnd src t ∈ trailIds t := by
  rcases hl : t.getLast? with _ | r
  · rw [List.getLast?_eq_none_iff] at hl
    exact absurd hl h
  · rcases List.getLast?_eq_some_iff.mp hl with ⟨ys, rfl⟩
    have hr : r ∈ ys ++ [r] := List.mem_append.mpr (Or.inr (by simp))
    have : trailEnd src (ys ++ [r]) = r.target_vendor_id := trailEnd_append src ys r
    rw [this]
    exact List.mem_map_of_mem _ hr

theorem closed_reach (g : VendorGraph) (visited : List String) (src : String)
    (hsrc : src ∈ visited)
    (hcl : ∀ u ∈ visited, ∀ r ∈ g.rels, r.source_vendor_id = u →
      r.target_vendor_id ∈ visited) :
    ∀ (n : Nat) (w : String), ReachableIn g src w n → w ∈ visited := by
  intro n
  induction n with
  | zero =>
    intro w hw
    rcases hw with ⟨ids, _, hlast, hlen⟩
    rcases List.eq_nil_of_length_eq_zero (Nat.le_zero.mp hlen) with rfl
    simp at hlast
  | succ n ih =>
    intro w hw
    rcases reachable_succ_decomp g src w n hw with h1 | ⟨u, h2 | h2⟩
    · exact ih w h1
    · rcases h2.2 with ⟨r, hr, hrs, hrt⟩
      exact hrt ▸ hcl src hsrc r hr hrs
    · rcases h2.2 with ⟨r, hr, hrs, hrt⟩
      exact hrt ▸ hcl u (ih u h2.1) r hr hrs

theorem spInv_norm (g : VendorGraph) (src target : String) (maxD : Nat)
    (queue : List BfsState) (visited : List String) (hq : queue ≠ [])
    (hinv : SpInv g src target maxD queue visited) :
    ∃ d A B, queue = A ++ B ∧ A ≠ [] ∧ d ≤ maxD ∧
      (∀ s ∈ A, s.path_rels.length = d) ∧
      (∀ s ∈ B, s.path_rels.length = d + 1) ∧
      (B = [] ∨ d < maxD) ∧ src ∈ visited ∧ target ∉ visited ∧
      (∀ s ∈ queue, StateChain g src s) ∧ (∀ s ∈ queue, StateSimple src s) ∧
      (∀ s ∈ queue, s.current_id ≠ target) ∧
      (∀ s ∈ queue, ∀ i ∈ trailIds s.path_rels, i ∈ visited) ∧
      (∀ w, ReachableIn g src w d → w ∈ visited) ∧
      (∀ s ∈ B, ¬ ReachableIn g src s.current_id d) ∧
      (d < maxD → ∀ u ∈ visited, (∃ s ∈ queue, s.current_id = u) ∨
        (∀ r ∈ g.rels, r.source_vendor_id = u → r.target_vendor_id ∈ visited)) := by
  obtain ⟨d, A, B, hqAB, hdle, hA, hB, hBd, hsrcv, htarv, hchainQ, hsimpleQ,
    htarQ, hidsQ, hR3, hR7, hR5⟩ := hinv
  cases hAe : A with
  | cons a A' =>
    exact ⟨d, A, B, hqAB, by simp [hAe], hdle, hA, hB, hBd, hsrcv, htarv,
      hchainQ, hsimpleQ, htarQ, hidsQ, hR3, hR7, hR5⟩
  | nil =>
    subst hAe
    simp only [List.nil_append] at hqAB
    subst hqAB
    have hdlt : d < maxD := by
      rcases hBd with hBe | h
      · exact absurd hBe hq
      · exact h
    have hcur_ne_src : ∀ s ∈ queue, s.current_id ≠ src := by
      intro s hs he
      have hlenB := hB s hs
      have htne : s.path_rels ≠ [] := by
        intro h0
        rw [h0] at hlenB
        simp at hlenB
      have hmem := trailEnd_mem src s.path_rels htne
      rcases hchainQ s hs with ⟨-, -, hcur, -⟩
      rw [← hcur, he] at hmem
      exact (hsimpleQ s hs).2 hmem
    have hR3' : ∀ w, ReachableIn g src w (d + 1) → w ∈ visited := by
      intro w hw
      rcases reachable_succ_decomp g src w d hw with h1 | ⟨u, ⟨hue, he⟩ | ⟨hu, he⟩⟩
      · exact hR3 w h1
      · rcases hR5 hdlt src hsrcv with ⟨s₀, hs₀, hcur⟩ | hcl
        · exact absurd hcur (hcur_ne_src s₀ hs₀)
        · rcases he with ⟨r, hr, hrs, hrt⟩
          exact hrt ▸ hcl r hr hrs
      · rcases hR5 hdlt u (hR3 u hu) with ⟨s₀, hs₀, hcur⟩ | hcl
        · exact absurd (hcur ▸ hu) (hR7 s₀ hs₀)
        · rcases he with ⟨r, hr, hrs, hrt⟩
          exact hrt ▸ hcl r hr hrs
    refine ⟨d + 1, queue, [], by simp, hq, hdlt, hB, by simp, Or.inl rfl,
      hsrcv, htarv, hchainQ, hsimpleQ, htarQ, hidsQ, hR3', by simp, ?_⟩
    intro _ u hu
    exact hR5 hdlt u hu

theorem spLoop_main (g : VendorGraph) (src target : String) (maxD : Nat)
    (hwf : EdgesWellFormed g) (hsr : StrengthsInRange g) :
    ∀ (fuel : Nat) (queue : List BfsState) (visited : List String),
      SpInv g src target maxD queue visited →
      queue.length + unvisCount g visited < fuel →
      (∀ p, spLoop g src target maxD fuel queue visited = some p →
        SpPathOK g src target maxD p ∧
        ∀ n, ReachableIn g src target n → p.path_length ≤ n) ∧
      (spLoop g src target maxD fuel queue visited = none →
        ¬ ReachableIn g src target maxD) := by
  intro fuel
  induction fuel with
  | zero =>
    intro queue visited _ hpot
    exact absurd hpot (by omega)
  | succ fuel ih =>
    intro queue visited hinv hpot
    cases hqe : queue with
    | nil =>
      constructor
      · intro p hp
        exact absurd hp (by simp [spLoop])
      · intro _ hreach
        obtain ⟨d, A, B, hqAB, hdle, hA, hB, hBd, hsrcv, htarv, hchainQ, hsimpleQ,
          htarQ, hidsQ, hR3, hR7, hR5⟩ := hinv
        rw [hqe] at hqAB
        by_cases hdm : d < maxD
        · have hcl : ∀ u ∈ visited, ∀ r ∈ g.rels, r.source_vendor_id = u →
              r.target_vendor_id ∈ visited := by
            intro u hu
            rcases hR5 hdm u hu with ⟨s₀, hs₀, -⟩ | h
            · rw [hqe] at hs₀
              exact absurd hs₀ (List.not_mem_nil s₀)
            · exact h
          exact htarv (closed_reach g visited src hsrcv hcl maxD target hreach)
        · have hdeq : d = maxD := by omega
          exact htarv (hR3 target (hdeq ▸ hreach))
    | cons s rest =>
      obtain ⟨d, A, B, hqAB, hAne, hdle, hA, hB, hBd, hsrcv, htarv, hchainQ,
        hsimpleQ, htarQ, hidsQ, hR3, hR7, hR5⟩ :=
        spInv_norm g src target maxD (s :: rest) visited (by simp) (hqe ▸ hinv)
      cases hAe : A with
      | nil => exact absurd hAe hAne
      | cons s₀ A' =>
        rw [hAe] at hqAB
        simp only [List.cons_append, List.cons.injEq] at hqAB
        obtain ⟨hs₀e, hreste⟩ := hqAB
        subst hs₀e
        have hs_mem : s ∈ s :: rest := by simp
        obtain ⟨hchainS, hmatchS, hcurS, hcumS⟩ := hchainQ s hs_mem
        obtain ⟨hnodupS, hnosrcS⟩ := hsimpleQ s hs_mem
        have hlenS : s.path_rels.length = d := hA s (by rw [hAe]; simp)
        have hlenN : s.path_nodes.length = s.path_rels.length :=
          nodesMatch_length g _ 0 _ hmatchS
        simp only [spLoop]
        by_cases hdep : maxD ≤ s.path_nodes.length
        · rw [if_pos hdep]
          have hdeq : d = maxD := by omega
          have hBe : B = [] := by
            rcases hBd with h | h
            · exact h
            · omega
          subst hBe
          refine ih rest visited ⟨d, A', [], by simpa using hreste, hdle,
            ?_, by simp, Or.inl rfl, hsrcv, htarv, ?_, ?_, ?_, ?_, hR3,
            by simp, ?_⟩ ?_
          · intro s' hs'
            exact hA s' (by rw [hAe]; simp [hs'])
          · intro s' hs'
            exact hchainQ s' (List.mem_cons_of_mem s hs')
          · intro s' hs'
            exact hsimpleQ s' (List.mem_cons_of_mem s hs')
          · intro s' hs'
            exact htarQ s' (List.mem_cons_of_mem s hs')
          · intro s' hs'
            exact hidsQ s' (List.mem_cons_of_mem s hs')
          · intro h
            omega
          · have := hpot
            rw [hqe] at this
            simp only [List.length_cons] at this
            omega
        · rw [if_neg hdep]
          have hdlt : d < maxD := by omega
          have hlen_lt : s.path_nodes.length < maxD := by omega
          have hrels_mem : ∀ r ∈ g.outgoingRelationships s.current_id none 0,
              r ∈ g.rels ∧ r.source_vendor_id = trailEnd src s.path_rels := by
            intro r hr
            rcases (mem_outgoingRelationships g s.current_id none 0 r).mp hr with
              ⟨h1, h2, _⟩
            exact ⟨h1, hcurS ▸ h2⟩
          have hrels_g : ∀ r ∈ g.outgoingRelationships s.current_id none 0,
              r ∈ g.rels := fun r hr => (hrels_mem r hr).1
          have hrels_all : ∀ r ∈ g.rels, r.source_vendor_id = s.current_id →
              r ∈ g.outgoingRelationships s.current_id none 0 := by
            intro r hr hsrc_r
            refine (mem_outgoingRelationships g s.current_id none 0 r).mpr
              ⟨hr, hsrc_r, ?_⟩
            simp [cypherRelOk, (hsr r hr).1]
          have hrels_someV : ∀ r ∈ g.outgoingRelationships s.current_id none 0,
              (g.getVendor r.target_vendor_id).isSome :=
            fun r hr => (hwf r (hrels_g r hr)).2
          have hidsS : ∀ i ∈ trailIds s.path_rels, i ∈ visited := hidsQ s hs_mem
          cases hres : (spVisitRels g src target s.path_nodes s.path_rels
              s.cumulative_strength (g.outgoingRelationships s.current_id none 0)
              visited []).1 with
          | some p0 =>
            dsimp only
            constructor
            · intro p hp
              have hpe : p0 = p := by simpa using hp
              subst hpe
              obtain ⟨hok, hlenp, -⟩ := spv_some_case g src target maxD
                s.path_nodes s.path_rels s.cumulative_strength hchainS hmatchS
                hcumS hnodupS hnosrcS hlen_lt
                (g.outgoingRelationships s.current_id none 0) visited []
                hrels_mem hidsS hsrcv p0 hres
              refine ⟨hok, ?_⟩
              intro n hreach
              by_cases hn : d + 1 ≤ n
              · omega
              · have hle : n ≤ d := by omega
                exact absurd (hR3 target (reachable_mono g src target n d hreach hle))
                  htarv
            · intro h
              exact absurd h (by simp)
          | none =>
            dsimp only
            have hnone := spv_none_case g src target s.path_nodes s.path_rels
              s.cumulative_strength (g.outgoingRelationships s.current_id none 0)
              visited [] hrels_g hres
            have hnew := spv_new_states g src target s.path_nodes s.path_rels
              s.cumulative_strength hchainS hmatchS hcumS hnodupS hnosrcS
              (g.outgoingRelationships s.current_id none 0) visited []
              hrels_mem hidsS hsrcv
            have hmono := spv_visited_mono g src target s.path_nodes s.path_rels
              s.cumulative_strength (g.outgoingRelationships s.current_id none 0)
              visited []
            have hclass := spv_visited_class g src target s.path_nodes s.path_rels
              s.cumulative_strength (g.outgoingRelationships s.current_id none 0)
              visited []
            have hnewt := spv_new_targets g src target s.path_nodes s.path_rels
              s.cumulative_strength (g.outgoingRelationships s.current_id none 0)
              visited []
            have htpres := spv_target_preserved g src target s.path_nodes
              s.path_rels s.cumulative_strength
              (g.outgoingRelationships s.current_id none 0) visited []
              hrels_someV htarv hres
            have hnew' : ∀ s' ∈ (spVisitRels g src target s.path_nodes s.path_rels
                s.cumulative_strength (g.outgoingRelationships s.current_id none 0)
                visited []).2.2,
                StateChain g src s' ∧ StateSimple src s' ∧ s'.current_id ≠ target ∧
                s'.path_rels.length = s.path_rels.length + 1 ∧
                s'.current_id ∉ visited ∧
                (∀ i ∈ trailIds s'.path_rels,
                  i ∈ (spVisitRels g src target s.path_nodes s.path_rels
                    s.cumulative_strength (g.outgoingRelationships s.current_id
                      none 0) visited []).2.1) := by
              intro s' hs'
              rcases hnew s' hs' with h1 | h2
              · exact absurd h1 (List.not_mem_nil s')
              · exact h2
            refine ih _ _ ⟨d, A', B ++ (spVisitRels g src target s.path_nodes
              s.path_rels s.cumulative_strength (g.outgoingRelationships
                s.current_id none 0) visited []).2.2, ?_, hdle, ?_, ?_,
              Or.inr hdlt, hmono src hsrcv, htpres, ?_, ?_, ?_, ?_, ?_, ?_, ?_⟩ ?_
            · rw [hreste, List.append_assoc]
            · intro s' hs'
              exact hA s' (by rw [hAe]; simp [hs'])
            · intro s' hs'
              rcases List.mem_append.mp hs' with h1 | h1
              · exact hB s' h1
              · rw [(hnew' s' h1).2.2.2.1, hlenS]
            · intro s' hs'
              rcases List.mem_append.mp hs' with h1 | h1
              · exact hchainQ s' (List.mem_cons_of_mem s h1)
              · exact (hnew' s' h1).1
            · intro s' hs'
              rcases List.mem_append.mp hs' with h1 | h1
              · exact hsimpleQ s' (List.mem_cons_of_mem s h1)
              · exact (hnew' s' h1).2.1
            · intro s' hs'
              rcases List.mem_append.mp hs' with h1 | h1
              · exact htarQ s' (List.mem_cons_of_mem s h1)
              · exact (hnew' s' h1).2.2.1
            · intro s' hs' i hi
              rcases List.mem_append.mp hs' with h1 | h1
              · exact hmono i (hidsQ s' (List.mem_cons_of_mem s h1) i hi)
              · exact (hnew' s' h1).2.2.2.2.2 i hi
            · intro w hw
              exact hmono w (hR3 w hw)
            · intro s' hs'
              rcases List.mem_append.mp hs' with h1 | h1
              · exact hR7 s' h1
              · intro hreach
                exact (hnew' s' h1).2.2.2.2.1 (hR3 s'.current_id hreach)
            · intro _ u hu
              rcases hclass u hu with h1 | h2 | h3 | h4
              · rcases hR5 hdlt u h1 with ⟨s₁, hs₁, hcur₁⟩ | hcl
                · rcases List.mem_cons.mp hs₁ with rfl | hs₁'
                  · refine Or.inr ?_
                    intro r hr hrs
                    exact (hnone.1 r (hrels_all r hr (hcur₁ ▸ hrs)))
                  · exact Or.inl ⟨s₁, List.mem_append.mpr (Or.inl hs₁'), hcur₁⟩
                · refine Or.inr ?_
                  intro r hr hrs
                  exact hmono _ (hcl r hr hrs)
              · rcases h2 with ⟨s₁, hs₁, hcur₁⟩
                exact Or.inl ⟨s₁, List.mem_append.mpr (Or.inr hs₁), hcur₁⟩
              · rcases hnewt u hu with h5 | ⟨r, hr, hrt⟩
                · rcases hR5 hdlt u h5 with ⟨s₁, hs₁, hcur₁⟩ | hcl
                  · rcases List.mem_cons.mp hs₁ with rfl | hs₁'
                    · refine Or.inr ?_
                      intro r hr hrs
                      exact (hnone.1 r (hrels_all r hr (hcur₁ ▸ hrs)))
                    · exact Or.inl ⟨s₁, List.mem_append.mpr (Or.inl hs₁'), hcur₁⟩
                  · refine Or.inr ?_
                    intro r hr hrs
                    exact hmono _ (hcl r hr hrs)
                · have := (hwf r (hrels_g r hr)).2
                  rw [hrt] at this
                  rw [h3] at this
                  exact absurd this (by simp)
              · rcases h4 with ⟨p, hp⟩
                rw [hres] at hp
                exact absurd hp (by simp)
            · have hpots := hnone.2
              simp only [List.length_nil, Nat.zero_add] at hpots
              have hq_old := hpot
              rw [hqe] at hq_old
              simp only [List.length_cons, List.length_append] at hq_old ⊢
              have hrest_len : rest.length = A'.length + B.length := by
                rw [hreste]
                simp
              omega

theorem spPathOK_reachable (g : VendorGraph) (src target : String) (maxD : Nat)
    (p : RelationshipPath) (h : SpPathOK g src target maxD p) :
    ReachableIn g src target maxD := by
  obtain ⟨-, -, hchain, -, hplen, hlen2, hge1, hle, -, -, hend, -, -⟩ := h
  have hne : p.relationships ≠ [] := by
    intro h0
    rw [h0] at hlen2
    simp only [List.length_nil] at hlen2
    omega
  refine ⟨trailIds p.relationships, relChain_idWalk g _ _ hchain, ?_, ?_⟩
  · rcases hl : p.relationships.getLast? with _ | r
    · rw [List.getLast?_eq_none_iff] at hl
      exact absurd hl hne
    · have : trailEnd src p.relationships = r.target_vendor_id := by
        simp [trailEnd, hl]
      rw [← hend, this]
      simp [trailIds, List.getLast?_map, hl]
  · simp only [trailIds, List.length_map]
    omega

theorem find_shortest_path_correct (g : VendorGraph) (src target : String)
    (maxD : Nat) (hwf : EdgesWellFormed g) (hsr : StrengthsInRange g) :
    (∀ p, find_shortest_path g src target maxD = some p →
      SpPathOK g src target maxD p ∧
      ∀ n, ReachableIn g src target n → p.path_length ≤ n) ∧
    (find_shortest_path g src target maxD = none ↔
      (¬ ReachableIn g src target maxD ∨ src = target)) := by
  unfold find_shortest_path
  by_cases hst : (src == target) = true
  · rw [if_pos hst]
    have : src = target := by simpa using hst
    constructor
    · intro p hp
      exact absurd hp (by simp)
    · simp [this]
  · rw [if_neg hst]
    have hne : src ≠ target := by simpa using hst
    have hinv : SpInv g src target maxD [⟨src, [], [], 1⟩] [src] := by
      refine ⟨0, [⟨src, [], [], 1⟩], [], rfl, by omega, ?_, by simp,
        Or.inl rfl, by simp, by simpa using hne.symm, ?_, ?_, ?_, ?_, ?_,
        by simp, ?_⟩
      · intro s hs
        rw [List.mem_singleton.mp hs]
        rfl
      · intro s hs
        rw [List.mem_singleton.mp hs]
        exact ⟨trivial, trivial, rfl, rfl⟩
      · intro s hs
        rw [List.mem_singleton.mp hs]
        exact ⟨List.nodup_nil, by simp [trailIds]⟩
      · intro s hs
        rw [List.mem_singleton.mp hs]
        exact hne
      · intro s hs i hi
        rw [List.mem_singleton.mp hs] at hi
        exact absurd hi (by simp [trailIds])
      · intro w hw
        rcases hw with ⟨ids, -, hlast, hlen⟩
        rcases List.eq_nil_of_length_eq_zero (Nat.le_zero.mp hlen) with rfl
        simp at hlast
      · intro _ u hu
        refine Or.inl ⟨⟨src, [], [], 1⟩, by simp, ?_⟩
        simpa using (List.mem_singleton.mp hu).symm
    have hpot : ([(⟨src, [], [], 1⟩ : BfsState)]).length +
        unvisCount g [src] < g.rels.length + 2 := by
      have : unvisCount g [src] ≤ g.rels.length := List.length_filter_le _ _
      simp only [List.length_singleton]
      omega
    have hmain := spLoop_main g src target maxD hwf hsr (g.rels.length + 2)
      [⟨src, [], [], 1⟩] [src] hinv hpot
    constructor
    · exact hmain.1
    · constructor
      · intro hn
        exact Or.inl (hmain.2 hn)
      · intro h
        rcases h with h | h
        · cases hres : spLoop g src target maxD (g.rels.length + 2)
              [⟨src, [], [], 1⟩] [src] with
          | none => rfl
          | some p =>
            exact absurd (spPathOK_reachable g src target maxD p
              (hmain.1 p hres).1) h
        · exact absurd h hne

/-! ### Lemmas: multi-path BFS completeness -/

theorem fp_visited_mono (g : VendorGraph) (src : String) (minD maxD : Nat)
    (ns : List VendorNode) (t : List VendorRelationship) (cum : ℚ) :
    ∀ (rels : List VendorRelationship) (paths : List RelationshipPath)
      (visited : List String) (queued : List BfsState) (x : String),
      x ∈ visited →
      x ∈ (visitRels g src minD maxD ns t cum rels paths visited queued).2.1 := by
  intro rels
  induction rels with
  | nil => intro paths visited queued x hx; simpa [visitRels] using hx
  | cons rel rest ih =>
    intro paths visited queued x hx
    simp only [visitRels]
    by_cases hguard :
        ((ns.map (fun n => n.vendor_id)).contains rel.target_vendor_id
          || rel.target_vendor_id == src) = true
    · rw [if_pos hguard]
      exact ih _ _ _ x hx
    · rw [if_neg hguard]
      cases hgv : g.getVendor rel.target_vendor_id with
      | none => exact ih _ _ _ x hx
      | some tv =>
        dsimp only
        by_cases hwin : minD ≤ (ns ++ [(⟨tv.vendor_id, tv.vendor_name, tv.industry,
            ns.length + 1⟩ : VendorNode)]).length ∧
            (ns ++ [(⟨tv.vendor_id, tv.vendor_name, tv.industry,
              ns.length + 1⟩ : VendorNode)]).length ≤ maxD
        · rw [if_pos hwin]
          by_cases hseen : visited.contains (pathSignature src (ns ++
              [⟨tv.vendor_id, tv.vendor_name, tv.industry, ns.length + 1⟩])) = true
          · rw [if_pos hseen]
            by_cases henq : (ns ++ [(⟨tv.vendor_id, tv.vendor_name, tv.industry,
                ns.length + 1⟩ : VendorNode)]).length < maxD
            · rw [if_pos henq]
              exact ih _ _ _ x hx
            · rw [if_neg henq]
              exact ih _ _ _ x hx
          · rw [if_neg hseen]
            by_cases henq : (ns ++ [(⟨tv.vendor_id, tv.vendor_name, tv.industry,
                ns.length + 1⟩ : VendorNode)]).length < maxD
            · rw [if_pos henq]
              exact ih _ _ _ x (List.mem_append.mpr (Or.inl hx))
            · rw [if_neg henq]
              exact ih _ _ _ x (List.mem_append.mpr (Or.inl hx))
        · rw [if_neg hwin]
          by_cases henq : (ns ++ [(⟨tv.vendor_id, tv.vendor_name, tv.industry,
              ns.length + 1⟩ : VendorNode)]).length < maxD
          · rw [if_pos henq]
            exact ih _ _ _ x hx
          · rw [if_neg henq]
            exact ih _ _ _ x hx

theorem fp_queued_mono (g : VendorGraph) (src : String) (minD maxD : Nat)
    (ns : List VendorNode) (t : List VendorRelationship) (cum : ℚ) :
    ∀ (rels : List VendorRelationship) (paths : List RelationshipPath)
      (visited : List String) (queued : List BfsState) (s' : BfsState),
      s' ∈ queued →
      s' ∈ (visitRels g src minD maxD ns t cum rels paths visited queued).2.2 := by
  intro rels
  induction rels with
  | nil => intro paths visited queued s' hs'; simpa [visitRels] using hs'
  | cons rel rest ih =>
    intro paths visited queued s' hs'
    simp only [visitRels]
    by_cases hguard :
        ((ns.map (fun n => n.vendor_id)).contains rel.target_vendor_id
          || rel.target_vendor_id == src) = true
    · rw [if_pos hguard]
      exact ih _ _ _ s' hs'
    · rw [if_neg hguard]
      cases hgv : g.getVendor rel.target_vendor_id with
      | none => exact ih _ _ _ s' hs'
      | some tv =>
        dsimp only
        by_cases henq : (ns ++ [(⟨tv.vendor_id, tv.vendor_name, tv.industry,
            ns.length + 1⟩ : VendorNode)]).length < maxD
        · rw [if_pos henq]
          by_cases hwin : minD ≤ (ns ++ [(⟨tv.vendor_id, tv.vendor_name,
              tv.industry, ns.length + 1⟩ : VendorNode)]).length ∧
              (ns ++ [(⟨tv.vendor_id, tv.vendor_name, tv.industry,
                ns.length + 1⟩ : VendorNode)]).length ≤ maxD
          · rw [if_pos hwin]
            by_cases hseen : visited.contains (pathSignature src (ns ++
                [⟨tv.vendor_id, tv.vendor_name, tv.industry, ns.length + 1⟩])) = true
            · rw [if_pos hseen]
              exact ih _ _ _ s' (List.mem_append.mpr (Or.inl hs'))
            · rw [if_neg hseen]
              exact ih _ _ _ s' (List.mem_append.mpr (Or.inl hs'))
          · rw [if_neg hwin]
            exact ih _ _ _ s' (List.mem_append.mpr (Or.inl hs'))
        · rw [if_neg henq]
          by_cases hwin : minD ≤ (ns ++ [(⟨tv.vendor_id, tv.vendor_name,
              tv.industry, ns.length + 1⟩ : VendorNode)]).length ∧
              (ns ++ [(⟨tv.vendor_id, tv.vendor_name, tv.industry,
                ns.length + 1⟩ : VendorNode)]).length ≤ maxD
          · rw [if_pos hwin]
            by_cases hseen : visited.contains (pathSignature src (ns ++
                [⟨tv.vendor_id, tv.vendor_name, tv.industry, ns.length + 1⟩])) = true
            · rw [if_pos hseen]
              exact ih _ _ _ s' hs'
            · rw [if_neg hseen]
              exact ih _ _ _ s' hs'
          · rw [if_neg hwin]
            exact ih _ _ _ s' hs'

theorem visitRels_queue_facts (g : VendorGraph) (src : String) (minD maxD : Nat)
    (ns : List VendorNode) (t : List VendorRelationship) (cum : ℚ) :
    ∀ (rels : List VendorRelationship) (paths : List RelationshipPath)
      (visited : List String) (queued : List BfsState),
      (visitRels g src minD maxD ns t cum rels paths visited queued).2.2.length ≤
        queued.length + rels.length ∧
      (∀ s' ∈ (visitRels g src minD maxD ns t cum rels paths visited queued).2.2,
        s' ∈ queued ∨ (s'.path_nodes.length = ns.length + 1 ∧
          s'.path_nodes.length < maxD)) := by
  intro rels
  induction rels with
  | nil =>
    intro paths visited queued
    constructor
    · simp [visitRels]
    · intro s' hs'
      exact Or.inl (by simpa [visitRels] using hs')
  | cons rel rest ih =>
    intro paths visited queued
    simp only [visitRels]
    by_cases hguard :
        ((ns.map (fun n => n.vendor_id)).contains rel.target_vendor_id
          || rel.target_vendor_id == src) = true
    · rw [if_pos hguard]
      rcases ih paths visited queued with ⟨h1, h2⟩
      refine ⟨h1.trans ?_, h2⟩
      simp only [List.length_cons]
      omega
    · rw [if_neg hguard]
      cases hgv : g.getVendor rel.target_vendor_id with
      | none =>
        rcases ih paths visited queued with ⟨h1, h2⟩
        refine ⟨h1.trans ?_, h2⟩
        simp only [List.length_cons]
        omega
      | some tv =>
        dsimp only
        by_cases henq : (ns ++ [(⟨tv.vendor_id, tv.vendor_name, tv.industry,
            ns.length + 1⟩ : VendorNode)]).length < maxD
        · simp only [if_pos henq]
          have key : ∀ (paths' : List RelationshipPath) (visited' : List String),
              (visitRels g src minD maxD ns t cum rest paths' visited'
                (queued ++ [⟨rel.target_vendor_id, ns ++ [⟨tv.vendor_id,
                  tv.vendor_name, tv.industry, ns.length + 1⟩], t ++ [rel],
                  cum * rel.strength⟩])).2.2.length ≤
                queued.length + (rel :: rest).length ∧
              (∀ s' ∈ (visitRels g src minD maxD ns t cum rest paths' visited'
                (queued ++ [⟨rel.target_vendor_id, ns ++ [⟨tv.vendor_id,
                  tv.vendor_name, tv.industry, ns.length + 1⟩], t ++ [rel],
                  cum * rel.strength⟩])).2.2,
                s' ∈ queued ∨ (s'.path_nodes.length = ns.length + 1 ∧
                  s'.path_nodes.length < maxD)) := by
            intro paths' visited'
            rcases ih paths' visited' (queued ++ [⟨rel.target_vendor_id,
              ns ++ [⟨tv.vendor_id, tv.vendor_name, tv.industry, ns.length + 1⟩],
              t ++ [rel], cum * rel.strength⟩]) with ⟨h1, h2⟩
            constructor
            · refine h1.trans ?_
              simp only [List.length_append, List.length_cons, List.length_nil]
              omega
            · intro s' hs'
              rcases h2 s' hs' with h3 | h3
              · rcases List.mem_append.mp h3 with h4 | h4
                · exact Or.inl h4
                · have hs'eq := List.mem_singleton.mp h4
                  subst hs'eq
                  exact Or.inr ⟨by simp, by simpa using henq⟩
              · exact Or.inr h3
          by_cases hwin : minD ≤ (ns ++ [(⟨tv.vendor_id, tv.vendor_name,
              tv.industry, ns.length + 1⟩ : VendorNode)]).length ∧
              (ns ++ [(⟨tv.vendor_id, tv.vendor_name, tv.industry,
                ns.length + 1⟩ : VendorNode)]).length ≤ maxD
          · rw [if_pos hwin]
            by_cases hseen : visited.contains (pathSignature src (ns ++
                [⟨tv.vendor_id, tv.vendor_name, tv.industry, ns.length + 1⟩])) = true
            · rw [if_pos hseen]
              exact key _ _
            · rw [if_neg hseen]
              exact key _ _
          · rw [if_neg hwin]
            exact key _ _
        · simp only [if_neg henq]
          have key : ∀ (paths' : List RelationshipPath) (visited' : List String),
              (visitRels g src minD maxD ns t cum rest paths' visited'
                queued).2.2.length ≤ queued.length + (rel :: rest).length ∧
              (∀ s' ∈ (visitRels g src minD maxD ns t cum rest paths' visited'
                  queued).2.2,
                s' ∈ queued ∨ (s'.path_nodes.length = ns.length + 1 ∧
                  s'.path_nodes.length < maxD)) := by
            intro paths' visited'
            rcases ih paths' visited' queued with ⟨h1, h2⟩
            refine ⟨h1.trans ?_, h2⟩
            simp only [List.length_cons]
            omega
          by_cases hwin : minD ≤ (ns ++ [(⟨tv.vendor_id, tv.vendor_name,
              tv.industry, ns.length + 1⟩ : VendorNode)]).length ∧
              (ns ++ [(⟨tv.vendor_id, tv.vendor_name, tv.industry,
                ns.length + 1⟩ : VendorNode)]).length ≤ maxD
          · rw [if_pos hwin]
            by_cases hseen : visited.contains (pathSignature src (ns ++
                [⟨tv.vendor_id, tv.vendor_name, tv.industry, ns.length + 1⟩])) = true
            · rw [if_pos hseen]
              exact key _ _
            · rw [if_neg hseen]
              exact key _ _
          · rw [if_neg hwin]
            exact key _ _

theorem visitRels_child (g : VendorGraph) (src : String) (minD maxD : Nat)
    (ns : List VendorNode) (t : List VendorRelationship) (cum : ℚ)
    (hmatch : nodesMatch g 0 t ns) :
    ∀ (rels : List VendorRelationship) (paths : List RelationshipPath)
      (visited : List String) (queued : List BfsState)
      (r : VendorRelationship), r ∈ rels →
      r.target_vendor_id ∉ nodeIds ns → r.target_vendor_id ≠ src →
      (g.getVendor r.target_vendor_id).isSome →
      ((minD ≤ ns.length + 1 ∧ ns.length + 1 ≤ maxD) →
        trailSignature src (t ++ [r]) ∈
          (visitRels g src minD maxD ns t cum rels paths visited queued).2.1) ∧
      (ns.length + 1 < maxD →
        ∃ s' ∈ (visitRels g src minD maxD ns t cum rels paths visited queued).2.2,
          s'.path_rels = t ++ [r]) := by
  intro rels
  induction rels with
  | nil =>
    intro paths visited queued r hr
    exact absurd hr (List.not_mem_nil r)
  | cons rel rest ih =>
    intro paths visited queued r hr hnn hns hsome
    rcases List.mem_cons.mp hr with rfl | hr'
    · -- r is the edge processed now
      have hguard :
          ((ns.map (fun n => n.vendor_id)).contains r.target_vendor_id
            || r.target_vendor_id == src) = false := by
        rw [Bool.or_eq_false_iff]
        constructor
        · rw [Bool.eq_false_iff]
          intro hc
          exact hnn ((contains_iff_mem _ _).mp hc)
        · simpa using hns
      simp only [visitRels]
      rw [if_neg (by rw [hguard]; exact Bool.false_ne_true)]
      cases hgv : g.getVendor r.target_vendor_id with
      | none =>
        rw [hgv] at hsome
        exact absurd hsome (by simp)
      | some tv =>
        dsimp only
        have hvid : tv.vendor_id = r.target_vendor_id := getVendor_some_id g _ tv hgv
        have hsig : pathSignature src (ns ++ [⟨tv.vendor_id, tv.vendor_name,
            tv.industry, ns.length + 1⟩]) = trailSignature src (t ++ [r]) := by
          refine pathSignature_eq_trail src _ _ ?_
          have hids := nodesMatch_ids g t 0 ns hmatch
          simp [nodeIds, trailIds] at hids ⊢
          rw [hids, hvid]
        have hlen_node : (ns ++ [(⟨tv.vendor_id, tv.vendor_name, tv.industry,
            ns.length + 1⟩ : VendorNode)]).length = ns.length + 1 := by simp
        by_cases henq : (ns ++ [(⟨tv.vendor_id, tv.vendor_name, tv.industry,
            ns.length + 1⟩ : VendorNode)]).length < maxD
        · simp only [if_pos henq]
          by_cases hwin : minD ≤ (ns ++ [(⟨tv.vendor_id, tv.vendor_name,
              tv.industry, ns.length + 1⟩ : VendorNode)]).length ∧
              (ns ++ [(⟨tv.vendor_id, tv.vendor_name, tv.industry,
                ns.length + 1⟩ : VendorNode)]).length ≤ maxD
          · rw [if_pos hwin]
            by_cases hseen : visited.contains (pathSignature src (ns ++
                [⟨tv.vendor_id, tv.vendor_name, tv.industry, ns.length + 1⟩])) = true
            · rw [if_pos hseen]
              constructor
              · intro _
                rw [← hsig]
                exact fp_visited_mono g src minD maxD ns t cum rest _ _ _ _
                  ((contains_iff_mem _ _).mp hseen)
              · intro _
                refine ⟨⟨r.target_vendor_id, ns ++ [⟨tv.vendor_id, tv.vendor_name,
                  tv.industry, ns.length + 1⟩], t ++ [r], cum * r.strength⟩, ?_, rfl⟩
                exact fp_queued_mono g src minD maxD ns t cum rest _ _ _ _
                  (List.mem_append.mpr (Or.inr (by simp)))
            · rw [if_neg hseen]
              constructor
              · intro _
                rw [← hsig]
                exact fp_visited_mono g src minD maxD ns t cum rest _ _ _ _
                  (List.mem_append.mpr (Or.inr (by simp)))
              · intro _
                refine ⟨⟨r.target_vendor_id, ns ++ [⟨tv.vendor_id, tv.vendor_name,
                  tv.industry, ns.length + 1⟩], t ++ [r], cum * r.strength⟩, ?_, rfl⟩
                exact fp_queued_mono g src minD maxD ns t cum rest _ _ _ _
                  (List.mem_append.mpr (Or.inr (by simp)))
          · rw [if_neg hwin]
            constructor
            · intro hw
              rw [hlen_node] at hwin
              exact absurd hw hwin
            · intro _
              refine ⟨⟨r.target_vendor_id, ns ++ [⟨tv.vendor_id, tv.vendor_name,
                tv.industry, ns.length + 1⟩], t ++ [r], cum * r.strength⟩, ?_, rfl⟩
              exact fp_queued_mono g src minD maxD ns t cum rest _ _ _ _
                (List.mem_append.mpr (Or.inr (by simp)))
        · simp only [if_neg henq]
          rw [hlen_node] at henq
          by_cases hwin : minD ≤ (ns ++ [(⟨tv.vendor_id, tv.vendor_name,
              tv.industry, ns.length + 1⟩ : VendorNode)]).length ∧
              (ns ++ [(⟨tv.vendor_id, tv.vendor_name, tv.industry,
                ns.length + 1⟩ : VendorNode)]).length ≤ maxD
          · rw [if_pos hwin]
            by_cases hseen : visited.contains (pathSignature src (ns ++
                [⟨tv.vendor_id, tv.vendor_name, tv.industry, ns.length + 1⟩])) = true
            · rw [if_pos hseen]
              constructor
              · intro _
                rw [← hsig]
                exact fp_visited_mono g src minD maxD ns t cum rest _ _ _ _
                  ((contains_iff_mem _ _).mp hseen)
              · intro hlt
                exact absurd hlt henq
            · rw [if_neg hseen]
              constructor
              · intro _
                rw [← hsig]
                exact fp_visited_mono g src minD maxD ns t cum rest _ _ _ _
                  (List.mem_append.mpr (Or.inr (by simp)))
              · intro hlt
                exact absurd hlt henq
          · rw [if_neg hwin]
            constructor
            · intro hw
              rw [hlen_node] at hwin
              exact absurd hw hwin
            · intro hlt
              exact absurd hlt henq
    · -- r comes later in the list
      simp only [visitRels]
      by_cases hguard :
          ((ns.map (fun n => n.vendor_id)).contains rel.target_vendor_id
            || rel.target_vendor_id == src) = true
      · rw [if_pos hguard]
        exact ih _ _ _ r hr' hnn hns hsome
      · rw [if_neg hguard]
        cases hgv : g.getVendor rel.target_vendor_id with
        | none => exact ih _ _ _ r hr' hnn hns hsome
        | some tv =>
          dsimp only
          by_cases henq : (ns ++ [(⟨tv.vendor_id, tv.vendor_name, tv.industry,
              ns.length + 1⟩ : VendorNode)]).length < maxD
          · simp only [if_pos henq]
            by_cases hwin : minD ≤ (ns ++ [(⟨tv.vendor_id, tv.vendor_name,
                tv.industry, ns.length + 1⟩ : VendorNode)]).length ∧
                (ns ++ [(⟨tv.vendor_id, tv.vendor_name, tv.industry,
                  ns.length + 1⟩ : VendorNode)]).length ≤ maxD
            · rw [if_pos hwin]
              by_cases hseen : visited.contains (pathSignature src (ns ++
                  [⟨tv.vendor_id, tv.vendor_name, tv.industry,
                    ns.length + 1⟩])) = true
              · rw [if_pos hseen]
                exact ih _ _ _ r hr' hnn hns hsome
              · rw [if_neg hseen]
                exact ih _ _ _ r hr' hnn hns hsome
            · rw [if_neg hwin]
              exact ih _ _ _ r hr' hnn hns hsome
          · simp only [if_neg henq]
            by_cases hwin : minD ≤ (ns ++ [(⟨tv.vendor_id, tv.vendor_name,
                tv.industry, ns.length + 1⟩ : VendorNode)]).length ∧
                (ns ++ [(⟨tv.vendor_id, tv.vendor_name, tv.industry,
                  ns.length + 1⟩ : VendorNode)]).length ≤ maxD
            · rw [if_pos hwin]
              by_cases hseen : visited.contains (pathSignature src (ns ++
                  [⟨tv.vendor_id, tv.vendor_name, tv.industry,
                    ns.length + 1⟩])) = true
              · rw [if_pos hseen]
                exact ih _ _ _ r hr' hnn hns hsome
              · rw [if_neg hseen]
                exact ih _ _ _ r hr' hnn hns hsome
            · rw [if_neg hwin]
              exact ih _ _ _ r hr' hnn hns hsome

theorem relChain_append_split (g : VendorGraph) :
    ∀ (t₁ t₂ : List VendorRelationship) (a : String),
      relChain g a (t₁ ++ t₂) →
      relChain g a t₁ ∧ relChain g (trailEnd a t₁) t₂ := by
  intro t₁
  induction t₁ with
  | nil =>
    intro t₂ a h
    exact ⟨trivial, by simpa [trailEnd] using h⟩
  | cons x xs ih =>
    intro t₂ a h
    rcases h with ⟨hx, hxa, hrest⟩
    rcases ih t₂ x.target_vendor_id hrest with ⟨h1, h2⟩
    refine ⟨⟨hx, hxa, h1⟩, ?_⟩
    rw [trailEnd_cons]
    exact h2

theorem outgoing_length_le (g : VendorGraph) (vid : String)
    (types : Option (List String)) (minS : ℚ) :
    (g.outgoingRelationships vid types minS).length ≤ g.rels.length := by
  cases types with
  | none => exact List.length_filter_le _ _
  | some ts =>
    by_cases hts : ts.isEmpty
    · simp only [VendorGraph.outgoingRelationships, hts, if_true]
      exact List.length_filter_le _ _
    · simp only [VendorGraph.outgoingRelationships, hts, if_false]
      exact (List.length_filter_le _ _).trans (List.length_filter_le _ _)

theorem queueMeasure_cons (maxD E : Nat) (s : BfsState) (rest : List BfsState) :
    queueMeasure maxD E (s :: rest) = stateCost maxD E s + queueMeasure maxD E rest := by
  simp [queueMeasure]

theorem queueMeasure_append (maxD E : Nat) (l₁ l₂ : List BfsState) :
    queueMeasure maxD E (l₁ ++ l₂) = queueMeasure maxD E l₁ + queueMeasure maxD E l₂ := by
  simp [queueMeasure]

theorem queueMeasure_depth_bound (maxD E d : Nat) :
    ∀ l : List BfsState, (∀ s ∈ l, s.path_nodes.length = d) →
      queueMeasure maxD E l ≤ l.length * (E + 1) ^ (maxD - d) := by
  intro l
  induction l with
  | nil => intro _; simp [queueMeasure]
  | cons s rest ih =>
    intro h
    have hs : s.path_nodes.length = d := h s (by simp)
    have hrest := ih (fun s' hs' => h s' (List.mem_cons_of_mem s hs'))
    rw [queueMeasure_cons]
    have hcost : stateCost maxD E s = (E + 1) ^ (maxD - d) := by
      rw [stateCost, hs]
    rw [hcost, List.length_cons, Nat.succ_mul]
    omega

theorem expand_measure_lt (maxD E d : Nat) (s : BfsState) (rest newQ : List BfsState)
    (hd : s.path_nodes.length = d) (hdm : d < maxD)
    (hlen : newQ.length ≤ E)
    (hnew : ∀ s' ∈ newQ, s'.path_nodes.length = d + 1) :
    queueMeasure maxD E (rest ++ newQ) < queueMeasure maxD E (s :: rest) := by
  rw [queueMeasure_append, queueMeasure_cons]
  have hbound := queueMeasure_depth_bound maxD E (d + 1) newQ hnew
  have hcost : stateCost maxD E s = (E + 1) ^ (maxD - d) := by
    rw [stateCost, hd]
  have hexp : maxD - d = (maxD - (d + 1)) + 1 := by omega
  have hpow : (E + 1) ^ (maxD - d) = (E + 1) ^ (maxD - (d + 1)) * (E + 1) := by
    rw [hexp, pow_succ]
  have hpos : 1 ≤ (E + 1) ^ (maxD - (d + 1)) := Nat.one_le_pow _ _ (by omega)
  have hnq : queueMeasure maxD E newQ < (E + 1) ^ (maxD - d) := by
    rw [hpow]
    calc queueMeasure maxD E newQ ≤ newQ.length * (E + 1) ^ (maxD - (d + 1)) := hbound
    _ ≤ E * (E + 1) ^ (maxD - (d + 1)) := Nat.mul_le_mul_right _ hlen
    _ < (E + 1) ^ (maxD - (d + 1)) * (E + 1) := by
        rw [Nat.mul_comm ((E + 1) ^ (maxD - (d + 1))) (E + 1)]
        have := Nat.mul_le_mul_left E hpos
        nlinarith [hpos]
  omega

theorem bfsLoop_complete (g : VendorGraph) (src : String) (minD maxD : Nat)
    (types : Option (List String)) (minS : ℚ) (limit : Nat)
    (hwf : EdgesWellFormed g)
    (t : List VendorRelationship)
    (hchain : relChain g src t)
    (hfilt : ∀ r ∈ t, cypherRelOk types minS r = true)
    (hnodup : (trailIds t).Nodup) (hnosrc : src ∉ trailIds t)
    (hlen1 : 1 ≤ t.length) (hlenM : t.length ≤ maxD) (hminD : minD ≤ t.length) :
    ∀ (fuel : Nat) (queue : List BfsState) (paths : List RelationshipPath)
      (visited : List String),
      queueMeasure maxD g.rels.length queue < fuel →
      (∀ s ∈ queue, FpStateOK g types minS src s) →
      FpPathsInv g types minS src minD maxD paths visited →
      FpComplete g types minS src minD maxD queue visited →
      (bfsLoop g src minD maxD types minS limit fuel queue paths visited).length < limit →
      ∃ p ∈ bfsLoop g src minD maxD types minS limit fuel queue paths visited,
        trailSignature src p.relationships = trailSignature src t := by
  intro fuel
  induction fuel with
  | zero =>
    intro queue paths visited hfuel
    exact absurd hfuel (Nat.not_lt_zero _)
  | succ fuel ih =>
    intro queue paths visited hfuel hq hpinv hcomp hres
    cases queue with
    | nil =>
      have hsig : trailSignature src t ∈ visited := by
        rcases hcomp t hchain hfilt hnodup hnosrc hlen1 hlenM with h | h
        · rcases h with ⟨s, hs, -⟩
          exact absurd hs (List.not_mem_nil s)
        · exact h hminD
      rcases hpinv.2.2.1 _ hsig with ⟨p, hp, hps⟩
      exact ⟨p, by simpa [bfsLoop] using hp, hps⟩
    | cons s rest =>
      simp only [bfsLoop] at hres ⊢
      by_cases hlim : limit ≤ paths.length
      · rw [if_pos hlim] at hres ⊢
        omega
      · rw [if_neg hlim] at hres ⊢
        by_cases hdep : maxD ≤ s.path_nodes.length
        · rw [if_pos hdep] at hres ⊢
          have hms : 1 ≤ stateCost maxD g.rels.length s :=
            Nat.one_le_pow _ _ (by omega)
          have hfuel' : queueMeasure maxD g.rels.length rest < fuel := by
            have hc := queueMeasure_cons maxD g.rels.length s rest
            omega
          refine ih rest paths visited hfuel'
            (fun s' hs' => hq s' (List.mem_cons_of_mem s hs')) hpinv ?_ hres
          intro t' h1 h2 h3 h4 h5 h6
          rcases hcomp t' h1 h2 h3 h4 h5 h6 with ⟨s', hs', u, hu, hune⟩ | h
          · rcases List.mem_cons.mp hs' with rfl | hs''
            · exfalso
              have hlen := nodesMatch_length g s'.path_rels 0 s'.path_nodes
                (hq s' (by simp)).1.2.1
              have hul : t'.length = s'.path_rels.length + u.length := by
                rw [← hu]; simp
              have hu1 : 1 ≤ u.length := List.length_pos.mpr hune
              omega
            · exact Or.inl ⟨s', hs'', u, hu, hune⟩
          · exact Or.inr h
        · rw [if_neg hdep] at hres ⊢
          obtain ⟨⟨hchain_s, hmatch_s, hcur_s, hcum_s⟩, ⟨hnodup_s, hnosrc_s⟩, hfilt_s⟩ :=
            hq s (List.mem_cons_self s rest)
          have hrels : ∀ r ∈ g.outgoingRelationships s.current_id types minS,
              r ∈ g.rels ∧ r.source_vendor_id = trailEnd src s.path_rels ∧
                cypherRelOk types minS r = true := by
            intro r hr
            rcases (mem_outgoingRelationships g s.current_id types minS r).mp hr with
              ⟨ha, hb, hc⟩
            exact ⟨ha, hcur_s ▸ hb, hc⟩
          have hstep := visitRels_sound g src minD maxD types minS s.path_nodes
            s.path_rels s.cumulative_strength hchain_s hmatch_s hcum_s hfilt_s
            hnodup_s hnosrc_s
            (g.outgoingRelationships s.current_id types minS) paths visited []
            hrels hpinv (by intro s' hs'; exact absurd hs' (List.not_mem_nil s'))
          have hqf := visitRels_queue_facts g src minD maxD s.path_nodes s.path_rels
            s.cumulative_strength (g.outgoingRelationships s.current_id types minS)
            paths visited []
          have hlen_s := nodesMatch_length g s.path_rels 0 s.path_nodes hmatch_s
          have hfuel' : queueMeasure maxD g.rels.length
              (rest ++ (visitRels g src minD maxD s.path_nodes s.path_rels
                s.cumulative_strength (g.outgoingRelationships s.current_id types minS)
                paths visited []).2.2) < fuel := by
            have hlt := expand_measure_lt maxD g.rels.length s.path_nodes.length s rest
              ((visitRels g src minD maxD s.path_nodes s.path_rels
                s.cumulative_strength (g.outgoingRelationships s.current_id types minS)
                paths visited []).2.2) rfl (by omega)
              (by
                have h1 := hqf.1
                have h2 := outgoing_length_le g s.current_id types minS
                simp only [List.length_nil, Nat.zero_add] at h1
                omega)
              (by
                intro s' hs'
                rcases hqf.2 s' hs' with h0 | h0
                · exact absurd h0 (List.not_mem_nil s')
                · exact h0.1)
            omega
          refine ih _ _ _ hfuel' ?_ hstep.1 ?_ hres
          · intro s' hs'
            rcases List.mem_append.mp hs' with h1 | h1
            · exact hq s' (List.mem_cons_of_mem s h1)
            · exact hstep.2 s' h1
          · intro t' h1 h2 h3 h4 h5 h6
            rcases hcomp t' h1 h2 h3 h4 h5 h6 with ⟨s', hs', u, hu, hune⟩ | h
            · rcases List.mem_cons.mp hs' with rfl | hs''
              · cases u with
                | nil => exact absurd rfl hune
                | cons r u' =>
                  subst hu
                  rcases relChain_append_split g s'.path_rels (r :: u') src h1 with
                    ⟨hc1, hc2⟩
                  rcases hc2 with ⟨hr_mem, hr_src, hrest_chain⟩
                  have hr_in : r ∈ g.outgoingRelationships s'.current_id types minS := by
                    rw [mem_outgoingRelationships]
                    refine ⟨hr_mem, ?_, ?_⟩
                    · rw [hr_src, hcur_s]
                    · exact h2 r (List.mem_append.mpr (Or.inr (by simp)))
                  have hids_s : nodeIds s'.path_nodes = trailIds s'.path_rels :=
                    nodesMatch_ids g s'.path_rels 0 s'.path_nodes hmatch_s
                  have htid : trailIds (s'.path_rels ++ r :: u') =
                      trailIds s'.path_rels ++ (r.target_vendor_id :: trailIds u') := by
                    simp [trailIds]
                  have hnn : r.target_vendor_id ∉ nodeIds s'.path_nodes := by
                    rw [hids_s]
                    intro hmem
                    rw [htid] at h3
                    exact (List.disjoint_of_nodup_append h3) hmem (by simp)
                  have hns : r.target_vendor_id ≠ src := by
                    intro heq
                    apply h4
                    rw [htid, ← heq]
                    exact List.mem_append.mpr (Or.inr (by simp))
                  have hsome : (g.getVendor r.target_vendor_id).isSome :=
                    (hwf r hr_mem).2
                  have hchild := visitRels_child g src minD maxD s'.path_nodes
                    s'.path_rels s'.cumulative_strength hmatch_s
                    (g.outgoingRelationships s'.current_id types minS)
                    paths visited [] r hr_in hnn hns hsome
                  cases u' with
                  | nil =>
                    refine Or.inr ?_
                    intro hm
                    have hlg : (s'.path_rels ++ [r]).length =
                        s'.path_nodes.length + 1 := by
                      simp [hlen_s]
                    have hwin : minD ≤ s'.path_nodes.length + 1 ∧
                        s'.path_nodes.length + 1 ≤ maxD := by
                      rw [hlg] at hm h6
                      exact ⟨hm, h6⟩
                    exact hchild.1 hwin
                  | cons w ws =>
                    refine Or.inl ?_
                    have hdlt : s'.path_nodes.length + 1 < maxD := by
                      have : (s'.path_rels ++ r :: w :: ws).length =
                          s'.path_nodes.length + 2 + ws.length := by
                        simp [hlen_s]; omega
                      omega
                    rcases hchild.2 hdlt with ⟨s'', hs''mem, hs''rels⟩
                    refine ⟨s'', List.mem_append.mpr (Or.inr hs''mem), w :: ws, ?_, by simp⟩
                    rw [hs''rels]
                    simp
              · exact Or.inl ⟨s', List.mem_append.mpr (Or.inl hs''), u, hu, hune⟩
            · refine Or.inr ?_
              intro hm
              exact fp_visited_mono g src minD maxD s.path_nodes s.path_rels
                s.cumulative_strength _ _ _ _ _ (h hm)

theorem find_paths_complete (g : VendorGraph) (src : String) (minD maxD : Nat)
    (types : Option (List String)) (minS : ℚ) (limit : Nat)
    (hwf : EdgesWellFormed g)
    (hsrc : (g.getVendor src).isSome)
    (hres : (find_paths g src minD maxD types minS limit).length < limit)
    (t : List VendorRelationship)
    (hchain : relChain g src t)
    (hfilt : ∀ r ∈ t, cypherRelOk types minS r = true)
    (hnodup : (trailIds t).Nodup) (hnosrc : src ∉ trailIds t)
    (hlen1 : 1 ≤ t.length) (hlenM : t.length ≤ maxD) (hminD : minD ≤ t.length) :
    ∃ p ∈ find_paths g src minD maxD types minS limit,
      trailSignature src p.relationships = trailSignature src t := by
  unfold find_paths at hres ⊢
  cases hgv : g.getVendor src with
  | none =>
    rw [hgv] at hsrc
    exact absurd hsrc (by simp)
  | some v =>
    rw [hgv] at hres
    dsimp only at hres ⊢
    have hraw_lt : (bfsLoop g src minD maxD types minS limit
        ((g.rels.length + 1) ^ maxD + 1) [⟨src, [], [], 1⟩] [] []).length < limit := by
      rw [List.length_take] at hres
      have hperm := (pySort_perm pathKeyLt (bfsLoop g src minD maxD types minS limit
        ((g.rels.length + 1) ^ maxD + 1) [⟨src, [], [], 1⟩] [] [])).length_eq
      omega
    have hcomp := bfsLoop_complete g src minD maxD types minS limit hwf t hchain
      hfilt hnodup hnosrc hlen1 hlenM hminD
      ((g.rels.length + 1) ^ maxD + 1) [⟨src, [], [], 1⟩] [] []
      (by
        simp only [queueMeasure, stateCost, List.map_cons, List.map_nil,
          List.sum_cons, List.sum_nil, List.length_nil, Nat.sub_zero, Nat.add_zero]
        omega)
      (by
        intro s hs
        have := List.mem_singleton.mp hs
        subst this
        exact initState_ok g src types minS)
      ⟨by intro q hq; exact absurd hq (List.not_mem_nil q),
       by intro q hq; exact absurd hq (List.not_mem_nil q),
       by intro sgn hsgn; exact absurd hsgn (List.not_mem_nil sgn),
       by simp⟩
      (by
        intro t' h1 h2 h3 h4 h5 h6
        refine Or.inl ⟨⟨src, [], [], 1⟩, by simp, t', by simp, ?_⟩
        intro heq
        rw [heq] at h5
        simp at h5)
      hraw_lt
    rcases hcomp with ⟨p, hp, hps⟩
    have hsorted : p ∈ pySort pathKeyLt (bfsLoop g src minD maxD types minS limit
        ((g.rels.length + 1) ^ maxD + 1) [⟨src, [], [], 1⟩] [] []) :=
      (pySort_perm pathKeyLt _).mem_iff.mpr hp
    have htk : (pySort pathKeyLt (bfsLoop g src minD maxD types minS limit
        ((g.rels.length + 1) ^ maxD + 1) [⟨src, [], [], 1⟩] [] [])).take limit =
        pySort pathKeyLt (bfsLoop g src minD maxD types minS limit
        ((g.rels.length + 1) ^ maxD + 1) [⟨src, [], [], 1⟩] [] []) := by
      apply List.take_of_length_le
      have hperm := (pySort_perm pathKeyLt (bfsLoop g src minD maxD types minS limit
        ((g.rels.length + 1) ^ maxD + 1) [⟨src, [], [], 1⟩] [] [])).length_eq
      omega
    rw [htk]
    exact ⟨p, hsorted, hps⟩

theorem contains_iff_mem_rel (l : List VendorRelationship) (x : VendorRelationship) :
    l.contains x = true ↔ x ∈ l := by
  simp

theorem mem_cypherTrailsLen (g : VendorGraph) (types : Option (List String))
    (minS : ℚ) (src : String) :
    ∀ (n : Nat) (t : List VendorRelationship),
      t ∈ cypherTrailsLen g types minS src n ↔
        relChain g src t ∧ (∀ r ∈ t, cypherRelOk types minS r = true) ∧
          t.Nodup ∧ t.length = n := by
  intro n
  induction n with
  | zero =>
    intro t
    simp only [cypherTrailsLen, List.mem_singleton]
    constructor
    · intro h
      subst h
      exact ⟨trivial, by intro r hr; exact absurd hr (List.not_mem_nil r),
        List.nodup_nil, rfl⟩
    · rintro ⟨-, -, -, hlen⟩
      exact List.eq_nil_of_length_eq_zero hlen
  | succ n ih =>
    intro t
    constructor
    · intro h
      rcases List.mem_flatMap.mp h with ⟨t', ht', hmem⟩
      rcases List.mem_map.mp hmem with ⟨r, hrf, heq⟩
      rcases List.mem_filter.mp hrf with ⟨hrg, hcond⟩
      rw [Bool.and_eq_true, Bool.and_eq_true] at hcond
      obtain ⟨⟨hsrc_b, hok⟩, hfresh⟩ := hcond
      rw [beq_iff_eq] at hsrc_b
      rw [Bool.not_eq_true'] at hfresh
      subst heq
      rcases (ih t').mp ht' with ⟨hc, hf, hnd, hln⟩
      refine ⟨relChain_append_one g src t' r hc hrg hsrc_b, ?_, ?_, by simp [hln]⟩
      · intro x hx
        rcases List.mem_append.mp hx with h1 | h1
        · exact hf x h1
        · rw [List.mem_singleton.mp h1]
          exact hok
      · rw [List.nodup_append]
        refine ⟨hnd, List.nodup_singleton r, ?_⟩
        intro x hx hx1
        rw [List.mem_singleton.mp hx1] at hx
        have hnc : t'.contains r ≠ true := by rw [hfresh]; exact Bool.false_ne_true
        exact hnc ((contains_iff_mem_rel t' r).mpr hx)
    · rintro ⟨hc, hf, hnd, hln⟩
      rcases List.eq_nil_or_concat t with rfl | ⟨t', r, rfl⟩
      · simp at hln
      rw [List.concat_eq_append] at *
      rcases relChain_append_split g t' [r] src hc with ⟨hc1, hc2⟩
      rcases hc2 with ⟨hrg, hsrc_b, -⟩
      have hln' : t'.length = n := by
        simp only [List.length_append, List.length_cons, List.length_nil] at hln
        omega
      have hnd' : t'.Nodup ∧ r ∉ t' := by
        rw [List.nodup_append] at hnd
        refine ⟨hnd.1, fun hmem => hnd.2.2 hmem (by simp)⟩
      apply List.mem_flatMap.mpr
      refine ⟨t', (ih t').mpr ⟨hc1, fun x hx => hf x (List.mem_append.mpr (Or.inl hx)),
        hnd'.1, hln'⟩, ?_⟩
      apply List.mem_map.mpr
      refine ⟨r, ?_, rfl⟩
      apply List.mem_filter.mpr
      refine ⟨hrg, ?_⟩
      rw [Bool.and_eq_true, Bool.and_eq_true, Bool.not_eq_true']
      refine ⟨⟨by rw [beq_iff_eq]; exact hsrc_b,
        hf r (List.mem_append.mpr (Or.inr (by simp)))⟩, ?_⟩
      rw [Bool.eq_false_iff]
      intro hcon
      exact hnd'.2 ((contains_iff_mem_rel t' r).mp hcon)

theorem chain_ids_unique (g : VendorGraph) (hnp : NoParallelEdges g) :
    ∀ (t₁ t₂ : List VendorRelationship) (a : String),
      relChain g a t₁ → relChain g a t₂ → trailIds t₁ = trailIds t₂ → t₁ = t₂ := by
  intro t₁
  induction t₁ with
  | nil =>
    intro t₂ a _ _ hids
    cases t₂ with
    | nil => rfl
    | cons y ys => exact absurd hids (by simp [trailIds])
  | cons x xs ih =>
    intro t₂ a h₁ h₂ hids
    cases t₂ with
    | nil => exact absurd hids (by simp [trailIds])
    | cons y ys =>
      rcases h₁ with ⟨hx, hxa, hxs⟩
      rcases h₂ with ⟨hy, hya, hys⟩
      simp only [trailIds, List.map_cons, List.cons.injEq] at hids
      have hxy : x = y := hnp x hx y hy (hxa.trans hya.symm) hids.1
      subst hxy
      exact congrArg (x :: ·) (ih ys x.target_vendor_id hxs hys hids.2)

theorem mem_neo4j_find_paths (g : VendorGraph) (src : String) (minD maxD : Nat)
    (types : Option (List String)) (minS : ℚ) (limit : Nat)
    (hsrc : (g.getVendor src).isSome)
    (hlt : (neo4j_find_paths g src minD maxD types minS limit).length < limit) :
    ∀ rec : Neo4jPathRecord,
      rec ∈ neo4j_find_paths g src minD maxD types minS limit ↔
        ∃ t, relChain g src t ∧ (∀ r ∈ t, cypherRelOk types minS r = true) ∧
          t.Nodup ∧ minD ≤ t.length ∧ t.length ≤ maxD ∧
          rec = ⟨src, trailEnd src t, t.length, trailStrength t,
            src :: t.map (fun r => r.target_vendor_id), t⟩ := by
  intro rec
  unfold neo4j_find_paths at hlt ⊢
  cases hgv : g.getVendor src with
  | none =>
    rw [hgv] at hsrc
    exact absurd hsrc (by simp)
  | some v =>
    rw [hgv] at hlt
    dsimp only at hlt ⊢
    rw [List.length_take] at hlt
    have hperm := (pySort_perm neoKeyLt (((List.range (maxD + 1)).flatMap
      (fun n => if minD ≤ n then cypherTrailsLen g types minS src n else [])).map
      (fun t => (⟨src, trailEnd src t, t.length, trailStrength t,
        src :: t.map (fun r => r.target_vendor_id), t⟩ : Neo4jPathRecord))))
    have hfull : (pySort neoKeyLt (((List.range (maxD + 1)).flatMap
        (fun n => if minD ≤ n then cypherTrailsLen g types minS src n else [])).map
        (fun t => (⟨src, trailEnd src t, t.length, trailStrength t,
          src :: t.map (fun r => r.target_vendor_id), t⟩ : Neo4jPathRecord)))).take limit =
        pySort neoKeyLt (((List.range (maxD + 1)).flatMap
        (fun n => if minD ≤ n then cypherTrailsLen g types minS src n else [])).map
        (fun t => (⟨src, trailEnd src t, t.length, trailStrength t,
          src :: t.map (fun r => r.target_vendor_id), t⟩ : Neo4jPathRecord))) := by
      apply List.take_of_length_le
      have := hperm.length_eq
      omega
    rw [hfull]
    rw [hperm.mem_iff]
    constructor
    · intro h
      rcases List.mem_map.mp h with ⟨t, ht, heq⟩
      rcases List.mem_flatMap.mp ht with ⟨n, hn, htn⟩
      by_cases hminn : minD ≤ n
      · rw [if_pos hminn] at htn
        rcases (mem_cypherTrailsLen g types minS src n t).mp htn with ⟨hc, hf, hnd, hln⟩
        refine ⟨t, hc, hf, hnd, by omega, ?_, heq.symm⟩
        have := List.mem_range.mp hn
        omega
      · rw [if_neg hminn] at htn
        exact absurd htn (List.not_mem_nil t)
    · rintro ⟨t, hc, hf, hnd, hmin, hmax, rfl⟩
      apply List.mem_map.mpr
      refine ⟨t, ?_, rfl⟩
      apply List.mem_flatMap.mpr
      refine ⟨t.length, List.mem_range.mpr (by omega), ?_⟩
      rw [if_pos hmin]
      exact (mem_cypherTrailsLen g types minS src t.length t).mpr ⟨hc, hf, hnd, rfl⟩

theorem chains_gScenario_D : ∀ t, relChain gScenario "D" t → t = [] := by
  intro t h
  cases t with
  | nil => rfl
  | cons r rs =>
    rcases h with ⟨hr, hsrc, -⟩
    simp [gScenario] at hr
    rcases hr with rfl | rfl | rfl <;> exact absurd hsrc (by decide)

theorem chains_gScenario_C : ∀ t, relChain gScenario "C" t →
    t = [] ∨ t = [⟨3, "C", "D", "supplier", 7/10, none, 0, false⟩] := by
  intro t h
  cases t with
  | nil => exact Or.inl rfl
  | cons r rs =>
    rcases h with ⟨hr, hsrc, hrest⟩
    simp [gScenario] at hr
    rcases hr with rfl | rfl | rfl
    · exact absurd hsrc (by decide)
    · exact absurd hsrc (by decide)
    · exact Or.inr (by rw [chains_gScenario_D rs hrest])

theorem chains_gScenario_B : ∀ t, relChain gScenario "B" t →
    t = [] ∨ t = [⟨2, "B", "C", "subcontractor", 8/10, none, 0, false⟩] ∨
    t = [⟨2, "B", "C", "subcontractor", 8/10, none, 0, false⟩,
         ⟨3, "C", "D", "supplier", 7/10, none, 0, false⟩] := by
  intro t h
  cases t with
  | nil => exact Or.inl rfl
  | cons r rs =>
    rcases h with ⟨hr, hsrc, hrest⟩
    simp [gScenario] at hr
    rcases hr with rfl | rfl | rfl
    · exact absurd hsrc (by decide)
    · rcases chains_gScenario_C rs hrest with rfl | rfl
      · exact Or.inr (Or.inl rfl)
      · exact Or.inr (Or.inr rfl)
    · exact absurd hsrc (by decide)

theorem chains_gScenario : ∀ t, relChain gScenario "A" t →
    t = [] ∨ t = [⟨1, "A", "B", "supplier", 9/10, none, 0, false⟩] ∨
    t = [⟨1, "A", "B", "supplier", 9/10, none, 0, false⟩,
         ⟨2, "B", "C", "subcontractor", 8/10, none, 0, false⟩] ∨
    t = [⟨1, "A", "B", "supplier", 9/10, none, 0, false⟩,
         ⟨2, "B", "C", "subcontractor", 8/10, none, 0, false⟩,
         ⟨3, "C", "D", "supplier", 7/10, none, 0, false⟩] := by
  intro t h
  cases t with
  | nil => exact Or.inl rfl
  | cons r rs =>
    rcases h with ⟨hr, hsrc, hrest⟩
    simp [gScenario] at hr
    rcases hr with rfl | rfl | rfl
    · rcases chains_gScenario_B rs hrest with rfl | rfl | rfl
      · exact Or.inr (Or.inl rfl)
      · exact Or.inr (Or.inr (Or.inl rfl))
      · exact Or.inr (Or.inr (Or.inr rfl))
    · exact absurd hsrc (by decide)
    · exact absurd hsrc (by decide)

theorem sigInjective_gScenario : SigInjective gScenario "A" 3 := by
  intro t₁ t₂ h₁ h₂ hn1 hn2 hl1 hl2 hsig
  rcases chains_gScenario t₁ h₁ with rfl | rfl | rfl | rfl <;>
    rcases chains_gScenario t₂ h₂ with rfl | rfl | rfl | rfl <;>
      first
        | rfl
        | exact absurd hsig (by decide)

theorem runningAverage_singleton (x : ℚ) : runningAverage [x] = x := rfl

theorem runningAverage_append_one (l : List ℚ) (hl : l ≠ []) (x : ℚ) :
    runningAverage (l ++ [x]) = (runningAverage l + x) / 2 := by
  cases l with
  | nil => exact absurd rfl hl
  | cons y ys => simp [runningAverage, List.foldl_append]

theorem endsAt_of_getLast (p : RelationshipPath) (n : VendorNode)
    (h : p.path.getLast? = some n) (vid : String) :
    endsAt p vid = (n.vendor_id == vid) := by
  simp [endsAt, h]

theorem endsAt_false_of_none (p : RelationshipPath)
    (h : p.path.getLast? = none) (vid : String) :
    endsAt p vid = false := by
  simp [endsAt, h]

theorem nthLoop_main :
    ∀ (rest done : List RelationshipPath) (acc : List NthPartyVendor),
      ((acc.map (fun v => v.vendor_id)).Nodup) →
      (∀ v ∈ acc,
        v.paths_to_vendor = (done.filter (fun p => endsAt p v.vendor_id)).length ∧
        v.avg_risk_score = runningAverage ((done.filter
          (fun p => endsAt p v.vendor_id)).map (fun p => riskValueOr0 p.risk_score)) ∧
        done.filter (fun p => endsAt p v.vendor_id) ≠ []) →
      (∀ p ∈ done, ∀ n, p.path.getLast? = some n →
        n.vendor_id ∈ acc.map (fun v => v.vendor_id)) →
      ((nthLoop rest acc).map (fun v => v.vendor_id)).Nodup ∧
      (∀ v ∈ nthLoop rest acc,
        v.paths_to_vendor = ((done ++ rest).filter (fun p => endsAt p v.vendor_id)).length ∧
        v.avg_risk_score = runningAverage (((done ++ rest).filter
          (fun p => endsAt p v.vendor_id)).map (fun p => riskValueOr0 p.risk_score)) ∧
        (done ++ rest).filter (fun p => endsAt p v.vendor_id) ≠ []) ∧
      (∀ p ∈ done ++ rest, ∀ n, p.path.getLast? = some n →
        n.vendor_id ∈ (nthLoop rest acc).map (fun v => v.vendor_id)) := by
  intro rest
  induction rest with
  | nil =>
    intro done acc h1 h2 h3
    simp only [nthLoop, List.append_nil]
    exact ⟨h1, h2, h3⟩
  | cons p ps ih =>
    intro done acc h1 h2 h3
    have hassoc : done ++ p :: ps = (done ++ [p]) ++ ps := by simp
    simp only [nthLoop]
    cases hlast : p.path.getLast? with
    | none =>
      have hfeq : ∀ vid, (done ++ [p]).filter (fun q => endsAt q vid) =
          done.filter (fun q => endsAt q vid) := by
        intro vid
        rw [List.filter_append]
        simp [endsAt_false_of_none p hlast vid]
      have h2' : ∀ v ∈ acc,
          v.paths_to_vendor = ((done ++ [p]).filter (fun q => endsAt q v.vendor_id)).length ∧
          v.avg_risk_score = runningAverage (((done ++ [p]).filter
            (fun q => endsAt q v.vendor_id)).map (fun q => riskValueOr0 q.risk_score)) ∧
          (done ++ [p]).filter (fun q => endsAt q v.vendor_id) ≠ [] := by
        intro v hv
        rw [hfeq v.vendor_id]
        exact h2 v hv
      have h3' : ∀ q ∈ done ++ [p], ∀ n, q.path.getLast? = some n →
          n.vendor_id ∈ acc.map (fun v => v.vendor_id) := by
        intro q hq n hn
        rcases List.mem_append.mp hq with hq1 | hq1
        · exact h3 q hq1 n hn
        · rw [List.mem_singleton.mp hq1] at hn
          rw [hlast] at hn
          exact absurd hn (by simp)
      rw [hassoc]
      exact ih (done ++ [p]) acc h1 h2' h3'
    | some tn =>
      dsimp only
      by_cases hseen : acc.any (fun v => v.vendor_id == tn.vendor_id) = true
      · rw [if_pos hseen]
        have hupd_id : ∀ v : NthPartyVendor,
            (if v.vendor_id == tn.vendor_id then
              { v with
                paths_to_vendor := v.paths_to_vendor + 1,
                avg_risk_score := (v.avg_risk_score + riskValueOr0 p.risk_score) / 2 }
            else v).vendor_id = v.vendor_id := by
          intro v
          by_cases h : (v.vendor_id == tn.vendor_id) = true
          · rw [if_pos h]
          · rw [if_neg h]
        have hids : (acc.map (fun v =>
            if v.vendor_id == tn.vendor_id then
              { v with
                paths_to_vendor := v.paths_to_vendor + 1,
                avg_risk_score := (v.avg_risk_score + riskValueOr0 p.risk_score) / 2 }
            else v)).map (fun v => v.vendor_id) = acc.map (fun v => v.vendor_id) := by
          rw [List.map_map]
          exact List.map_congr_left (fun v _ => hupd_id v)
        have h2' : ∀ v' ∈ acc.map (fun v =>
            if v.vendor_id == tn.vendor_id then
              { v with
                paths_to_vendor := v.paths_to_vendor + 1,
                avg_risk_score := (v.avg_risk_score + riskValueOr0 p.risk_score) / 2 }
            else v),
            v'.paths_to_vendor =
              ((done ++ [p]).filter (fun q => endsAt q v'.vendor_id)).length ∧
            v'.avg_risk_score = runningAverage (((done ++ [p]).filter
              (fun q => endsAt q v'.vendor_id)).map (fun q => riskValueOr0 q.risk_score)) ∧
            (done ++ [p]).filter (fun q => endsAt q v'.vendor_id) ≠ [] := by
          intro v' hv'
          rcases List.mem_map.mp hv' with ⟨v, hv, hveq⟩
          rcases h2 v hv with ⟨hc, ha, hne⟩
          by_cases hmatch : (v.vendor_id == tn.vendor_id) = true
          · rw [if_pos hmatch] at hveq
            subst hveq
            have hvid : v.vendor_id = tn.vendor_id := by
              exact beq_iff_eq.mp hmatch
            have hendp : endsAt p v.vendor_id = true := by
              rw [endsAt_of_getLast p tn hlast]
              rw [hvid]
              simp
            have hfapp : (done ++ [p]).filter (fun q => endsAt q v.vendor_id) =
                done.filter (fun q => endsAt q v.vendor_id) ++ [p] := by
              rw [List.filter_append]
              simp [hendp]
            refine ⟨?_, ?_, ?_⟩
            · simp only
              rw [hfapp, List.length_append, hc]
              simp
            · simp only
              rw [hfapp, List.map_append, List.map_singleton]
              rw [runningAverage_append_one _ (fun hx => hne (List.map_eq_nil_iff.mp hx)) _]
              rw [ha]
            · simp only
              rw [hfapp]
              simp
          · rw [if_neg hmatch] at hveq
            subst hveq
            have hvid : ¬ (tn.vendor_id = v.vendor_id) := by
              intro h
              exact hmatch (beq_iff_eq.mpr h.symm)
            have hendp : endsAt p v.vendor_id = false := by
              rw [endsAt_of_getLast p tn hlast]
              exact beq_eq_false_iff_ne.mpr hvid
            have hfapp : (done ++ [p]).filter (fun q => endsAt q v.vendor_id) =
                done.filter (fun q => endsAt q v.vendor_id) := by
              rw [List.filter_append]
              simp [hendp]
            rw [hfapp]
            exact ⟨hc, ha, hne⟩
        have h3' : ∀ q ∈ done ++ [p], ∀ n, q.path.getLast? = some n →
            n.vendor_id ∈ (acc.map (fun v =>
              if v.vendor_id == tn.vendor_id then
                { v with
                  paths_to_vendor := v.paths_to_vendor + 1,
                  avg_risk_score := (v.avg_risk_score + riskValueOr0 p.risk_score) / 2 }
              else v)).map (fun v => v.vendor_id) := by
          intro q hq n hn
          rw [hids]
          rcases List.mem_append.mp hq with hq1 | hq1
          · exact h3 q hq1 n hn
          · rw [List.mem_singleton.mp hq1] at hn
            rw [hlast] at hn
            have hntn : n = tn := by
              injection hn with h
              exact h.symm
            subst hntn
            rcases List.any_eq_true.mp hseen with ⟨v, hv, hbeq⟩
            have : v.vendor_id = n.vendor_id := beq_iff_eq.mp hbeq
            exact List.mem_map.mpr ⟨v, hv, this⟩
        rw [hassoc]
        exact ih (done ++ [p]) _ (by rw [hids]; exact h1) h2' h3'
      · rw [if_neg hseen]
        have hnotin : ∀ v ∈ acc, v.vendor_id ≠ tn.vendor_id := by
          intro v hv heq
          apply hseen
          rw [List.any_eq_true]
          exact ⟨v, hv, beq_iff_eq.mpr heq⟩
        have hids : (acc ++ [(⟨tn.vendor_id, tn.vendor_name, tn.industry, 1,
            riskValueOr0 p.risk_score, p.total_strength⟩ : NthPartyVendor)]).map (fun v => v.vendor_id) =
            acc.map (fun v => v.vendor_id) ++ [tn.vendor_id] := by
          simp
        have h1' : ((acc ++ [(⟨tn.vendor_id, tn.vendor_name, tn.industry, 1,
            riskValueOr0 p.risk_score, p.total_strength⟩ : NthPartyVendor)]).map
              (fun v => v.vendor_id)).Nodup := by
          rw [hids, List.nodup_append]
          refine ⟨h1, List.nodup_singleton _, ?_⟩
          intro x hx hx1
          rw [List.mem_singleton.mp hx1] at hx
          rcases List.mem_map.mp hx with ⟨v, hv, hveq⟩
          exact hnotin v hv hveq
        have hdone_empty : done.filter (fun q => endsAt q tn.vendor_id) = [] := by
          rw [List.filter_eq_nil_iff]
          intro q hq hend
          rcases hq' : q.path.getLast? with _ | n
          · rw [endsAt_false_of_none q hq' tn.vendor_id] at hend
            exact absurd hend (by simp)
          · rw [endsAt_of_getLast q n hq' tn.vendor_id] at hend
            have hnv : n.vendor_id = tn.vendor_id := beq_iff_eq.mp hend
            have := h3 q hq n hq'
            rcases List.mem_map.mp (hnv ▸ this) with ⟨v, hv, hveq⟩
            exact hnotin v hv hveq
        have h2' : ∀ v ∈ acc ++ [(⟨tn.vendor_id, tn.vendor_name, tn.industry, 1,
            riskValueOr0 p.risk_score, p.total_strength⟩ : NthPartyVendor)],
            v.paths_to_vendor =
              ((done ++ [p]).filter (fun q => endsAt q v.vendor_id)).length ∧
            v.avg_risk_score = runningAverage (((done ++ [p]).filter
              (fun q => endsAt q v.vendor_id)).map (fun q => riskValueOr0 q.risk_score)) ∧
            (done ++ [p]).filter (fun q => endsAt q v.vendor_id) ≠ [] := by
          intro v hv
          rcases List.mem_append.mp hv with hv1 | hv1
          · rcases h2 v hv1 with ⟨hc, ha, hne⟩
            have hendp : endsAt p v.vendor_id = false := by
              rw [endsAt_of_getLast p tn hlast]
              exact beq_eq_false_iff_ne.mpr (fun h => hnotin v hv1 h.symm)
            have hfapp : (done ++ [p]).filter (fun q => endsAt q v.vendor_id) =
                done.filter (fun q => endsAt q v.vendor_id) := by
              rw [List.filter_append]
              simp [hendp]
            rw [hfapp]
            exact ⟨hc, ha, hne⟩
          · rw [List.mem_singleton.mp hv1]
            have hendp : endsAt p tn.vendor_id = true := by
              rw [endsAt_of_getLast p tn hlast]
              simp
            have hfapp : (done ++ [p]).filter (fun q => endsAt q tn.vendor_id) = [p] := by
              rw [List.filter_append, hdone_empty]
              simp [hendp]
            simp only
            rw [hfapp]
            refine ⟨by simp, ?_, by simp⟩
            simp [runningAverage]
        have h3' : ∀ q ∈ done ++ [p], ∀ n, q.path.getLast? = some n →
            n.vendor_id ∈ (acc ++ [(⟨tn.vendor_id, tn.vendor_name, tn.industry, 1,
              riskValueOr0 p.risk_score, p.total_strength⟩ : NthPartyVendor)]).map
                (fun v => v.vendor_id) := by
          intro q hq n hn
          rw [hids]
          rcases List.mem_append.mp hq with hq1 | hq1
          · exact List.mem_append.mpr (Or.inl (h3 q hq1 n hn))
          · rw [List.mem_singleton.mp hq1] at hn
            rw [hlast] at hn
            have hntn : n = tn := by
              injection hn with h
              exact h.symm
            subst hntn
            exact List.mem_append.mpr (Or.inr (by simp))
        rw [hassoc]
        exact ih (done ++ [p]) _ h1' h2' h3'

theorem groupByDepth_main :
    ∀ (rest done : List RelationshipPath) (acc : List (Nat × List RelationshipPath)),
      ((acc.map (fun e => e.1)).Nodup) →
      (∀ e ∈ acc, e.2 = done.filter (fun p => p.path_length == e.1) ∧ e.2 ≠ []) →
      (∀ p ∈ done, p.path_length ∈ acc.map (fun e => e.1)) →
      ((groupByDepth rest acc).map (fun e => e.1)).Nodup ∧
      (∀ e ∈ groupByDepth rest acc,
        e.2 = (done ++ rest).filter (fun p => p.path_length == e.1) ∧ e.2 ≠ []) ∧
      (∀ p ∈ done ++ rest,
        p.path_length ∈ (groupByDepth rest acc).map (fun e => e.1)) := by
  intro rest
  induction rest with
  | nil =>
    intro done acc h1 h2 h3
    simp only [groupByDepth, List.append_nil]
    exact ⟨h1, h2, h3⟩
  | cons p ps ih =>
    intro done acc h1 h2 h3
    have hassoc : done ++ p :: ps = (done ++ [p]) ++ ps := by simp
    simp only [groupByDepth]
    by_cases hseen : acc.any (fun e => e.1 == p.path_length) = true
    · rw [if_pos hseen]
      have hupd_key : ∀ e : Nat × List RelationshipPath,
          (if e.1 == p.path_length then (e.1, e.2 ++ [p]) else e).1 = e.1 := by
        intro e
        by_cases h : (e.1 == p.path_length) = true
        · rw [if_pos h]
        · rw [if_neg h]
      have hids : (acc.map (fun e =>
          if e.1 == p.path_length then (e.1, e.2 ++ [p]) else e)).map (fun e => e.1) =
          acc.map (fun e => e.1) := by
        rw [List.map_map]
        exact List.map_congr_left (fun e _ => hupd_key e)
      have h2' : ∀ e' ∈ acc.map (fun e =>
          if e.1 == p.path_length then (e.1, e.2 ++ [p]) else e),
          e'.2 = (done ++ [p]).filter (fun q => q.path_length == e'.1) ∧ e'.2 ≠ [] := by
        intro e' he'
        rcases List.mem_map.mp he' with ⟨e, he, heq⟩
        rcases h2 e he with ⟨hf, hne⟩
        by_cases hmatch : (e.1 == p.path_length) = true
        · rw [if_pos hmatch] at heq
          subst heq
          have hkey : p.path_length = e.1 := (beq_iff_eq.mp hmatch).symm
          constructor
          · simp only
            rw [List.filter_append, ← hf]
            simp [hkey]
          · simp
        · rw [if_neg hmatch] at heq
          subst heq
          have hkey : ¬ (p.path_length = e.1) := by
            intro h
            exact hmatch (beq_iff_eq.mpr h.symm)
          refine ⟨?_, hne⟩
          rw [List.filter_append, ← hf]
          simp [beq_eq_false_iff_ne.mpr hkey]
      have h3' : ∀ q ∈ done ++ [p], q.path_length ∈ (acc.map (fun e =>
          if e.1 == p.path_length then (e.1, e.2 ++ [p]) else e)).map
            (fun e => e.1) := by
        intro q hq
        rw [hids]
        rcases List.mem_append.mp hq with hq1 | hq1
        · exact h3 q hq1
        · rw [List.mem_singleton.mp hq1]
          rcases List.any_eq_true.mp hseen with ⟨e, he, hbeq⟩
          exact List.mem_map.mpr ⟨e, he, (beq_iff_eq.mp hbeq).symm ▸ rfl⟩
      rw [hassoc]
      exact ih (done ++ [p]) _ (by rw [hids]; exact h1) h2' h3'
    · rw [if_neg hseen]
      have hnotin : ∀ e ∈ acc, e.1 ≠ p.path_length := by
        intro e he heq
        apply hseen
        rw [List.any_eq_true]
        exact ⟨e, he, beq_iff_eq.mpr heq⟩
      have hids : (acc ++ [(p.path_length, [p])]).map (fun e => e.1) =
          acc.map (fun e => e.1) ++ [p.path_length] := by
        simp
      have h1' : ((acc ++ [(p.path_length, [p])]).map (fun e => e.1)).Nodup := by
        rw [hids, List.nodup_append]
        refine ⟨h1, List.nodup_singleton _, ?_⟩
        intro x hx hx1
        rw [List.mem_singleton.mp hx1] at hx
        rcases List.mem_map.mp hx with ⟨e, he, heq⟩
        exact hnotin e he heq
      have hdone_empty : done.filter (fun q => q.path_length == p.path_length) = [] := by
        rw [List.filter_eq_nil_iff]
        intro q hq hend
        have hkey : q.path_length = p.path_length := beq_iff_eq.mp hend
        rcases List.mem_map.mp (hkey ▸ h3 q hq) with ⟨e, he, heq⟩
        exact hnotin e he heq
      have h2' : ∀ e ∈ acc ++ [(p.path_length, [p])],
          e.2 = (done ++ [p]).filter (fun q => q.path_length == e.1) ∧ e.2 ≠ [] := by
        intro e he
        rcases List.mem_append.mp he with he1 | he1
        · rcases h2 e he1 with ⟨hf, hne⟩
          refine ⟨?_, hne⟩
          rw [List.filter_append, ← hf]
          have : (p.path_length == e.1) = false :=
            beq_eq_false_iff_ne.mpr (fun h => hnotin e he1 h.symm)
          simp [this]
        · rw [List.mem_singleton.mp he1]
          constructor
          · simp only
            rw [List.filter_append, hdone_empty]
            simp
          · simp
      have h3' : ∀ q ∈ done ++ [p], q.path_length ∈
          (acc ++ [(p.path_length, [p])]).map (fun e => e.1) := by
        intro q hq
        rw [hids]
        rcases List.mem_append.mp hq with hq1 | hq1
        · exact List.mem_append.mpr (Or.inl (h3 q hq1))
        · rw [List.mem_singleton.mp hq1]
          exact List.mem_append.mpr (Or.inr (by simp))
      rw [hassoc]
      exact ih (done ++ [p]) _ h1' h2' h3'

theorem riskValueOr0_some (x : ℚ) : riskValueOr0 (some x) = x := by
  show (if (x == 0) = true then 0 else x) = x
  by_cases h : (x == 0) = true
  · rw [if_pos h]
    exact (beq_iff_eq.mp h).symm
  · rw [if_neg h]

theorem riskValueOr0_zero_of_not_truthy (r : Option ℚ)
    (h : riskTruthy r = false) : riskValueOr0 r = 0 := by
  cases r with
  | none => rfl
  | some x =>
    have h0 : (!(x == 0)) = false := h
    have h1 : (x == 0) = true := by simpa using h0
    show (if (x == 0) = true then 0 else x) = 0
    rw [if_pos h1]

theorem truthy_sum_eq (l : List RelationshipPath) :
    ((l.filter (fun p => riskTruthy p.risk_score)).map
      (fun p => riskValueOr0 p.risk_score)).sum =
    (l.map (fun p => riskValueOr0 p.risk_score)).sum := by
  induction l with
  | nil => rfl
  | cons p ps ih =>
    rw [List.filter_cons]
    by_cases h : riskTruthy p.risk_score = true
    · rw [if_pos (show (fun q : RelationshipPath => riskTruthy q.risk_score) p = true from h)]
      rw [List.map_cons, List.map_cons, List.sum_cons, List.sum_cons, ih]
    · rw [if_neg (show ¬ (fun q : RelationshipPath => riskTruthy q.risk_score) p = true from h)]
      rw [List.map_cons, List.sum_cons, ih,
        riskValueOr0_zero_of_not_truthy p.risk_score (by simpa using h)]
      ring

theorem pathKeyLt_false_imp (p q : RelationshipPath)
    (h : pathKeyLt q p = false) :
    p.path_length < q.path_length ∨
      (p.path_length = q.path_length ∧ q.total_strength ≤ p.total_strength) := by
  rw [Bool.eq_false_iff] at h
  rcases Nat.lt_trichotomy p.path_length q.path_length with h1 | h1 | h1
  · exact Or.inl h1
  · refine Or.inr ⟨h1, ?_⟩
    by_contra hlt
    push_neg at hlt
    exact h ((pathKeyLt_true_iff q p).mpr (Or.inr ⟨h1.symm, hlt⟩))
  · exact absurd ((pathKeyLt_true_iff q p).mpr (Or.inl h1)) h

theorem find_paths_sorted_aux (g : VendorGraph) (src : String) (minD maxD : Nat)
    (types : Option (List String)) (minS : ℚ) (limit : Nat) :
    (find_paths g src minD maxD types minS limit).Pairwise
      (fun p q => p.path_length < q.path_length ∨
        (p.path_length = q.path_length ∧ q.total_strength ≤ p.total_strength)) ∧
    (find_paths g src minD maxD types minS limit).length ≤ limit := by
  unfold find_paths
  cases g.getVendor src with
  | none => exact ⟨List.Pairwise.nil, by simp⟩
  | some v =>
    dsimp only
    constructor
    · have hpw := pySort_pairwise pathKeyLt pathKeyLt_asymm pathKeyLt_negtrans
        (bfsLoop g src minD maxD types minS limit ((g.rels.length + 1) ^ maxD + 1)
          [⟨src, [], [], 1⟩] [] [])
      have hpw2 := hpw.imp (fun {p q} h => pathKeyLt_false_imp p q h)
      exact hpw2.sublist (List.take_sublist _ _)
    · exact List.length_take_le _ _

theorem find_paths_ids_nodup (g : VendorGraph) (src : String) (minD maxD : Nat)
    (types : Option (List String)) (minS : ℚ) (limit : Nat) :
    ((find_paths g src minD maxD types minS limit).map
      (fun p => trailIds p.relationships)).Nodup := by
  have hsig := find_paths_sig_nodup g src minD maxD types minS limit
  have hmap : (find_paths g src minD maxD types minS limit).map
      (fun p => trailSignature src p.relationships) =
      ((find_paths g src minD maxD types minS limit).map
        (fun p => trailIds p.relationships)).map
        (fun ids => src ++ sepArrow ++ String.intercalate sepArrow ids) := by
    rw [List.map_map]
    rfl
  rw [hmap] at hsig
  exact List.Nodup.of_map _ hsig

/-! ### Concrete evaluation support

The `Rat` arithmetic operations are `@[irreducible]` in Batteries; the claim
witnesses below evaluate the engines on concrete fixture graphs with `decide`,
which needs the kernel to unfold them. -/

set_option allowUnsafeReducibility true

attribute [semireducible] Rat.mul Rat.add Rat.sub Rat.div Rat.inv

/-! ### The claims -/

/-- Claim C2: every `RelationshipPath` returned by `find_paths`, and every one
returned by `find_shortest_path`, visits each vendor at most once and never
returns to its own source vendor. -/
theorem returned_paths_simple (g : VendorGraph) (src : String) (minD maxD : Nat)
    (types : Option (List String)) (minS : ℚ) (limit : Nat)
    (target : String) (spMaxD : Nat)
    (hwf : EdgesWellFormed g) (hsr : StrengthsInRange g) :
    (∀ p ∈ find_paths g src minD maxD types minS limit,
      (nodeIds p.path).Nodup ∧ src ∉ nodeIds p.path) ∧
    (∀ p, find_shortest_path g src target spMaxD = some p →
      (nodeIds p.path).Nodup ∧ src ∉ nodeIds p.path) := by
  constructor
  · intro p hp
    obtain ⟨-, -, -, hm, -, -, -, -, -, -, -, hnd, hns⟩ :=
      find_paths_sound g src minD maxD types minS limit p hp
    have hids : nodeIds p.path = trailIds p.relationships :=
      nodesMatch_ids g p.relationships 0 p.path hm
    rw [hids]
    exact ⟨hnd, hns⟩
  · intro p hp
    obtain ⟨-, -, -, hm, -, -, -, -, -, -, -, hnd, hns⟩ :=
      ((find_shortest_path_correct g src target spMaxD hwf hsr).1 p hp).1
    have hids : nodeIds p.path = trailIds p.relationships :=
      nodesMatch_ids g p.relationships 0 p.path hm
    rw [hids]
    exact ⟨hnd, hns⟩

/-- Claim C2 witness: the simple-path guarantee instantiated on the spec §8
scenario graph. -/
theorem returned_paths_simple_witness :
    EdgesWellFormed gScenario ∧ StrengthsInRange gScenario ∧
    ((∀ p ∈ find_paths gScenario "A" 1 3 none 0 100,
        (nodeIds p.path).Nodup ∧ "A" ∉ nodeIds p.path) ∧
     (∀ p, find_shortest_path gScenario "A" "D" 3 = some p →
        (nodeIds p.path).Nodup ∧ "A" ∉ nodeIds p.path)) :=
  ⟨by unfold EdgesWellFormed; decide, by unfold StrengthsInRange; decide,
    returned_paths_simple gScenario "A" 1 3 none 0 100 "D" 3
      (by unfold EdgesWellFormed; decide) (by unfold StrengthsInRange; decide)⟩

/-- Claim C3 (amended): every path emitted by `find_paths` carries
`total_strength` equal to the exact product of the traversed edges' strengths
and `risk_score = 1 - total_strength`; `find_shortest_path` also computes the
exact strength product, but leaves `risk_score` unset (`none`) rather than
`1 - total_strength` — the original claim fails for it
(`shortest_path_risk_none_counterexample`). -/
theorem strength_product_risk_amended (g : VendorGraph) (src : String)
    (minD maxD : Nat) (types : Option (List String)) (minS : ℚ) (limit : Nat)
    (target : String) (spMaxD : Nat)
    (hwf : EdgesWellFormed g) (hsr : StrengthsInRange g) :
    (∀ p ∈ find_paths g src minD maxD types minS limit,
      p.total_strength = trailStrength p.relationships ∧
      p.risk_score = some (1 - p.total_strength)) ∧
    (∀ p, find_shortest_path g src target spMaxD = some p →
      p.total_strength = trailStrength p.relationships ∧
      p.risk_score = none) := by
  constructor
  · intro p hp
    obtain ⟨-, -, -, -, -, -, -, -, hstr, hrisk, -, -, -⟩ :=
      find_paths_sound g src minD maxD types minS limit p hp
    exact ⟨hstr, hrisk⟩
  · intro p hp
    obtain ⟨-, -, -, -, -, -, -, -, hstr, hrisk, -, -, -⟩ :=
      ((find_shortest_path_correct g src target spMaxD hwf hsr).1 p hp).1
    exact ⟨hstr, hrisk⟩

/-- Claim C3 counterexample: on the spec §8 scenario graph the shortest path
`A→D` has strength `0.504` but `risk_score = none`, not `1 - 0.504`. -/
theorem shortest_path_risk_none_counterexample :
    (find_shortest_path gScenario "A" "D" 3).map
      (fun p => (p.total_strength, p.risk_score)) = some (504/1000, none) := by
  decide

/-- Claim C3 witness: the amended strength/risk guarantee instantiated on the
spec §8 scenario graph. -/
theorem strength_product_risk_witness :
    EdgesWellFormed gScenario ∧ StrengthsInRange gScenario ∧
    ((∀ p ∈ find_paths gScenario "A" 1 3 none 0 100,
        p.total_strength = trailStrength p.relationships ∧
        p.risk_score = some (1 - p.total_strength)) ∧
     (∀ p, find_shortest_path gScenario "A" "D" 3 = some p →
        p.total_strength = trailStrength p.relationships ∧
        p.risk_score = none)) :=
  ⟨by unfold EdgesWellFormed; decide, by unfold StrengthsInRange; decide,
    strength_product_risk_amended gScenario "A" 1 3 none 0 100 "D" 3
      (by unfold EdgesWellFormed; decide) (by unfold StrengthsInRange; decide)⟩

/-- Claim C4: a path returned by `find_shortest_path` is within `max_depth`
and never longer than any directed walk from source to target, and the result
is `none` exactly when no walk of at most `max_depth` hops exists or the two
endpoints coincide. -/
theorem shortest_path_minimality (g : VendorGraph) (src target : String)
    (maxD : Nat) (hwf : EdgesWellFormed g) (hsr : StrengthsInRange g) :
    (∀ p, find_shortest_path g src target maxD = some p →
      p.path_length ≤ maxD ∧
      ∀ n, ReachableIn g src target n → p.path_length ≤ n) ∧
    (find_shortest_path g src target maxD = none ↔
      (¬ ReachableIn g src target maxD ∨ src = target)) := by
  have h := find_shortest_path_correct g src target maxD hwf hsr
  refine ⟨?_, h.2⟩
  intro p hp
  rcases h.1 p hp with ⟨hok, hmin⟩
  obtain ⟨-, -, -, -, -, -, -, hle, -, -, -, -, -⟩ := hok
  exact ⟨hle, hmin⟩

/-- Claim C4 witness: the shortest-path characterisation instantiated on the
spec §8 scenario graph for the pair `(A, D)`. -/
theorem shortest_path_minimality_witness :
    EdgesWellFormed gScenario ∧ StrengthsInRange gScenario ∧
    ((find_shortest_path gScenario "A" "D" 3 = none) ↔
      (¬ ReachableIn gScenario "A" "D" 3 ∨ "A" = "D")) :=
  ⟨by unfold EdgesWellFormed; decide, by unfold StrengthsInRange; decide,
    (shortest_path_minimality gScenario "A" "D" 3
      (by unfold EdgesWellFormed; decide) (by unfold StrengthsInRange; decide)).2⟩

/-- Claim C5 (amended/corrected): the engine does not fail on a missing source
vendor — `find_paths` silently returns the empty list
(`missing_vendor_empty_counterexample`); the `NotFound` failure the spec asks
of the engine is in fact raised one layer up, by the API route, as a 404. -/
theorem missing_vendor_handling_amended (g : VendorGraph) (si : GraphSearchInput)
    (hmiss : g.getVendor si.source_vendor_id = none) :
    find_paths g si.source_vendor_id si.min_depth si.max_depth
      si.relationship_types si.min_strength si.limit = [] ∧
    analyze_supply_chain_risk g si = Except.error 404 := by
  constructor
  · unfold find_paths
    rw [hmiss]
  · unfold analyze_supply_chain_risk
    rw [hmiss]

/-- Claim C5 counterexample: the engine returns `[]` — not an error — for the
nonexistent vendor `Z`. -/
theorem missing_vendor_empty_counterexample :
    gScenario.getVendor "Z" = none ∧
    find_paths gScenario "Z" 1 3 none 0 100 = [] := by
  decide

/-- Claim C5 witness: the amended missing-vendor behaviour instantiated on the
spec §8 scenario graph with the absent vendor id `Z`. -/
theorem missing_vendor_handling_witness :
    gScenario.getVendor "Z" = none ∧
    (find_paths gScenario "Z" 3 10 none 0 100 = [] ∧
     analyze_supply_chain_risk gScenario ⟨"Z", 3, 10, none, 0, 100⟩ =
       Except.error 404) :=
  ⟨by decide,
    missing_vendor_handling_amended gScenario ⟨"Z", 3, 10, none, 0, 100⟩ (by decide)⟩

/-- Claim C6: the hybrid selector attempts the native backend at most once per
call; on a native failure it falls back exactly once to the relational engine,
whose complete result is returned (never a mixture — the result is a single
constructor of `HybridPaths`/`HybridShortest`); with no native backend
configured, zero native attempts are made. -/
theorem hybrid_single_fallback
    (oracleP : Option (Except String (List Neo4jPathRecord)))
    (oracleS : Option (Except String (Option Neo4jPathRecord)))
    (g : VendorGraph) (src target : String) (minD maxD spMaxD : Nat)
    (types : Option (List String)) (minS : ℚ) (limit : Nat) :
    ((hybrid_find_paths oracleP g src minD maxD types minS limit).2 ≤ 1 ∧
     (∀ ps, oracleP = some (Except.ok ps) →
       hybrid_find_paths oracleP g src minD maxD types minS limit =
         (HybridPaths.neo4j ps, 1)) ∧
     (∀ e, oracleP = some (Except.error e) →
       hybrid_find_paths oracleP g src minD maxD types minS limit =
         (HybridPaths.mysql (find_paths g src minD maxD types minS limit), 1)) ∧
     (oracleP = none →
       hybrid_find_paths oracleP g src minD maxD types minS limit =
         (HybridPaths.mysql (find_paths g src minD maxD types minS limit), 0))) ∧
    ((hybrid_find_shortest_path oracleS g src target spMaxD).2 ≤ 1 ∧
     (∀ p, oracleS = some (Except.ok p) →
       hybrid_find_shortest_path oracleS g src target spMaxD =
         (HybridShortest.neo4j p, 1)) ∧
     (∀ e, oracleS = some (Except.error e) →
       hybrid_find_shortest_path oracleS g src target spMaxD =
         (HybridShortest.mysql (find_shortest_path g src target spMaxD), 1)) ∧
     (oracleS = none →
       hybrid_find_shortest_path oracleS g src target spMaxD =
         (HybridShortest.mysql (find_shortest_path g src target spMaxD), 0))) := by
  constructor
  · refine ⟨?_, ?_, ?_, ?_⟩
    · cases oracleP with
      | none => simp [hybrid_find_paths]
      | some r => cases r with
        | error e => simp [hybrid_find_paths]
        | ok ps => simp [hybrid_find_paths]
    · intro ps h
      subst h
      rfl
    · intro e h
      subst h
      rfl
    · intro h
      subst h
      rfl
  · refine ⟨?_, ?_, ?_, ?_⟩
    · cases oracleS with
      | none => simp [hybrid_find_shortest_path]
      | some r => cases r with
        | error e => simp [hybrid_find_shortest_path]
        | ok p => simp [hybrid_find_shortest_path]
    · intro p h
      subst h
      rfl
    · intro e h
      subst h
      rfl
    · intro h
      subst h
      rfl

/-- Claim C6 witness: a failing native backend falls back to the relational
engine exactly once, on the spec §8 scenario graph. -/
theorem hybrid_single_fallback_witness :
    hybrid_find_paths (some (Except.error "down")) gScenario "A" 1 3 none 0 100 =
      (HybridPaths.mysql (find_paths gScenario "A" 1 3 none 0 100), 1) ∧
    hybrid_find_shortest_path (some (Except.error "down")) gScenario "A" "D" 3 =
      (HybridShortest.mysql (find_shortest_path gScenario "A" "D" 3), 1) :=
  ⟨(hybrid_single_fallback (some (Except.error "down")) (some (Except.error "down"))
      gScenario "A" "D" 1 3 3 none 0 100).1.2.2.1 "down" rfl,
   (hybrid_single_fallback (some (Except.error "down")) (some (Except.error "down"))
      gScenario "A" "D" 1 3 3 none 0 100).2.2.2.1 "down" rfl⟩

/-- Claim C7: the list returned by `find_paths` is sorted by ascending
`path_length`, ties broken by descending `total_strength`, and never holds
more than `limit` entries. -/
theorem find_paths_sorted_limited (g : VendorGraph) (src : String)
    (minD maxD : Nat) (types : Option (List String)) (minS : ℚ) (limit : Nat) :
    (find_paths g src minD maxD types minS limit).Pairwise
      (fun p q => p.path_length < q.path_length ∨
        (p.path_length = q.path_length ∧ q.total_strength ≤ p.total_strength)) ∧
    (find_paths g src minD maxD types minS limit).length ≤ limit :=
  find_paths_sorted_aux g src minD maxD types minS limit

/-- Claim C10: `find_paths` deduplicates by the ordered vendor-id sequence
alone, so the returned paths carry pairwise-distinct id sequences; on the
fixture with two parallel `A→B` edges of different types, only the
first-enumerated edge (id 1, strength `0.5`) produces a path. -/
theorem parallel_edge_collapse :
    (∀ (g : VendorGraph) (src : String) (minD maxD : Nat)
       (types : Option (List String)) (minS : ℚ) (limit : Nat),
      ((find_paths g src minD maxD types minS limit).map
        (fun p => trailIds p.relationships)).Nodup) ∧
    (∃ r₁ ∈ gParallel.rels, ∃ r₂ ∈ gParallel.rels, r₁ ≠ r₂ ∧
      r₁.source_vendor_id = r₂.source_vendor_id ∧
      r₁.target_vendor_id = r₂.target_vendor_id ∧
      r₁.relationship_type ≠ r₂.relationship_type) ∧
    (find_paths gParallel "A" 1 1 none 0 100).map
      (fun p => (p.relationships.map (fun r => r.id), p.total_strength)) =
      [([1], 1/2)] := by
  refine ⟨find_paths_ids_nodup, ?_, ?_⟩
  · decide
  · decide

/-- Claim C8: for a party level in `[1,15]` and an existing vendor, the
nth-party assessment aggregates `find_paths` run at exactly that depth
(`min_depth = max_depth = N`, limit 500): each target vendor appears at most
once, its `paths_to_vendor` counts the collected paths ending at it, and its
`avg_risk_score` is the running average `(avg + new) / 2` folded over those
paths' risk values in processing order, seeded by the first one — not the
arithmetic mean. -/
theorem nth_party_assessment_correct (g : VendorGraph) (vid : String) (N : Nat)
    (h1 : 1 ≤ N) (h15 : N ≤ 15) (hv : (g.getVendor vid).isSome) :
    ∃ l, nth_party_vendor_assessment g vid N = Except.ok l ∧
      (l.map (fun v => v.vendor_id)).Nodup ∧
      (∀ v ∈ l,
        v.paths_to_vendor = ((find_paths g vid N N none 0 500).filter
          (fun p => endsAt p v.vendor_id)).length ∧
        v.avg_risk_score = runningAverage (((find_paths g vid N N none 0 500).filter
          (fun p => endsAt p v.vendor_id)).map (fun p => riskValueOr0 p.risk_score))) ∧
      (∀ p ∈ find_paths g vid N N none 0 500, ∀ n, p.path.getLast? = some n →
        n.vendor_id ∈ l.map (fun v => v.vendor_id)) := by
  unfold nth_party_vendor_assessment
  rw [if_neg (by omega)]
  cases hgv : g.getVendor vid with
  | none =>
    rw [hgv] at hv
    exact absurd hv (by simp)
  | some v =>
    dsimp only
    obtain ⟨hnodup, hinv, hcov⟩ := nthLoop_main (find_paths g vid N N none 0 500)
      [] []
      (by simp)
      (by intro v hv'; exact absurd hv' (List.not_mem_nil v))
      (by intro p hp; exact absurd hp (List.not_mem_nil p))
    simp only [List.nil_append] at hinv hcov
    have hperm := pySort_perm (fun a b => decide (b.avg_risk_score < a.avg_risk_score))
      (nthLoop (find_paths g vid N N none 0 500) [])
    refine ⟨_, rfl, ?_, ?_, ?_⟩
    · exact (hperm.map (fun v => v.vendor_id)).nodup_iff.mpr hnodup
    · intro w hw
      rcases hinv w (hperm.mem_iff.mp hw) with ⟨hc, ha, -⟩
      exact ⟨hc, ha⟩
    · intro p hp n hn
      exact (hperm.map (fun v => v.vendor_id)).mem_iff.mpr (hcov p hp n hn)

/-- Claim C8 witness: the nth-party assessment characterisation at level 2 on
the spec §8 scenario graph. -/
theorem nth_party_assessment_witness :
    1 ≤ 2 ∧ 2 ≤ 15 ∧ (gScenario.getVendor "A").isSome ∧
    (∃ l, nth_party_vendor_assessment gScenario "A" 2 = Except.ok l ∧
      (l.map (fun v => v.vendor_id)).Nodup ∧
      (∀ v ∈ l,
        v.paths_to_vendor = ((find_paths gScenario "A" 2 2 none 0 500).filter
          (fun p => endsAt p v.vendor_id)).length ∧
        v.avg_risk_score = runningAverage (((find_paths gScenario "A" 2 2
          none 0 500).filter (fun p => endsAt p v.vendor_id)).map
            (fun p => riskValueOr0 p.risk_score))) ∧
      (∀ p ∈ find_paths gScenario "A" 2 2 none 0 500, ∀ n,
        p.path.getLast? = some n → n.vendor_id ∈ l.map (fun v => v.vendor_id))) :=
  ⟨by decide, by decide, by decide,
    nth_party_assessment_correct gScenario "A" 2 (by decide) (by decide) (by decide)⟩

/-- Claim C9: for a maximum depth in `[1,15]` and an existing vendor, the deep
search runs `find_paths` over depths `1..maxDepth` (limit 1000), groups the
results by `path_length` (each group exactly the paths of that length, each
level listed once, every path covered), and reports per level the path count
and an average risk equal to the arithmetic mean of the level's risk scores
(`risk_score = 1 - total_strength` on every grouped path). -/
theorem deep_search_level_stats_correct (g : VendorGraph) (vid : String)
    (maxD : Nat) (h1 : 1 ≤ maxD) (h15 : maxD ≤ 15)
    (hv : (g.getVendor vid).isSome) :
    ∃ out, deep_vendor_search g vid maxD = Except.ok out ∧
      out.total_paths_found = (find_paths g vid 1 maxD none 0 1000).length ∧
      ((out.depth_statistics.map (fun e => e.1)).Nodup) ∧
      (∀ e ∈ out.depth_statistics,
        e.2.degree = e.1 ∧
        e.2.paths = (find_paths g vid 1 maxD none 0 1000).filter
          (fun p => p.path_length == e.1) ∧
        e.2.paths ≠ [] ∧
        e.2.vendors_found = e.2.paths.length ∧
        (∀ p ∈ e.2.paths, p.risk_score = some (1 - p.total_strength)) ∧
        e.2.avg_risk_score =
          ((e.2.paths.map (fun p => riskValueOr0 p.risk_score)).sum) /
            (e.2.paths.length : ℚ)) ∧
      (∀ p ∈ find_paths g vid 1 maxD none 0 1000,
        p.path_length ∈ out.depth_statistics.map (fun e => e.1)) := by
  unfold deep_vendor_search
  rw [if_neg (by omega)]
  cases hgv : g.getVendor vid with
  | none =>
    rw [hgv] at hv
    exact absurd hv (by simp)
  | some v =>
    dsimp only
    obtain ⟨hnd, hinv, hcov⟩ := groupByDepth_main (find_paths g vid 1 maxD none 0 1000)
      [] []
      (by simp)
      (by intro e he; exact absurd he (List.not_mem_nil e))
      (by intro p hp; exact absurd hp (List.not_mem_nil p))
    simp only [List.nil_append] at hinv hcov
    have hkeys : ((groupByDepth (find_paths g vid 1 maxD none 0 1000) []).map
        (fun e => (e.1, levelStats e.1 e.2))).map (fun e => e.1) =
        (groupByDepth (find_paths g vid 1 maxD none 0 1000) []).map (fun e => e.1) := by
      rw [List.map_map]
      exact List.map_congr_left (fun e _ => rfl)
    refine ⟨_, rfl, rfl, ?_, ?_, ?_⟩
    · rw [hkeys]
      exact hnd
    · intro e' he'
      rcases List.mem_map.mp he' with ⟨e, he, heq⟩
      rcases hinv e he with ⟨hf, hne⟩
      subst heq
      refine ⟨rfl, hf, hne, rfl, ?_, ?_⟩
      · intro p hp
        rw [hf] at hp
        obtain ⟨-, -, -, -, -, -, -, -, -, hrisk, -, -, -⟩ :=
          find_paths_sound g vid 1 maxD none 0 1000 p (List.mem_of_mem_filter hp)
        exact hrisk
      · show ((e.2.filter (fun p => riskTruthy p.risk_score)).map
            (fun p => riskValueOr0 p.risk_score)).sum / (e.2.length : ℚ) = _
        rw [truthy_sum_eq]
        rfl
    · intro p hp
      rw [hkeys]
      exact hcov p hp

/-- Claim C9 witness: the deep-search characterisation at depth 3 on the spec
§8 scenario graph. -/
theorem deep_search_level_stats_witness :
    1 ≤ 3 ∧ 3 ≤ 15 ∧ (gScenario.getVendor "A").isSome ∧
    (∃ out, deep_vendor_search gScenario "A" 3 = Except.ok out ∧
      out.total_paths_found = (find_paths gScenario "A" 1 3 none 0 1000).length ∧
      ((out.depth_statistics.map (fun e => e.1)).Nodup) ∧
      (∀ e ∈ out.depth_statistics,
        e.2.degree = e.1 ∧
        e.2.paths = (find_paths gScenario "A" 1 3 none 0 1000).filter
          (fun p => p.path_length == e.1) ∧
        e.2.paths ≠ [] ∧
        e.2.vendors_found = e.2.paths.length ∧
        (∀ p ∈ e.2.paths, p.risk_score = some (1 - p.total_strength)) ∧
        e.2.avg_risk_score =
          ((e.2.paths.map (fun p => riskValueOr0 p.risk_score)).sum) /
            (e.2.paths.length : ℚ)) ∧
      (∀ p ∈ find_paths gScenario "A" 1 3 none 0 1000,
        p.path_length ∈ out.depth_statistics.map (fun e => e.1))) :=
  ⟨by decide, by decide, by decide,
    deep_search_level_stats_correct gScenario "A" 3 (by decide) (by decide) (by decide)⟩

/-- Claim C1 (amended): the backend equivalence fails as stated
(`backend_equivalence_counterexample`): Cypher's variable-length match is
relationship-unique but may revisit nodes, while the relational engine walks
only simple paths and deduplicates them by vendor-id signature, so parallel
edges (and cycles) separate the two backends even when `limit` never binds.
Under the conditions that exclude those effects — well-formed edges, no
parallel edges, injective path signatures, node-simple native matches,
`min_depth ≥ 1`, and both result counts strictly below `limit` — the two
backends return exactly the same set of
`(target_vendor_id, path_length, total_strength)` tuples. -/
theorem backend_tuple_equivalence_amended (g : VendorGraph) (src : String)
    (minD maxD : Nat) (types : Option (List String)) (minS : ℚ) (limit : Nat)
    (hwf : EdgesWellFormed g) (hnp : NoParallelEdges g)
    (hsrc : (g.getVendor src).isSome)
    (hinj : SigInjective g src maxD)
    (hmin1 : 1 ≤ minD)
    (hm_lt : (find_paths g src minD maxD types minS limit).length < limit)
    (hn_lt : (neo4j_find_paths g src minD maxD types minS limit).length < limit)
    (hsimple : ∀ rec ∈ neo4j_find_paths g src minD maxD types minS limit,
      recordNodeSimple rec) :
    ∀ x : String × Nat × ℚ,
      x ∈ (find_paths g src minD maxD types minS limit).map mysqlTuple ↔
      x ∈ (neo4j_find_paths g src minD maxD types minS limit).map neoTuple := by
  intro x
  constructor
  · intro hx
    rcases List.mem_map.mp hx with ⟨p, hp, hxeq⟩
    obtain ⟨hsrc_p, hchain, hfilt, hm, hplen, hlen, hminD_p, hmaxD_p, hstr, -,
      htgt, hnd, hns⟩ := find_paths_sound g src minD maxD types minS limit p hp
    have hnd_edges : p.relationships.Nodup := List.Nodup.of_map _ hnd
    have hrec : (⟨src, trailEnd src p.relationships, p.relationships.length,
        trailStrength p.relationships,
        src :: p.relationships.map (fun r => r.target_vendor_id),
        p.relationships⟩ : Neo4jPathRecord) ∈
        neo4j_find_paths g src minD maxD types minS limit :=
      (mem_neo4j_find_paths g src minD maxD types minS limit hsrc hn_lt _).mpr
        ⟨p.relationships, hchain, hfilt, hnd_edges, by omega, by omega, rfl⟩
    refine List.mem_map.mpr ⟨_, hrec, ?_⟩
    rw [← hxeq]
    unfold neoTuple mysqlTuple
    dsimp only
    rw [htgt, hstr, hplen, hlen]
  · intro hx
    rcases List.mem_map.mp hx with ⟨rec, hrec, hxeq⟩
    rcases (mem_neo4j_find_paths g src minD maxD types minS limit hsrc hn_lt
      rec).mp hrec with ⟨t, hc, hf, hndE, hminw, hmaxw, hreceq⟩
    have hsimp := hsimple rec hrec
    subst hreceq
    unfold recordNodeSimple at hsimp
    dsimp only at hsimp
    obtain ⟨hndI, hnsI⟩ := hsimp
    have h1t : 1 ≤ t.length := le_trans hmin1 hminw
    obtain ⟨p, hp, hsig⟩ := find_paths_complete g src minD maxD types minS limit
      hwf hsrc hm_lt t hc hf hndI hnsI h1t hmaxw hminw
    obtain ⟨hsrc_p, hchain, hfilt, hm, hplen, hlen, hminD_p, hmaxD_p, hstr, -,
      htgt, hnd, hns⟩ := find_paths_sound g src minD maxD types minS limit p hp
    have hids : trailIds p.relationships = trailIds t :=
      hinj p.relationships t hchain hc hnd hndI (by omega) hmaxw hsig
    have hrels_eq : p.relationships = t :=
      chain_ids_unique g hnp p.relationships t src hchain hc hids
    refine List.mem_map.mpr ⟨p, hp, ?_⟩
    rw [← hxeq]
    unfold neoTuple mysqlTuple
    dsimp only
    rw [htgt, hstr, hplen, hlen, hrels_eq]

/-- Claim C1 counterexample: on the parallel-edge fixture both backends emit
fewer results than the limit, yet the native backend returns the tuple
`(B, 1, 0.25)` through the second parallel edge while the relational engine's
signature deduplication never emits it. -/
theorem backend_equivalence_counterexample :
    (find_paths gParallel "A" 1 1 none 0 100).length < 100 ∧
    (neo4j_find_paths gParallel "A" 1 1 none 0 100).length < 100 ∧
    ("B", 1, (1/4 : ℚ)) ∈ (neo4j_find_paths gParallel "A" 1 1 none 0 100).map neoTuple ∧
    ("B", 1, (1/4 : ℚ)) ∉ (find_paths gParallel "A" 1 1 none 0 100).map mysqlTuple := by
  refine ⟨by decide, by decide, by decide, by decide⟩

/-- Claim C1 witness: the amended equivalence instantiated on the spec §8
scenario graph, checked at the tuple of the full three-hop path. -/
theorem backend_tuple_equivalence_witness :
    EdgesWellFormed gScenario ∧ NoParallelEdges gScenario ∧
    (gScenario.getVendor "A").isSome ∧
    (("D", 3, (504/1000 : ℚ)) ∈
        (find_paths gScenario "A" 1 3 none 0 100).map mysqlTuple ↔
     ("D", 3, (504/1000 : ℚ)) ∈
        (neo4j_find_paths gScenario "A" 1 3 none 0 100).map neoTuple) :=
  ⟨by unfold EdgesWellFormed; decide, by unfold NoParallelEdges; decide, by decide,
    backend_tuple_equivalence_amended gScenario "A" 1 3 none 0 100
      (by unfold EdgesWellFormed; decide) (by unfold NoParallelEdges; decide)
      (by decide) sigInjective_gScenario (by decide) (by decide) (by decide)
      (by simp only [recordNodeSimple]; decide) ("D", 3, 504/1000)⟩
